import Mathlib

/-!
# cgmanager: request executors of `cgmanager.c`

A shallow embedding of the executors `create_main`, `remove_main`
(with `normalize_path` and `recursive_rmdir`), `move_pid_main` and
`chown_main`, together with the reply encoders `create_scm_complete` and
`remove_scm_complete`.

* C strings are `List Char` (the bytes before the terminating NUL).
* The helpers of `fs.c` and `access_checks.c` and the system calls are not
  part of the translated file; they are the fields of `Sys`, an arbitrary
  operating system over a state type `σ`.  Every executor threads the state
  and returns the chronological list of the calls it made (`Event`).
* Buffers are unbounded: `strncat` bounds only the number of bytes taken from
  the source string, as in C; allocation never fails.  The embedding agrees
  with the program as long as the strings fit the C buffers; the theorems that
  depend on this state the bound.
* `CgFs` is one concrete operating system, a tree of cgroup directories with
  owners, used for the properties that compare directory trees; `cgFileSys`
  adds the regular control files that every cgroup directory holds.
-/

namespace Cgmanager

/-! ## C library helpers -/

/-- The constant `MAXPATHLEN` of `<sys/param.h>` (`PATH_MAX` on Linux). -/
def MAXPATHLEN : Nat := 4096

/-- The C call `strncat(dst, src, n)`: appends at most `n` bytes of `src`. -/
def strncat (dst src : List Char) (n : Nat) : List Char :=
  dst ++ src.take n

/-- The test `strstr(s, "..") != NULL`. -/
def strstr_dotdot : List Char → Bool
  | [] => false
  | c :: cs =>
    match cs with
    | [] => false
    | d :: _ => (c == '.' && d == '.') || strstr_dotdot cs

/-- The test `strstr(s, "//") != NULL`. -/
def strstr_slashslash : List Char → Bool
  | [] => false
  | c :: cs =>
    match cs with
    | [] => false
    | d :: _ => (c == '/' && d == '/') || strstr_slashslash cs

/-- The C call `strrchr(s, '/')` followed by `*p = 0`: the string cut at its
last `'/'`, or `none` when it has no `'/'`. -/
def cut_at_last_slash : List Char → Option (List Char)
  | [] => none
  | c :: cs =>
    match cut_at_last_slash cs with
    | some r => some (c :: r)
    | none => if c = '/' then some [] else none

/-! ## The environment: credentials, system calls, events -/

/-- The Linux `struct ucred`. -/
structure ucred where
  pid : Int
  uid : Nat
  gid : Nat
deriving DecidableEq, Repr

/-- The access modes handed to `may_access`. -/
inductive OpenMode where
  | O_RDONLY
  | O_WRONLY
  | O_RDWR
deriving DecidableEq, Repr

/-- The outcome of `mkdir(2)`: success, `-1` with `errno == EEXIST`, or `-1`
with another `errno`. -/
inductive MkdirResult where
  | ok
  | eexist
  | error
deriving DecidableEq, Repr

/-- The operating system and the helpers of `fs.c` / `access_checks.c` that
`cgmanager.c` calls, over a state `σ`.  Queries read the state; mutating calls
return the new state. -/
structure Sys (σ : Type) where
  /-- The call `compute_pid_cgroup(pid, controller, cgroup, path)`: the path or failure. -/
  compute_pid_cgroup : σ → Int → List Char → List Char → Option (List Char)
  /-- The call `dir_exists(path)`. -/
  dir_exists : σ → List Char → Bool
  /-- The call `may_access(pid, uid, gid, path, mode)`. -/
  may_access : σ → Int → Nat → Nat → List Char → OpenMode → Bool
  /-- The call `may_move_pid(r.pid, r.uid, v.pid)`. -/
  may_move_pid : σ → Int → Nat → Int → Bool
  /-- The call `hostuid_to_ns(uid, pid, &answer)`: the answer, or `none` for `false`. -/
  hostuid_to_ns : σ → Nat → Int → Option Nat
  /-- The call `realpath_escapes(path, safety)`. -/
  realpath_escapes : σ → List Char → List Char → Bool
  /-- The call `mkdir(path, mode)`. -/
  mkdir : σ → List Char → Nat → MkdirResult × σ
  /-- The call `rmdir(path)`; `true` is return value 0. -/
  rmdir : σ → List Char → Bool × σ
  /-- The call `chown_cgroup_path(path, uid, gid, all_children)`. -/
  chown_cgroup_path : σ → List Char → Nat → Nat → Bool → Bool × σ
  /-- The call `opendir(path)` and the names `readdir_r` then yields; `none` when it fails. -/
  opendir : σ → List Char → Option (List (List Char))
  /-- The call `lstat(path, &st)`: `none` on failure, else `S_ISDIR(st.st_mode)`. -/
  lstat_isdir : σ → List Char → Option Bool
  /-- Whether `closedir(dir)` returns 0. -/
  closedir : σ → List Char → Bool
  /-- The call `fopen(path, "w")`; `true` is a non-NULL stream. -/
  fopen_w : σ → List Char → Bool × σ
  /-- The call `fprintf(f, ...)` of the given bytes; `true` is a non-negative result. -/
  fprintf : σ → List Char → List Char → Bool × σ
  /-- The call `fclose(f)`; `true` is return value 0. -/
  fclose : σ → List Char → Bool × σ
  /-- The call `is_same_pidns(pid)`. -/
  is_same_pidns : σ → Int → Bool
  /-- The call `is_same_userns(pid)`. -/
  is_same_userns : σ → Int → Bool
  /-- The call `file_read_string(parent, path)`; `none` is NULL. -/
  file_read_string : σ → List Char → Option (List Char)
  /-- The call `set_value(path, value)`. -/
  set_value : σ → List Char → List Char → Bool × σ
  /-- The call `file_read_pids(parent, path, &pids)`; `none` is a negative result. -/
  file_read_pids : σ → List Char → Option (List Int)

/-- One call made by an executor, with its arguments and its result. -/
inductive Event where
  | may_access (pid : Int) (uid gid : Nat) (path : List Char) (mode : OpenMode) (res : Bool)
  | mkdir (path : List Char) (mode : Nat) (res : MkdirResult)
  | chown_cgroup_path (path : List Char) (uid gid : Nat) (all_children : Bool) (res : Bool)
  | rmdir (path : List Char) (res : Bool)
  | fopen_w (path : List Char) (res : Bool)
  | fprintf (path : List Char) (data : List Char) (res : Bool)
  | fclose (path : List Char) (res : Bool)
  | file_read_string (path : List Char) (res : Option (List Char))
  | set_value (path : List Char) (value : List Char) (res : Bool)
  | file_read_pids (path : List Char) (res : Option (List Int))
deriving DecidableEq, Repr

/-- The calls that can change the filesystem: `mkdir`, `chown`, `rmdir` and
the writes to a file. -/
def Event.isMutation : Event → Bool
  | .may_access .. => false
  | .file_read_string .. => false
  | .file_read_pids .. => false
  | _ => true

/-- The path that the call was made on. -/
def Event.path : Event → List Char
  | .may_access _ _ _ p _ _ => p
  | .mkdir p _ _ => p
  | .chown_cgroup_path p _ _ _ _ => p
  | .rmdir p _ => p
  | .fopen_w p _ => p
  | .fprintf p _ _ => p
  | .fclose p _ => p
  | .file_read_string p _ => p
  | .set_value p _ _ => p
  | .file_read_pids p _ => p

/-- What an executor with an `existed` out-parameter leaves behind. -/
structure Outcome (σ : Type) where
  ret : Int
  existed : Int
  st : σ
  trace : List Event

/-- What an executor without out-parameter leaves behind. -/
structure Ret (σ : Type) where
  ret : Int
  st : σ
  trace : List Event

/-- Put the calls made so far in front of the calls of the continuation. -/
def Outcome.after {σ : Type} (evs : List Event) (o : Outcome σ) : Outcome σ :=
  { o with trace := evs ++ o.trace }

/-! ## `create_main` -/

/-- The components that the loop `for (p = copy; *p; p = p2)` of `create_main`
visits: `p2` scans to the next `'/'` or to the end, the bytes between `p` and
`p2` are one component, and `p2` then steps over the `'/'`; the loop ends when
`*p` is NUL, so a final `'/'` adds no empty component. -/
def components : List Char → List (List Char)
  | [] => []
  | c :: cs =>
    if c = '/' then [] :: components cs
    else
      match components cs with
      | [] => [[c]]
      | s :: ss => (c :: s) :: ss

variable {σ : Type}

/-- The body of the loop of `create_main`, one component per step.  `path`
and `dirpath` are the two buffers; the `Int` is `*existed` when the loop is
entered or left. -/
def create_loop (sys : Sys σ) (u : ucred) :
    List (List Char) → σ → List Char → List Char → Int → Outcome σ
  | [], st, _, _, existed => ⟨0, existed, st, []⟩
  | p :: rest, st, path, dirpath, _ =>
    -- *existed = -1;
    if p = ['.', '.'] then ⟨-1, -1, st, []⟩
    else
      let path1 := strncat (strncat path ['/'] (MAXPATHLEN - 1)) p (MAXPATHLEN - 1)
      let dirpath1 := strncat (strncat dirpath ['/'] (MAXPATHLEN - 1)) p (MAXPATHLEN - 1)
      if sys.dir_exists st path1 then
        -- *existed = 1;
        let a := sys.may_access st u.pid u.uid u.gid path1 .O_RDONLY
        let ev := [Event.may_access u.pid u.uid u.gid path1 .O_RDONLY a]
        if a then (create_loop sys u rest st path1 dirpath1 1).after ev
        else ⟨-1, 1, st, ev⟩
      else
        let a := sys.may_access st u.pid u.uid u.gid dirpath .O_RDWR
        let ev := [Event.may_access u.pid u.uid u.gid dirpath .O_RDWR a]
        if a then
          match sys.mkdir st path1 0o755 with
          | (.eexist, st1) =>
            -- *existed = 1; goto next;
            (create_loop sys u rest st1 path1 dirpath1 1).after
              (ev ++ [Event.mkdir path1 0o755 .eexist])
          | (.error, st1) => ⟨-1, -1, st1, ev ++ [Event.mkdir path1 0o755 .error]⟩
          | (.ok, st1) =>
            match sys.chown_cgroup_path st1 path1 u.uid u.gid true with
            | (false, st2) =>
              let r := sys.rmdir st2 path1
              ⟨-1, -1, r.2, ev ++ [Event.mkdir path1 0o755 .ok,
                Event.chown_cgroup_path path1 u.uid u.gid true false,
                Event.rmdir path1 r.1]⟩
            | (true, st2) =>
              -- *existed = -1;
              (create_loop sys u rest st2 path1 dirpath1 (-1)).after
                (ev ++ [Event.mkdir path1 0o755 .ok,
                  Event.chown_cgroup_path path1 u.uid u.gid true true])
        else ⟨-1, -1, st, ev⟩

/-- The executor `create_main(controller, cgroup, ucred, &existed)`. -/
def create_main (sys : Sys σ) (st : σ) (controller cgroup : List Char) (u : ucred) :
    Outcome σ :=
  -- *existed = 1;
  match cgroup with
  | [] => ⟨0, 1, st, []⟩
  | c0 :: _ =>
    if c0 = '/' ∨ c0 = '.' then ⟨-1, 1, st, []⟩
    else
      match sys.compute_pid_cgroup st u.pid controller [] with
      | none => ⟨-1, 1, st, []⟩
      | some rcgpath =>
        if rcgpath.length + cgroup.length > MAXPATHLEN then ⟨-1, 1, st, []⟩
        else create_loop sys u (components cgroup) st rcgpath rcgpath 1

/-- The reply byte that `create_scm_complete` writes to the client. -/
def create_scm_complete (o : Outcome σ) : Char :=
  if o.ret = 0 then (if o.existed = 1 then '2' else '1') else '0'

/-- The successive values of the buffer `path` in the loop of `create_main`:
one path per component. -/
def component_paths : List Char → List (List Char) → List (List Char)
  | _, [] => []
  | path, p :: rest =>
    strncat (strncat path ['/'] (MAXPATHLEN - 1)) p (MAXPATHLEN - 1) ::
      component_paths (strncat (strncat path ['/'] (MAXPATHLEN - 1)) p (MAXPATHLEN - 1)) rest

/-! ## `normalize_path`, `recursive_rmdir`, `remove_main` -/

/-- The loop `while ((path = strstr(path, "//")) != NULL)` of
`normalize_path`.  With flag `false` the scan looks for the next `"//"`; when
it is found at `path`, `p2` skips every `'/'` (flag `true`) and
`memcpy(path, p2, strlen(p2)+1)` moves the rest of the string onto `path`
itself, so the whole run of slashes is overwritten; `path++` then steps over
the first moved byte.  When the run of slashes ends the string, the result
ends at `path`.  (`memcpy` on these overlapping ranges copies forward.) -/
def normalize_scan : Bool → List Char → List Char
  | _, [] => []
  | true, c :: cs =>
    if c = '/' then normalize_scan true cs else c :: normalize_scan false cs
  | false, c :: cs =>
    match cs with
    | [] => [c]
    | d :: rest =>
      if c = '/' ∧ d = '/' then normalize_scan true rest
      else c :: normalize_scan false (d :: rest)

/-- The function `normalize_path(path)`: `none` is `false`, `some s` is `true`
with the buffer rewritten to `s`. -/
def normalize_path (path : List Char) : Option (List Char) :=
  if strstr_dotdot path then none else some (normalize_scan false path)

/-- The loop `while (!readdir_r(dir, &dirent, &direntp))` of
`recursive_rmdir` over the names the directory stream yields; `recurse` is the
recursive call, the `Bool` is `failed`, and `none` means that a recursive call
did not return. -/
def readdir_loop (sys : Sys σ) (recurse : σ → List Char → Option (Ret σ))
    (path : List Char) : List (List Char) → σ → Bool → Option (Bool × σ × List Event)
  | [], st, failed => some (failed, st, [])
  | d :: ds, st, failed =>
    if d = ['.'] ∨ d = ['.', '.'] then readdir_loop sys recurse path ds st failed
    else
      -- rc = snprintf(pathname, MAXPATHLEN, "%s/%s", path, direntp->d_name);
      let pathname := path ++ '/' :: d
      if pathname.length ≥ MAXPATHLEN then readdir_loop sys recurse path ds st true
      else
        match sys.lstat_isdir st pathname with
        | none => readdir_loop sys recurse path ds st true
        | some false => readdir_loop sys recurse path ds st failed
        | some true =>
          match recurse st pathname with
          | none => none
          | some r =>
            match readdir_loop sys recurse path ds r.st (failed || decide (r.ret < 0)) with
            | none => none
            | some (f, st1, evs) => some (f, st1, r.trace ++ evs)

/-- The function `recursive_rmdir(path)`.  The first argument bounds the depth
of the recursion; `none` means that the bound was reached. -/
def recursive_rmdir (sys : Sys σ) : Nat → σ → List Char → Option (Ret σ)
  | 0, _, _ => none
  | fuel + 1, st, path =>
    match sys.opendir st path with
    | none => some ⟨-1, st, []⟩
    | some names =>
      match readdir_loop sys (recursive_rmdir sys fuel) path names st false with
      | none => none
      | some (failed, st1, evs) =>
        let failed1 := failed || !sys.closedir st1 path
        let r := sys.rmdir st1 path
        let failed2 := failed1 || !r.1
        some ⟨if failed2 then -1 else 0, r.2, evs ++ [Event.rmdir path r.1]⟩

/-- The executor `remove_main(controller, cgroup, ucred, recursive, &existed)`.
The first argument bounds the depth of `recursive_rmdir`; `none` means that
the bound was reached. -/
def remove_main (sys : Sys σ) (fuel : Nat) (st : σ) (controller cgroup : List Char)
    (u : ucred) (recursive : Int) : Option (Outcome σ) :=
  -- *existed = 1;
  match cgroup with
  | [] => some ⟨0, 1, st, []⟩
  | c0 :: _ =>
    if c0 = '/' ∨ c0 = '.' then some ⟨-1, 1, st, []⟩
    else
      match sys.compute_pid_cgroup st u.pid controller [] with
      | none => some ⟨-1, 1, st, []⟩
      | some rcgpath =>
        if rcgpath.length + cgroup.length > MAXPATHLEN then some ⟨-1, 1, st, []⟩
        else
          match normalize_path cgroup with
          | none => some ⟨-1, 1, st, []⟩
          | some wcgroup =>
            let working := rcgpath ++ ['/'] ++ wcgroup
            if !sys.dir_exists st working then some ⟨0, -1, st, []⟩
            else
              match cut_at_last_slash working with
              | none => some ⟨-1, 1, st, []⟩
              | some copy =>
                let a := sys.may_access st u.pid u.uid u.gid copy .O_WRONLY
                let ev := [Event.may_access u.pid u.uid u.gid copy .O_WRONLY a]
                if !a then some ⟨-1, 1, st, ev⟩
                else if recursive = 0 then
                  let r := sys.rmdir st working
                  some ⟨if r.1 then 0 else -1, 1, r.2, ev ++ [Event.rmdir working r.1]⟩
                else
                  match recursive_rmdir sys fuel st working with
                  | none => none
                  | some r => some ⟨if r.ret < 0 then -1 else 0, 1, r.st, ev ++ r.trace⟩

/-- The reply byte that `remove_scm_complete` writes to the client. -/
def remove_scm_complete (o : Outcome σ) : Char :=
  if o.ret = 0 then (if o.existed = 1 then '2' else '1') else '0'

/-! ## `move_pid_main`, `chown_main` -/

/-- The test `cgroup[0] == '/' || cgroup[0] == '.'` (the byte at index 0 of
the empty string is NUL). -/
def bad_first_byte (cgroup : List Char) : Bool :=
  match cgroup with
  | [] => false
  | c0 :: _ => c0 == '/' || c0 == '.'

/-- The bytes that `fprintf(f, "%d\n", pid)` writes. -/
def fmt_pid (pid : Int) : List Char :=
  (toString pid).toList ++ ['\n']

/-- The executor `move_pid_main(controller, cgroup, r, v)`. -/
def move_pid_main (sys : Sys σ) (st : σ) (controller cgroup : List Char)
    (r v : ucred) : Ret σ :=
  if !sys.may_move_pid st r.pid r.uid v.pid then ⟨-1, st, []⟩
  else if bad_first_byte cgroup then ⟨-1, st, []⟩
  else
    match sys.compute_pid_cgroup st r.pid controller [] with
    | none => ⟨-1, st, []⟩
    | some rcgpath =>
      if rcgpath.length + cgroup.length > MAXPATHLEN - 8 then ⟨-1, st, []⟩
      else
        let path := strncat (strncat rcgpath ['/'] (MAXPATHLEN - 1)) cgroup (MAXPATHLEN - 1)
        if sys.realpath_escapes st path rcgpath then ⟨-1, st, []⟩
        else
          let a1 := sys.may_access st r.pid r.uid r.gid path .O_RDONLY
          let ev1 := [Event.may_access r.pid r.uid r.gid path .O_RDONLY a1]
          if !a1 then ⟨-1, st, ev1⟩
          else
            let tasks := strncat path ['/', 't', 'a', 's', 'k', 's'] (MAXPATHLEN - 1)
            let a2 := sys.may_access st r.pid r.uid r.gid tasks .O_WRONLY
            let ev2 := ev1 ++ [Event.may_access r.pid r.uid r.gid tasks .O_WRONLY a2]
            if !a2 then ⟨-1, st, ev2⟩
            else
              match sys.fopen_w st tasks with
              | (false, st1) => ⟨-1, st1, ev2 ++ [Event.fopen_w tasks false]⟩
              | (true, st1) =>
                match sys.fprintf st1 tasks (fmt_pid v.pid) with
                | (false, st2) =>
                  let c := sys.fclose st2 tasks
                  ⟨-1, c.2, ev2 ++ [Event.fopen_w tasks true,
                    Event.fprintf tasks (fmt_pid v.pid) false, Event.fclose tasks c.1]⟩
                | (true, st2) =>
                  let c := sys.fclose st2 tasks
                  ⟨if c.1 then 0 else -1, c.2, ev2 ++ [Event.fopen_w tasks true,
                    Event.fprintf tasks (fmt_pid v.pid) true, Event.fclose tasks c.1]⟩

/-- The executor `chown_main(controller, cgroup, r, v)`. -/
def chown_main (sys : Sys σ) (st : σ) (controller cgroup : List Char)
    (r v : ucred) : Ret σ :=
  if sys.hostuid_to_ns st r.uid r.pid ≠ some 0 then ⟨-1, st, []⟩
  else if bad_first_byte cgroup then ⟨-1, st, []⟩
  else
    match sys.compute_pid_cgroup st r.pid controller [] with
    | none => ⟨-1, st, []⟩
    | some rcgpath =>
      if rcgpath.length + cgroup.length > MAXPATHLEN + 2 then ⟨-1, st, []⟩
      else
        -- path = nih_sprintf(NULL, "%s/%s", rcgpath, cgroup);
        let path := rcgpath ++ ['/'] ++ cgroup
        if sys.realpath_escapes st path rcgpath then ⟨-1, st, []⟩
        else
          let a1 := sys.may_access st r.pid r.uid r.gid path .O_RDONLY
          let ev1 := [Event.may_access r.pid r.uid r.gid path .O_RDONLY a1]
          if !a1 then ⟨-1, st, ev1⟩
          else
            let a2 := sys.may_access st r.pid r.uid r.gid path .O_RDWR
            let ev2 := ev1 ++ [Event.may_access r.pid r.uid r.gid path .O_RDWR a2]
            if !a2 then ⟨-1, st, ev2⟩
            else
              let c := sys.chown_cgroup_path st path v.uid v.gid false
              ⟨if c.1 then 0 else -1, c.2,
                ev2 ++ [Event.chown_cgroup_path path v.uid v.gid false c.1]⟩

/-! ## `get_pid_cgroup_main`, `get_value_main`, `set_value_main` -/

/-- The test `strncmp(a, b, n) == 0`: the first `n` bytes agree, the
comparison ending at a common NUL. -/
def strncmp_eq : List Char → List Char → Nat → Bool
  | _, _, 0 => true
  | [], [], _ + 1 => true
  | [], _ :: _, _ + 1 => false
  | _ :: _, [], _ + 1 => false
  | a :: as, b :: bs, n + 1 => a == b && strncmp_eq as bs n

/-- What an executor with a string out-parameter leaves behind; `output` is
`none` when the out-parameter was not written. -/
structure StrRet (σ : Type) where
  ret : Int
  output : Option (List Char)
  st : σ
  trace : List Event

/-- The executor `get_pid_cgroup_main(parent, controller, r, v, &output)`. -/
def get_pid_cgroup_main (sys : Sys σ) (st : σ) (controller : List Char)
    (r v : ucred) : StrRet σ :=
  match sys.compute_pid_cgroup st r.pid controller [] with
  | none => ⟨-1, none, st, []⟩
  | some rcgpath =>
    match sys.compute_pid_cgroup st v.pid controller [] with
    | none => ⟨-1, none, st, []⟩
    | some vcgpath =>
      let rlen := rcgpath.length
      if !strncmp_eq rcgpath vcgpath rlen then ⟨-1, none, st, []⟩
      else if vcgpath.length = rlen then ⟨0, some ['/'], st, []⟩
      else ⟨0, some (vcgpath.drop (rlen + 1)), st, []⟩

/-- The executor `get_value_main(parent, controller, req_cgroup, key, ucred, &value)`. -/
def get_value_main (sys : Sys σ) (st : σ) (controller req_cgroup key : List Char)
    (u : ucred) : StrRet σ :=
  match sys.compute_pid_cgroup st u.pid controller req_cgroup with
  | none => ⟨-1, none, st, []⟩
  | some path =>
    let a1 := sys.may_access st u.pid u.uid u.gid path .O_RDONLY
    let ev1 := [Event.may_access u.pid u.uid u.gid path .O_RDONLY a1]
    if !a1 then ⟨-1, none, st, ev1⟩
    else if path.length + key.length + 2 > MAXPATHLEN then ⟨-1, none, st, ev1⟩
    else
      let file := strncat (strncat path ['/'] (MAXPATHLEN - 1)) key (MAXPATHLEN - 1)
      let a2 := sys.may_access st u.pid u.uid u.gid file .O_RDONLY
      let ev2 := ev1 ++ [Event.may_access u.pid u.uid u.gid file .O_RDONLY a2]
      if !a2 then ⟨-1, none, st, ev2⟩
      else
        let value := sys.file_read_string st file
        ⟨if value.isSome then 0 else -1, value, st,
          ev2 ++ [Event.file_read_string file value]⟩

/-- The executor `set_value_main(controller, req_cgroup, key, value, ucred)`. -/
def set_value_main (sys : Sys σ) (st : σ) (controller req_cgroup key value : List Char)
    (u : ucred) : Ret σ :=
  match sys.compute_pid_cgroup st u.pid controller req_cgroup with
  | none => ⟨-1, st, []⟩
  | some path =>
    let a1 := sys.may_access st u.pid u.uid u.gid path .O_RDONLY
    let ev1 := [Event.may_access u.pid u.uid u.gid path .O_RDONLY a1]
    if !a1 then ⟨-1, st, ev1⟩
    else if path.length + key.length + 2 > MAXPATHLEN then ⟨-1, st, ev1⟩
    else
      let file := strncat (strncat path ['/'] (MAXPATHLEN - 1)) key (MAXPATHLEN - 1)
      let a2 := sys.may_access st u.pid u.uid u.gid file .O_RDWR
      let ev2 := ev1 ++ [Event.may_access u.pid u.uid u.gid file .O_RDWR a2]
      if !a2 then ⟨-1, st, ev2⟩
      else
        let w := sys.set_value st file value
        ⟨if w.1 then 0 else -1, w.2, ev2 ++ [Event.set_value file value w.1]⟩

/-- What an executor with a pid-list out-parameter leaves behind; `pids` is
`none` when the out-parameter was not written. -/
structure PidsRet (σ : Type) where
  ret : Int
  pids : Option (List Int)
  st : σ
  trace : List Event

/-- The executor `get_tasks_main(parent, controller, cgroup, ucred, &pids)`.
Its result is the result of `file_read_pids`: the number of pids, or -1. -/
def get_tasks_main (sys : Sys σ) (st : σ) (controller cgroup : List Char)
    (u : ucred) : PidsRet σ :=
  let key := ['t', 'a', 's', 'k', 's']
  match cgroup with
  | [] => ⟨0, none, st, []⟩
  | _ :: _ =>
    match sys.compute_pid_cgroup st u.pid controller cgroup with
    | none => ⟨-1, none, st, []⟩
    | some path =>
      let a := sys.may_access st u.pid u.uid u.gid path .O_RDONLY
      let ev := [Event.may_access u.pid u.uid u.gid path .O_RDONLY a]
      if !a then ⟨-1, none, st, ev⟩
      else if path.length + key.length + 2 > MAXPATHLEN then ⟨-1, none, st, ev⟩
      else
        let file := strncat (strncat path ['/'] (MAXPATHLEN - 1)) key (MAXPATHLEN - 1)
        let pids := sys.file_read_pids st file
        ⟨match pids with
          | some l => l.length
          | none => -1,
          pids, st, ev ++ [Event.file_read_pids file pids]⟩

/-! ## The credential exchange: `sock_scm_reader` -/

/-- The C type `enum req_type`. -/
inductive req_type where
  | REQ_TYPE_GET_PID
  | REQ_TYPE_MOVE_PID
  | REQ_TYPE_CREATE
  | REQ_TYPE_CHOWN
  | REQ_TYPE_GET_VALUE
  | REQ_TYPE_SET_VALUE
  | REQ_TYPE_REMOVE
  | REQ_TYPE_GET_TASKS
deriving DecidableEq, Repr

/-- The function `need_two_creds(t)`. -/
def need_two_creds : req_type → Bool
  | .REQ_TYPE_GET_PID => true
  | .REQ_TYPE_MOVE_PID => true
  | .REQ_TYPE_CHOWN => true
  | _ => false

/-- The C type `struct scm_sock_data`, the request context. -/
structure scm_sock_data where
  type : req_type
  controller : List Char
  cgroup : List Char
  key : List Char
  value : List Char
  step : Int
  rcred : ucred
  vcred : ucred
  fd : Int
  recursive : Int
deriving DecidableEq, Repr

/-- What `sock_scm_reader` does besides updating the context: the kick byte
written by `kick_fd_client` (with its success), the call of the executor
wrapper selected by `data->type` on the context as it is at that moment, and
`nih_io_shutdown`. -/
inductive ScmAction where
  | kick (ok : Bool)
  | complete (data : scm_sock_data)
  | shutdown
deriving DecidableEq, Repr

/-- The reader `sock_scm_reader(data, io, buf, len)` for one datagram: `creds`
is what `get_nih_io_creds` extracts (`none` when it fails), `kick_ok` is the
result that `kick_fd_client` would have. -/
def sock_scm_reader (data : scm_sock_data) (creds : Option ucred) (kick_ok : Bool) :
    scm_sock_data × List ScmAction :=
  match creds with
  | none => (data, [.shutdown])
  | some uc =>
    if data.step = 0 then
      let d1 := { data with rcred := uc }
      if need_two_creds d1.type then
        ({ d1 with step := 1 }, if kick_ok then [.kick true] else [.kick false, .shutdown])
      else (d1, [.complete d1, .shutdown])
    else
      let d1 := { data with vcred := uc }
      (d1, [.complete d1, .shutdown])

/-- The context after the datagrams of the list have arrived on its socket; a
datagram is given by its credentials and by the result that `kick_fd_client`
would have.  `sock_scm_reader` handles them in turn until it calls
`nih_io_shutdown`: that ends the context (the close handler `scm_sock_close`,
registered with the reader by `nih_io_reopen`, closes the socket and frees
it), so the datagrams after it are not handled. -/
def scm_reader_run (data : scm_sock_data) : List (Option ucred × Bool) → scm_sock_data
  | [] => data
  | (creds, kick_ok) :: rest =>
    if ScmAction.shutdown ∈ (sock_scm_reader data creds kick_ok).2 then
      (sock_scm_reader data creds kick_ok).1
    else scm_reader_run (sock_scm_reader data creds kick_ok).1 rest

/-! ## The plain methods `cgmanager_get_pid_cgroup`, `cgmanager_chown` -/

/-- The D-Bus message handed to a plain method, reduced to what the method
uses: the peer credentials that `dbus_connection_get_socket` and
`getsockopt(SO_PEERCRED)` yield, `none` when the socket cannot be had. -/
structure NihDBusMessage where
  peer : Option ucred

/-- The result of a plain method: its return value and, when it called its
executor, what the executor left behind. -/
structure Plain (α : Type) where
  ret : Int
  main : Option α

/-- The conversion of an `int` argument to `uid_t` / `gid_t` (32 bits). -/
def int_to_id (n : Int) : Nat :=
  (n % 2 ^ 32).toNat

/-- The method `cgmanager_get_pid_cgroup(data, message, controller, plain_pid, &output)`;
`none` is a NULL message. -/
def cgmanager_get_pid_cgroup (sys : Sys σ) (st : σ) (message : Option NihDBusMessage)
    (controller : List Char) (plain_pid : Int) : Plain (StrRet σ) :=
  match message with
  | none => ⟨-1, none⟩
  | some m =>
    match m.peer with
    | none => ⟨-1, none⟩
    | some rcred =>
      if !sys.is_same_pidns st rcred.pid then ⟨-1, none⟩
      else
        let vcred : ucred := ⟨plain_pid, 0, 0⟩
        let r := get_pid_cgroup_main sys st controller rcred vcred
        ⟨if r.ret ≠ 0 then -1 else 0, some r⟩

/-- The method `cgmanager_chown(data, message, controller, cgroup, uid, gid)`;
`none` is a NULL message. -/
def cgmanager_chown (sys : Sys σ) (st : σ) (message : Option NihDBusMessage)
    (controller cgroup : List Char) (uid gid : Int) : Plain (Ret σ) :=
  match message with
  | none => ⟨-1, none⟩
  | some m =>
    match m.peer with
    | none => ⟨-1, none⟩
    | some ucred =>
      if !sys.is_same_pidns st ucred.pid then ⟨-1, none⟩
      else if !sys.is_same_userns st ucred.pid then ⟨-1, none⟩
      else
        let vcred : Cgmanager.ucred := ⟨0, int_to_id uid, int_to_id gid⟩
        let r := chown_main sys st controller cgroup ucred vcred
        ⟨r.ret, some r⟩

/-! ## A concrete operating system: the tree of cgroup directories -/

/-- Modelled from the spec: one cgroup directory of the mounted hierarchy
(the kernel side is not part of `cgmanager.c`).  `path` holds the names from
the directory itself up to the root, so that the tail is the parent. -/
structure CgDir where
  path : List (List Char)
  uid : Nat
  gid : Nat
deriving DecidableEq, Repr

/-- Modelled from the spec: the directory tree, as the list of its directories
other than the root.  The root (path `[]`) is always present.  Regular control
files and the tasks inside a cgroup are not recorded. -/
abbrev CgFs := List CgDir

/-- Modelled from the spec: the parts of the host that are not the directory
tree: the per-process cgroup listing read by `compute_pid_cgroup`, the
discretionary access check of `access_checks.c`, the namespace helpers, and
what reading a control file yields. -/
structure CgEnv where
  cgroup_of : Int → List Char → List Char → Option (List Char)
  access : CgFs → Int → Nat → Nat → List Char → OpenMode → Bool
  may_move : Int → Nat → Int → Bool
  uid_in_ns : Nat → Int → Option Nat
  escapes : CgFs → List Char → List Char → Bool
  same_pidns : Int → Bool
  same_userns : Int → Bool
  read_string : List Char → Option (List Char)
  read_pids : List Char → Option (List Int)

/-- The segments of a path string between its `'/'` bytes, empty ones included. -/
def split_slash : List Char → List (List Char)
  | [] => [[]]
  | c :: cs =>
    if c = '/' then [] :: split_slash cs
    else
      match split_slash cs with
      | [] => [[c]]
      | s :: ss => (c :: s) :: ss

namespace CgFs

/-- Whether the canonical path is a directory of the tree. -/
def isDir (fs : CgFs) (p : List (List Char)) : Bool :=
  p == [] || fs.any (fun d => d.path == p)

/-- Modelled from the spec: kernel path lookup from the root over the segments
of a path string.  Empty segments are skipped; every other segment is looked
up in the current directory, which must exist; `.` stays, `..` goes to the
parent and a name descends.  The result is the canonical path, whose last name
need not exist. -/
def walk (fs : CgFs) : List (List Char) → List (List Char) → Option (List (List Char))
  | [], cur => some cur
  | seg :: rest, cur =>
    if seg = [] then walk fs rest cur
    else if !fs.isDir cur then none
    else if seg = ['.'] then walk fs rest cur
    else if seg = ['.', '.'] then walk fs rest cur.tail
    else walk fs rest (seg :: cur)

/-- The canonical path that a path string denotes, if the lookup succeeds. -/
def resolve (fs : CgFs) (s : List Char) : Option (List (List Char)) :=
  walk fs (split_slash s) []

/-- The last non-empty segment of a path string. -/
def last_segment (s : List Char) : Option (List Char) :=
  ((split_slash s).filter (fun seg => seg != [])).getLast?

/-- Modelled from the spec: `dir_exists(path)`. -/
def dir_exists (fs : CgFs) (s : List Char) : Bool :=
  match resolve fs s with
  | some c => fs.isDir c
  | none => false

/-- Modelled from the spec: `mkdir(2)`.  The new directory belongs to the
daemon (uid 0, gid 0) until it is chowned. -/
def mkdir (fs : CgFs) (s : List Char) : MkdirResult × CgFs :=
  match resolve fs s with
  | none => (.error, fs)
  | some c =>
    if fs.isDir c then (.eexist, fs)
    else if fs.isDir c.tail then (.ok, ⟨c, 0, 0⟩ :: fs)
    else (.error, fs)

/-- Whether the directory has a subdirectory. -/
def hasChild (fs : CgFs) (c : List (List Char)) : Bool :=
  fs.any (fun d => d.path != [] && d.path.tail == c)

/-- Modelled from the spec: `rmdir(2)`.  It fails on a path whose last segment
is `.` or `..`, on the root, on a missing directory and on a directory that
still has a subdirectory. -/
def rmdir (fs : CgFs) (s : List Char) : Bool × CgFs :=
  match resolve fs s with
  | none => (false, fs)
  | some c =>
    if last_segment s = some ['.'] ∨ last_segment s = some ['.', '.'] then (false, fs)
    else if c = [] then (false, fs)
    else if !fs.isDir c then (false, fs)
    else if fs.hasChild c then (false, fs)
    else (true, fs.filter (fun d => d.path != c))

/-- Modelled from the spec: `chown_cgroup_path`: the directory (with its
`tasks` and `cgroup.procs` files, which are not recorded) gets the new owner.
The root cannot be re-owned. -/
def chown_cgroup_path (fs : CgFs) (s : List Char) (uid gid : Nat) : Bool × CgFs :=
  match resolve fs s with
  | none => (false, fs)
  | some c =>
    if c = [] then (false, fs)
    else if !fs.isDir c then (false, fs)
    else (true, fs.map (fun d => if d.path = c then ⟨c, uid, gid⟩ else d))

/-- Modelled from the spec: `opendir` and `readdir_r`: the entries `.` and `..`
and then the names of the subdirectories. -/
def opendir (fs : CgFs) (s : List Char) : Option (List (List Char)) :=
  match resolve fs s with
  | none => none
  | some c =>
    if fs.isDir c then
      some (['.'] :: ['.', '.'] :: fs.filterMap (fun d =>
        match d.path with
        | [] => none
        | n :: parent => if parent = c then some n else none))
    else none

/-- Modelled from the spec: `lstat` and `S_ISDIR`. -/
def lstat_isdir (fs : CgFs) (s : List Char) : Option Bool :=
  match resolve fs s with
  | none => none
  | some c => if fs.isDir c then some true else none

end CgFs

/-- The operating system made of a directory tree and its environment.  Writes
to control files succeed and are not recorded. -/
def cgSys (env : CgEnv) : Sys CgFs where
  compute_pid_cgroup := fun _ pid controller cgroup => env.cgroup_of pid controller cgroup
  dir_exists := CgFs.dir_exists
  may_access := env.access
  may_move_pid := fun _ => env.may_move
  hostuid_to_ns := fun _ => env.uid_in_ns
  realpath_escapes := env.escapes
  mkdir := fun fs s _ => CgFs.mkdir fs s
  rmdir := CgFs.rmdir
  chown_cgroup_path := fun fs s uid gid _ => CgFs.chown_cgroup_path fs s uid gid
  opendir := CgFs.opendir
  lstat_isdir := CgFs.lstat_isdir
  closedir := fun _ _ => true
  fopen_w := fun fs _ => (true, fs)
  fprintf := fun fs _ _ => (true, fs)
  fclose := fun fs _ => (true, fs)
  is_same_pidns := fun _ => env.same_pidns
  is_same_userns := fun _ => env.same_userns
  file_read_string := fun _ => env.read_string
  set_value := fun fs _ _ => (true, fs)
  file_read_pids := fun _ => env.read_pids

namespace CgFs

/-- Modelled from the spec: the regular control files.  Every directory of the
hierarchy, the root included, holds one regular file for each name of `files`
(`tasks`, `cgroup.procs`, ...); they come and go with their directory.  The
canonical path names such a file when its last name is in `files`, its parent
is a directory and it is not itself a directory. -/
def isFile (files : List (List Char)) (fs : CgFs) (p : List (List Char)) : Bool :=
  match p with
  | [] => false
  | n :: parent => files.contains n && fs.isDir parent && !fs.isDir p

/-- Modelled from the spec: `mkdir(2)` on a hierarchy with control files: as
`CgFs.mkdir`, and `EEXIST` also when the path names a control file. -/
def mkdir_files (files : List (List Char)) (fs : CgFs) (s : List Char) : MkdirResult × CgFs :=
  match resolve fs s with
  | none => (.error, fs)
  | some c =>
    if fs.isDir c || isFile files fs c then (.eexist, fs)
    else if fs.isDir c.tail then (.ok, ⟨c, 0, 0⟩ :: fs)
    else (.error, fs)

/-- Modelled from the spec: `opendir` and `readdir_r` on a hierarchy with
control files: the entries `.` and `..`, then the control files, then the
names of the subdirectories. -/
def opendir_files (files : List (List Char)) (fs : CgFs) (s : List Char) :
    Option (List (List Char)) :=
  match resolve fs s with
  | none => none
  | some c =>
    if fs.isDir c then
      some (['.'] :: ['.', '.'] :: (files ++ fs.filterMap (fun d =>
        match d.path with
        | [] => none
        | n :: parent => if parent = c then some n else none)))
    else none

/-- Modelled from the spec: `lstat` and `S_ISDIR` on a hierarchy with control
files: a directory, a regular file, or nothing. -/
def lstat_files (files : List (List Char)) (fs : CgFs) (s : List Char) : Option Bool :=
  match resolve fs s with
  | none => none
  | some c =>
    if fs.isDir c then some true
    else if isFile files fs c then some false
    else none

end CgFs

/-- The operating system made of a directory tree in which every directory
holds the regular control files `files`, and its environment: as `cgSys`,
except that `mkdir`, `opendir` and `lstat` see the control files. -/
def cgFileSys (env : CgEnv) (files : List (List Char)) : Sys CgFs :=
  { cgSys env with
    mkdir := fun fs s _ => CgFs.mkdir_files files fs s
    opendir := CgFs.opendir_files files
    lstat_isdir := CgFs.lstat_files files }

/-- The control files of the scenarios: `tasks` and `cgroup.procs`. -/
def controlFiles : List (List Char) := ["tasks".toList, "cgroup.procs".toList]

/-- An environment in which every process sits in the cgroup `/user` of every
controller and in the namespaces of the daemon, every access is granted and
the control files are empty. -/
def openEnv : CgEnv where
  cgroup_of := fun _ _ _ => some "/user".toList
  access := fun _ _ _ _ _ _ => true
  may_move := fun _ _ _ => true
  uid_in_ns := fun _ _ => some 0
  escapes := fun _ _ _ => false
  same_pidns := fun _ => true
  same_userns := fun _ => true
  read_string := fun _ => some []
  read_pids := fun _ => some []

/-- The requestor of the scenarios: pid 100, uid 1000, gid 1000. -/
def alice : ucred := ⟨100, 1000, 1000⟩

/-- The directory `/user` owned by root. -/
def userDir : CgDir := ⟨["user".toList], 0, 0⟩

/-- The host of `openEnv`, except that every chown fails. -/
def chownFailSys : Sys CgFs :=
  { cgSys openEnv with chown_cgroup_path := fun fs _ _ _ _ => (false, fs) }

/-- The directory `/user/a` owned by the requestor `alice`. -/
def userA : CgDir := ⟨["a".toList, "user".toList], 1000, 1000⟩

/-- The directory `/user/ab` owned by the requestor `alice`. -/
def userAB : CgDir := ⟨["ab".toList, "user".toList], 1000, 1000⟩

/-- The directory `/victim`, a sibling of the requestor's cgroup `/user`. -/
def victimDir : CgDir := ⟨["victim".toList], 0, 0⟩

/-- A second process, the victim of the scenarios: pid 200, uid 1001, gid 1001. -/
def bob : ucred := ⟨200, 1001, 1001⟩

/-- The host of `openEnv`, except that the requestor may not write `/user`:
every access is granted but the one to the path `/user`. -/
def parentDeniedEnv : CgEnv :=
  { openEnv with access := fun _ _ _ _ path _ => path != "/user".toList }

/-- The host of `openEnv`, except that no uid is mapped in any user namespace. -/
def unmappedEnv : CgEnv :=
  { openEnv with uid_in_ns := fun _ _ => none }

/-- The host of `openEnv`, except that no process is in the pid namespace of
the daemon. -/
def otherPidnsEnv : CgEnv :=
  { openEnv with same_pidns := fun _ => false }

/-- The host of `openEnv`, except for the cgroups of the `cpu` hierarchy:
pid 100 is at its root, pid 200 in `/a/b`, pid 300 in `/a` and pid 400 in
`/ab`. -/
def cpuEnv : CgEnv :=
  { openEnv with
    cgroup_of := fun pid _ _ =>
      if pid = 100 then some "/sys/fs/cgroup/cpu".toList
      else if pid = 200 then some "/sys/fs/cgroup/cpu/a/b".toList
      else if pid = 300 then some "/sys/fs/cgroup/cpu/a".toList
      else if pid = 400 then some "/sys/fs/cgroup/cpu/ab".toList
      else none }

/-- A fresh request context, as `alloc_scm_sock_data` leaves it after its
`memset`, with the type and the strings that the method stored. -/
def fresh_data (t : req_type) (controller cgroup : List Char) (fd : Int) : scm_sock_data :=
  ⟨t, controller, cgroup, [], [], 0, ⟨0, 0, 0⟩, ⟨0, 0, 0⟩, fd, 0⟩

/-- The tree of scenario S6 after `create("memory", "t/u/v")` by `alice` in
`/user`: the directories `/user/t/u/v`, `/user/t/u`, `/user/t` and `/user`. -/
def tuvTree : CgFs :=
  [⟨["v".toList, "u".toList, "t".toList, "user".toList], 1000, 1000⟩,
    ⟨["u".toList, "t".toList, "user".toList], 1000, 1000⟩,
    ⟨["t".toList, "user".toList], 1000, 1000⟩, userDir]

/-- The host of `openEnv`, except that the cgroup asked for is looked up below
`/user`, that the file `/user/g/tasks` lists the pids 100 and 200, and that
nobody may open that file: every access is granted but the one to the path
`/user/g/tasks`. -/
def tasksDeniedEnv : CgEnv :=
  { openEnv with
    cgroup_of := fun _ _ cgroup => some ("/user".toList ++ '/' :: cgroup)
    access := fun _ _ _ _ path _ => path != "/user/g/tasks".toList
    read_string := fun path => if path = "/user/g/tasks".toList then some "100\n200\n".toList
      else none
    read_pids := fun path => if path = "/user/g/tasks".toList then some [100, 200] else none }

/-- The directory `/user/g` owned by root. -/
def userG : CgDir := ⟨["g".toList, "user".toList], 0, 0⟩

/-- Whether a name can be a directory entry: not empty, without `'/'`, and
neither `.` nor `..`. -/
def proper_name (n : List Char) : Bool :=
  n != [] && !n.contains '/' && n != ['.'] && n != ['.', '.']

namespace CgFs

/-- Whether the directory hangs in the tree: it has a proper name and its
parent is a directory of the tree. -/
def rooted (fs : CgFs) (d : CgDir) : Bool :=
  match d.path with
  | [] => false
  | n :: parent => proper_name n && fs.isDir parent

/-- The tree without the directory `c` and everything below it. -/
def prune (fs : CgFs) (c : List (List Char)) : CgFs :=
  fs.filter (fun d => !decide (c <:+ d.path))

end CgFs

/-- The path string of the directory that lies below the directory named by
`s`, through the names `rel` (given from the directory up to the child of
`s`): what the `snprintf` calls of `recursive_rmdir` build on the way down. -/
def sub_path (s : List Char) : List (List Char) → List Char
  | [] => s
  | n :: rel => sub_path s rel ++ '/' :: n

mutual
/-- The traces of a post-order removal of the tree at the path `s`: the
removals of some subdirectories of `s`, one subtree after the other, and then
the successful `rmdir` of `s` itself. -/
inductive Visit : List Char → List Event → Prop
  | node (s : List Char) (t : List Event) :
    VisitKids s t → Visit s (t ++ [Event.rmdir s true])
/-- The traces of the post-order removals of some subdirectories `s/n` of `s`. -/
inductive VisitKids : List Char → List Event → Prop
  | nil (s : List Char) : VisitKids s []
  | cons (s n : List Char) (t1 t2 : List Event) :
    proper_name n = true → Visit (s ++ '/' :: n) t1 → VisitKids s t2 →
    VisitKids s (t1 ++ t2)
end

/-- The tree `fs` is well formed and the path string `s` names its directory
`c` in a way that stays valid while what is below `c` is removed: no two
directories share a path, every directory hangs in the tree, `s` resolves to
the directory `c`, which is not the root, without any `..` segment, and the
last segment of `s` is not `.` (which `rmdir` refuses). -/
structure Removable (fs : CgFs) (s : List Char) (c : List (List Char)) : Prop where
  nodup : (fs.map CgDir.path).Nodup
  rooted : ∀ d ∈ fs, CgFs.rooted fs d = true
  resolves : CgFs.resolve fs s = some c
  isdir : CgFs.isDir fs c = true
  nonroot : c ≠ []
  nodotdot : ['.', '.'] ∉ split_slash s
  lastseg : CgFs.last_segment s ≠ some ['.']

/-- The control files `files` fit the tree `fs`: each has a proper name, and
no directory of the tree carries the name of a control file. -/
structure FilesOk (files : List (List Char)) (fs : CgFs) : Prop where
  proper : ∀ f ∈ files, proper_name f = true
  nodir : ∀ d ∈ fs, ∀ f ∈ files, d.path.head? ≠ some f

/-- The path string `s` followed by `k` segments `/.`, which names the same
directory as `s`. -/
def dot_path (s : List Char) : Nat → List Char
  | 0 => s
  | k + 1 => dot_path s k ++ ['/', '.']

/-- The tree with the directories `/user/a/t/u`, `/user/a/t`, `/user/a` and
`/user`. -/
def atuTree : CgFs :=
  [⟨["u".toList, "t".toList, "a".toList, "user".toList], 1000, 1000⟩,
    ⟨["t".toList, "a".toList, "user".toList], 1000, 1000⟩, userA, userDir]

/-- A path string of 4095 bytes that names the directory `/user/a/t`:
`/user/a`, then 2043 segments `/.`, then `/t`.  It is the path that
`remove_main` builds for the requestor in `/user` and the client path
`a/./. ... /./t`, which is accepted. -/
def longT : List Char :=
  dot_path "/user/a".toList 2043 ++ "/t".toList

/-- The client path of 4089 bytes `a/./. ... /./t`: `a`, then 2043 segments
`/.`, then `/t`. -/
def longClientPath : List Char :=
  dot_path "a".toList 2043 ++ "/t".toList

/-! ## Trace properties -/

/-- Every event of the trace satisfies `need`, which sees the event just
before it (`none` at the start) and the events after it. -/
def chained (need : Option Event → Event → List Event → Prop) :
    Option Event → List Event → Prop
  | _, [] => True
  | prev, e :: rest => need prev e rest ∧ chained need (some e) rest

/-- What each call of `create_main` needs: a `mkdir` comes right after a
granted `O_RDWR` check of the requestor on the parent; a chown comes right
after the successful `mkdir` of the same path, gives the directory to the
requestor and, when it fails, is followed by the `rmdir` of that path and
nothing else; an `rmdir` comes right after a failed chown of the same path;
nothing is written to a file. -/
def create_need (u : ucred) : Option Event → Event → List Event → Prop
  | _, .may_access .., _ => True
  | prev, .mkdir P m _, _ =>
    m = 0o755 ∧ ∃ D c, prev = some (.may_access u.pid u.uid u.gid D .O_RDWR true) ∧
      P = D ++ '/' :: c ∧ '/' ∉ c
  | prev, .chown_cgroup_path P uid gid all res, rest =>
    uid = u.uid ∧ gid = u.gid ∧ all = true ∧ prev = some (.mkdir P 0o755 .ok) ∧
      (res = false → ∃ r, rest = [.rmdir P r])
  | prev, .rmdir P _, rest =>
    prev = some (.chown_cgroup_path P u.uid u.gid true false) ∧ rest = []
  | _, .fopen_w .., _ => False
  | _, .fprintf .., _ => False
  | _, .fclose .., _ => False
  | _, .file_read_string .., _ => False
  | _, .set_value .., _ => False
  | _, .file_read_pids .., _ => False

/-! ## Theorems -/

/-! ### Syntactic rejection and the missing target -/

theorem bad_first_byte_iff (cgroup : List Char) :
    bad_first_byte cgroup = true ↔ (cgroup.head? = some '/' ∨ cgroup.head? = some '.') := by
  cases cgroup with
  | nil => simp [bad_first_byte]
  | cons c cs => simp [bad_first_byte]

/-- C2: a client path whose first byte is `'/'` or `'.'` makes `create_main`,
`remove_main`, `move_pid_main` and `chown_main` return -1 with the state
unchanged and without any recorded call, whatever the operating system, its
state and the credentials. -/
theorem leading_slash_or_dot_rejected (sys : Sys σ) (fuel : Nat) (st : σ)
    (controller cgroup : List Char) (r v : ucred) (recursive : Int)
    (h : cgroup.head? = some '/' ∨ cgroup.head? = some '.') :
    (create_main sys st controller cgroup r).ret = -1 ∧
    (create_main sys st controller cgroup r).st = st ∧
    (create_main sys st controller cgroup r).trace = [] ∧
    (∃ o, remove_main sys fuel st controller cgroup r recursive = some o ∧
      o.ret = -1 ∧ o.st = st ∧ o.trace = []) ∧
    (move_pid_main sys st controller cgroup r v).ret = -1 ∧
    (move_pid_main sys st controller cgroup r v).st = st ∧
    (move_pid_main sys st controller cgroup r v).trace = [] ∧
    (chown_main sys st controller cgroup r v).ret = -1 ∧
    (chown_main sys st controller cgroup r v).st = st ∧
    (chown_main sys st controller cgroup r v).trace = [] := by
  have hb : bad_first_byte cgroup = true := (bad_first_byte_iff cgroup).2 h
  cases cgroup with
  | nil => simp at h
  | cons c0 cs =>
    have hc : c0 = '/' ∨ c0 = '.' := by simpa using h
    have h1 : create_main sys st controller (c0 :: cs) r = ⟨-1, 1, st, []⟩ := by
      simp only [create_main, hc, if_true]
    have h2 : remove_main sys fuel st controller (c0 :: cs) r recursive
        = some ⟨-1, 1, st, []⟩ := by
      simp only [remove_main, hc, if_true]
    have h3 : move_pid_main sys st controller (c0 :: cs) r v = ⟨-1, st, []⟩ := by
      unfold move_pid_main; rw [hb]; split <;> rfl
    have h4 : chown_main sys st controller (c0 :: cs) r v = ⟨-1, st, []⟩ := by
      unfold chown_main; rw [hb]; split <;> rfl
    rw [h1, h2, h3, h4]
    exact ⟨rfl, rfl, rfl, ⟨_, rfl, rfl, rfl, rfl⟩, rfl, rfl, rfl, rfl, rfl, rfl⟩

/-- Witness of C2 on the path `../x` of scenario S2. -/
theorem leading_slash_or_dot_rejected_witness :
    ("../x".toList.head? = some '/' ∨ "../x".toList.head? = some '.') ∧
    (create_main (cgSys openEnv) [userDir] "memory".toList "../x".toList alice).ret = -1 ∧
    (create_main (cgSys openEnv) [userDir] "memory".toList "../x".toList alice).st
      = [userDir] ∧
    (create_main (cgSys openEnv) [userDir] "memory".toList "../x".toList alice).trace
      = [] :=
  ⟨by decide,
    (leading_slash_or_dot_rejected (cgSys openEnv) 0 [userDir] "memory".toList
      "../x".toList alice alice 0 (by decide)).1,
    (leading_slash_or_dot_rejected (cgSys openEnv) 0 [userDir] "memory".toList
      "../x".toList alice alice 0 (by decide)).2.1,
    (leading_slash_or_dot_rejected (cgSys openEnv) 0 [userDir] "memory".toList
      "../x".toList alice alice 0 (by decide)).2.2.1⟩

/-- For a non-empty client path that passes the syntactic checks, when the
path `rcgpath/w`, with `w` what `normalize_path` makes of the client path, is
not an existing directory, `remove_main` returns (for every recursion bound,
recursive or not) 0 with `existed = -1`, the reply byte is `'1'`, the state is
unchanged and no call, in particular no `rmdir`, is made. -/
theorem remove_missing_normalized (sys : Sys σ) (fuel : Nat) (st : σ)
    (controller cgroup rcgpath wcgroup : List Char) (u : ucred) (recursive : Int)
    (hne : cgroup ≠ [])
    (hfirst : bad_first_byte cgroup = false)
    (hcg : sys.compute_pid_cgroup st u.pid controller [] = some rcgpath)
    (hlen : rcgpath.length + cgroup.length ≤ MAXPATHLEN)
    (hnorm : normalize_path cgroup = some wcgroup)
    (hmiss : sys.dir_exists st (rcgpath ++ ['/'] ++ wcgroup) = false) :
    ∃ o, remove_main sys fuel st controller cgroup u recursive = some o ∧
      o.ret = 0 ∧ o.existed = -1 ∧ remove_scm_complete o = '1' ∧ o.st = st ∧
      o.trace = [] := by
  cases cgroup with
  | nil => exact absurd rfl hne
  | cons c0 cs =>
    have hc : ¬ (c0 = '/' ∨ c0 = '.') := by
      simpa [bad_first_byte] using hfirst
    have hl : ¬ (rcgpath.length + (c0 :: cs).length > MAXPATHLEN) := by omega
    refine ⟨⟨0, -1, st, []⟩, ?_, rfl, rfl, by simp [remove_scm_complete], rfl, rfl⟩
    simp only [remove_main, hc, if_false, hcg, hl, hnorm, hmiss]
    rfl

/-! ### The calls of `create_main` -/

theorem after_trace (evs : List Event) (o : Outcome σ) :
    (o.after evs).trace = evs ++ o.trace := rfl

theorem after_ret (evs : List Event) (o : Outcome σ) : (o.after evs).ret = o.ret := rfl

theorem after_st (evs : List Event) (o : Outcome σ) : (o.after evs).st = o.st := rfl

theorem after_existed (evs : List Event) (o : Outcome σ) :
    (o.after evs).existed = o.existed := rfl

theorem chained_split (need : Option Event → Event → List Event → Prop) :
    ∀ (pre : List Event) (prev : Option Event) (e : Event) (post : List Event),
      chained need prev (pre ++ e :: post) → need (pre.getLast?.or prev) e post
  | [], prev, e, post => by
    intro h
    simpa [chained] using h.1
  | a :: pre, prev, e, post => by
    intro h
    have h2 := chained_split need pre (some a) e post h.2
    cases pre with
    | nil => simpa using h2
    | cons b pre =>
      simp only [List.getLast?_cons_cons]
      cases hl : (b :: pre).getLast? with
      | none => simp at hl
      | some x => rw [hl] at h2; simpa using h2

theorem getLast?_eq_some_append {α : Type} {l : List α} {a : α}
    (h : l.getLast? = some a) : ∃ l1, l = l1 ++ [a] := by
  rcases List.eq_nil_or_concat l with rfl | ⟨l1, b, rfl⟩
  · simp at h
  · simp at h
    exact ⟨l1, by rw [h, List.concat_eq_append]⟩

theorem components_no_slash : ∀ (s : List Char), ∀ c ∈ components s, '/' ∉ c
  | [] => by simp [components]
  | a :: s => by
    have ih := components_no_slash s
    intro c hc
    unfold components at hc
    split at hc
    · rcases List.mem_cons.1 hc with h | h
      · subst h; simp
      · exact ih c h
    · rename_i hne
      split at hc
      · rcases List.mem_cons.1 hc with h | h
        · subst h; simpa using Ne.symm hne
        · simp at h
      · rename_i s0 ss heq
        rw [heq] at ih
        rcases List.mem_cons.1 hc with h | h
        · subst h
          intro hm
          rcases List.mem_cons.1 hm with h1 | h1
          · exact hne h1.symm
          · exact ih s0 (List.mem_cons_self _ _) h1
        · exact ih c (List.mem_cons_of_mem _ h)

theorem not_mem_take {c : List Char} (h : '/' ∉ c) (n : Nat) : '/' ∉ c.take n :=
  fun hm => h (List.mem_of_mem_take hm)

theorem strncat_component (path p : List Char) :
    strncat (strncat path ['/'] (MAXPATHLEN - 1)) p (MAXPATHLEN - 1)
      = path ++ '/' :: p.take (MAXPATHLEN - 1) := by
  simp [strncat, MAXPATHLEN]

theorem create_loop_chained (sys : Sys σ) (u : ucred) :
    ∀ (comps : List (List Char)) (st : σ) (path : List Char) (ex : Int)
      (prev : Option Event), (∀ c ∈ comps, '/' ∉ c) →
      chained (create_need u) prev (create_loop sys u comps st path path ex).trace
  | [], st, path, ex, prev => by
    intro _
    simp [create_loop, chained]
  | p :: rest, st, path, ex, prev => by
    intro hc
    have hp : '/' ∉ p.take (MAXPATHLEN - 1) := not_mem_take (hc p (List.mem_cons_self _ _)) _
    have hrest : ∀ c ∈ rest, '/' ∉ c := fun c h => hc c (List.mem_cons_of_mem _ h)
    have ih := fun st1 ex1 prev1 => create_loop_chained sys u rest st1
      (strncat (strncat path ['/'] (MAXPATHLEN - 1)) p (MAXPATHLEN - 1)) ex1 prev1 hrest
    have hpath := strncat_component path p
    have hex : ∃ x, strncat (strncat path ['/'] (MAXPATHLEN - 1)) p (MAXPATHLEN - 1)
        = path ++ '/' :: x ∧ '/' ∉ x := ⟨_, hpath, hp⟩
    unfold create_loop
    split
    · simp [chained]
    · simp only []
      split
      · split
        · simp [after_trace, chained, create_need, ih]
        · simp [chained, create_need]
      · split
        · rename_i hacc
          split
          · simp [after_trace, chained, create_need, ih, hacc, hex]
          · simp [chained, create_need, hacc, hex]
          · split
            · simp [chained, create_need, hacc, hex]
            · simp [after_trace, chained, create_need, ih, hacc, hex]
        · simp [chained, create_need]

theorem create_main_chained (sys : Sys σ) (st : σ) (controller cgroup : List Char)
    (u : ucred) :
    chained (create_need u) none (create_main sys st controller cgroup u).trace := by
  unfold create_main
  split
  · simp [chained]
  · split
    · simp [chained]
    · split
      · simp [chained]
      · split
        · simp [chained]
        · exact create_loop_chained sys u _ st _ 1 none (components_no_slash _)

theorem create_loop_failed_chown (sys : Sys σ) (u : ucred) :
    ∀ (comps : List (List Char)) (st : σ) (path dirpath : List Char) (ex : Int)
      (P : List Char) (uid gid : Nat) (all : Bool),
      Event.chown_cgroup_path P uid gid all false
        ∈ (create_loop sys u comps st path dirpath ex).trace →
      (create_loop sys u comps st path dirpath ex).ret = -1
  | [], st, path, dirpath, ex => by
    intro P uid gid all h
    simp [create_loop] at h
  | p :: rest, st, path, dirpath, ex => by
    intro P uid gid all h
    have ih := fun st1 path1 dirpath1 ex1 =>
      create_loop_failed_chown sys u rest st1 path1 dirpath1 ex1 P uid gid all
    generalize ho : create_loop sys u (p :: rest) st path dirpath ex = o at h ⊢
    unfold create_loop at ho
    split at ho
    · subst ho; rfl
    · simp only [] at ho
      split at ho
      · split at ho
        · subst ho
          rw [after_trace] at h
          rw [after_ret]
          exact ih _ _ _ _ (by simpa using h)
        · subst ho; rfl
      · split at ho
        · split at ho
          · subst ho
            rw [after_trace] at h
            rw [after_ret]
            exact ih _ _ _ _ (by simpa using h)
          · subst ho; rfl
          · split at ho
            · subst ho; rfl
            · subst ho
              rw [after_trace] at h
              rw [after_ret]
              exact ih _ _ _ _ (by simpa using h)
        · subst ho; rfl

theorem create_main_failed_chown (sys : Sys σ) (st : σ) (controller cgroup : List Char)
    (u : ucred) (P : List Char) (uid gid : Nat) (all : Bool)
    (h : Event.chown_cgroup_path P uid gid all false
      ∈ (create_main sys st controller cgroup u).trace) :
    (create_main sys st controller cgroup u).ret = -1 := by
  generalize ho : create_main sys st controller cgroup u = o at h ⊢
  unfold create_main at ho
  split at ho
  · subst ho; simp at h
  · split at ho
    · subst ho; rfl
    · split at ho
      · subst ho; rfl
      · split at ho
        · subst ho; rfl
        · subst ho
          exact create_loop_failed_chown sys u _ _ _ _ _ P uid gid all h

/-- C8: every chown that `create_main` performs gives the directory to the
requestor's uid and gid and comes immediately after the successful `mkdir` of
the same path in this call, so a component that already existed (found by
`dir_exists` or reported as `EEXIST` by `mkdir`) is never chowned; and when
the chown fails, the only call that follows is the `rmdir` of that directory
and `create_main` returns -1. -/
theorem create_chown_only_fresh (sys : Sys σ) (st : σ) (controller cgroup : List Char)
    (u : ucred) (pre post : List Event) (P : List Char) (uid gid : Nat) (all res : Bool)
    (h : (create_main sys st controller cgroup u).trace
      = pre ++ Event.chown_cgroup_path P uid gid all res :: post) :
    uid = u.uid ∧ gid = u.gid ∧ (∃ pre1, pre = pre1 ++ [Event.mkdir P 0o755 .ok]) ∧
      (res = false → (∃ r, post = [Event.rmdir P r]) ∧
        (create_main sys st controller cgroup u).ret = -1) := by
  have hch := create_main_chained sys st controller cgroup u
  rw [h] at hch
  obtain ⟨h1, h2, _, h4, h5⟩ := chained_split _ pre none _ post hch
  refine ⟨h1, h2, ?_, ?_⟩
  · cases hl : pre.getLast? with
    | none => rw [hl] at h4; simp at h4
    | some x =>
      rw [hl] at h4
      obtain ⟨pre1, rfl⟩ := getLast?_eq_some_append hl
      simp only [Option.or_some, Option.some.injEq] at h4
      exact ⟨pre1, by rw [h4]⟩
  · intro hres
    refine ⟨h5 hres, ?_⟩
    apply create_main_failed_chown sys st controller cgroup u P uid gid all
    rw [h, hres]
    simp

/-- Witness of C8: on a host where chown fails, creating `a` chowns the fresh
`/user/a` to the requestor, then removes it and fails. -/
theorem create_chown_only_fresh_witness :
    (1000 = alice.uid ∧ 1000 = alice.gid ∧
      (∃ pre1, [Event.may_access 100 1000 1000 "/user".toList .O_RDWR true,
          Event.mkdir "/user/a".toList 0o755 .ok]
        = pre1 ++ [Event.mkdir "/user/a".toList 0o755 .ok]) ∧
      (false = false → (∃ r, [Event.rmdir "/user/a".toList true]
          = [Event.rmdir "/user/a".toList r]) ∧
        (create_main chownFailSys [userDir] "memory".toList "a".toList alice).ret = -1)) ∧
    (create_main chownFailSys [userDir] "memory".toList "a".toList alice).st = [userDir] :=
  ⟨create_chown_only_fresh chownFailSys [userDir] "memory".toList "a".toList alice
    _ _ "/user/a".toList 1000 1000 true false (by decide), by decide⟩

/-! ### The reply of `remove` -/

theorem recursive_rmdir_success (sys : Sys σ) (fuel : Nat) (st : σ) (path : List Char)
    (r : Ret σ) (h : recursive_rmdir sys fuel st path = some r) (hr : ¬ r.ret < 0) :
    ∃ pre, r.trace = pre ++ [Event.rmdir path true] := by
  cases fuel with
  | zero => simp [recursive_rmdir] at h
  | succ fuel =>
    unfold recursive_rmdir at h
    split at h
    · simp only [Option.some.injEq] at h
      subst h
      simp at hr
    · split at h
      · simp at h
      · rename_i failed st1 evs _
        simp only [Option.some.injEq] at h
        subst h
        simp only [] at hr ⊢
        cases hres : (sys.rmdir st1 path).1 with
        | true => exact ⟨evs, rfl⟩
        | false => simp [hres] at hr

/-- C10, counterexample: for the empty client path `remove_main` replies `'2'`
although it calls nothing and leaves the tree unchanged: the caller's own
cgroup `/user` is still there. -/
theorem remove_empty_path_replies_2 :
    ∃ o, remove_main (cgSys openEnv) 1 [userDir] "memory".toList [] alice 1 = some o ∧
      remove_scm_complete o = '2' ∧ o.trace = [] ∧ o.st = [userDir] ∧
      CgFs.dir_exists o.st "/user/".toList = true :=
  ⟨⟨0, 1, [userDir], []⟩, rfl, by decide, rfl, rfl, by decide⟩

/-- Whenever `remove_main` returns, the reply byte is `'0'` exactly when it
returned -1; for a non-empty client path the reply is `'2'` only when the
path `rcgpath/w`, with `w` what `normalize_path` makes of the client path, was
an existing directory and the last call is the successful `rmdir` of that
path, and it is `'1'` only when that path was not an existing directory
(nothing is called then); for the empty client path the reply is `'2'` and
nothing is called. -/
theorem remove_reply_normalized (sys : Sys σ) (fuel : Nat) (st : σ)
    (controller cgroup : List Char) (u : ucred) (recursive : Int) (o : Outcome σ)
    (h : remove_main sys fuel st controller cgroup u recursive = some o) :
    (cgroup = [] → remove_scm_complete o = '2' ∧ o.trace = [] ∧ o.st = st) ∧
    (cgroup ≠ [] → remove_scm_complete o = '2' →
      ∃ rcgpath wcgroup pre,
        sys.compute_pid_cgroup st u.pid controller [] = some rcgpath ∧
        normalize_path cgroup = some wcgroup ∧
        sys.dir_exists st (rcgpath ++ ['/'] ++ wcgroup) = true ∧
        o.trace = pre ++ [Event.rmdir (rcgpath ++ ['/'] ++ wcgroup) true]) ∧
    (remove_scm_complete o = '1' →
      ∃ rcgpath wcgroup,
        sys.compute_pid_cgroup st u.pid controller [] = some rcgpath ∧
        normalize_path cgroup = some wcgroup ∧
        sys.dir_exists st (rcgpath ++ ['/'] ++ wcgroup) = false ∧
        o.trace = [] ∧ o.st = st) ∧
    (remove_scm_complete o = '0' ↔ o.ret = -1) ∧ (o.ret = 0 ∨ o.ret = -1) := by
  unfold remove_main at h
  split at h
  · simp only [Option.some.injEq] at h
    subst h
    simp [remove_scm_complete]
  · split at h
    · simp only [Option.some.injEq] at h
      subst h
      simp [remove_scm_complete]
    · split at h
      · simp only [Option.some.injEq] at h
        subst h
        simp [remove_scm_complete]
      · rename_i rcgpath hcg
        split at h
        · simp only [Option.some.injEq] at h
          subst h
          simp [remove_scm_complete]
        · split at h
          · simp only [Option.some.injEq] at h
            subst h
            simp [remove_scm_complete]
          · rename_i wcgroup hnorm
            simp only [] at h
            split at h
            · rename_i hde
              simp only [Option.some.injEq] at h
              subst h
              simp only [Bool.not_eq_true'] at hde
              exact ⟨by simp, by simp [remove_scm_complete],
                fun _ => ⟨rcgpath, wcgroup, hcg, hnorm, hde, rfl, rfl⟩,
                by simp [remove_scm_complete], by simp⟩
            · rename_i hde
              simp only [Bool.not_eq_true', Bool.not_eq_false] at hde
              split at h
              · simp only [Option.some.injEq] at h
                subst h
                simp [remove_scm_complete]
              · split at h
                · simp only [Option.some.injEq] at h
                  subst h
                  simp [remove_scm_complete]
                · split at h
                  · simp only [Option.some.injEq] at h
                    subst h
                    cases hres : (sys.rmdir st (rcgpath ++ ['/'] ++ wcgroup)).1 with
                    | true =>
                      simp only [remove_scm_complete, hres, if_true]
                      exact ⟨by simp, fun _ _ => ⟨rcgpath, wcgroup, _, hcg, hnorm, hde, rfl⟩, by simp,
                        by simp, by simp⟩
                    | false => simp [remove_scm_complete, hres]
                  · split at h
                    · simp at h
                    · rename_i r hrec
                      simp only [Option.some.injEq] at h
                      subst h
                      by_cases hr : r.ret < 0
                      · simp [remove_scm_complete, hr]
                      · obtain ⟨pre, hpre⟩ := recursive_rmdir_success sys fuel st _ r hrec hr
                        simp only [remove_scm_complete, hr, if_false, if_true]
                        refine ⟨by simp, fun _ _ => ⟨rcgpath, wcgroup, ?_⟩, by simp, by simp, by simp⟩
                        rw [hpre, ← List.append_assoc]
                        exact ⟨_, hcg, hnorm, hde, rfl⟩

/-- The non-recursive `remove_main` always returns, whatever the bound. -/
theorem remove_main_returns (sys : Sys σ) (fuel : Nat) (st : σ)
    (controller cgroup : List Char) (u : ucred) :
    ∃ o, remove_main sys fuel st controller cgroup u 0 = some o := by
  unfold remove_main
  split
  · exact ⟨_, rfl⟩
  · split
    · exact ⟨_, rfl⟩
    · split
      · exact ⟨_, rfl⟩
      · split
        · exact ⟨_, rfl⟩
        · split
          · exact ⟨_, rfl⟩
          · simp only []
            split
            · exact ⟨_, rfl⟩
            · split
              · exact ⟨_, rfl⟩
              · split
                · exact ⟨_, rfl⟩
                · rw [if_pos trivial]
                  exact ⟨_, rfl⟩

/-! ### The executors on concrete trees -/

/-- C1, the code at the failing input: the client path `a/.//././/./victim`
has no `".."`, so `normalize_path` accepts it, and its `memcpy` onto the first
slash of each `"//"` turns it into `a/../../victim`; `remove_main` for a
requestor in `/user` then calls `rmdir` on `/user/a/../../victim`, a path with
`".."` segments, and the directory `/victim` outside `/user` is removed. -/
theorem remove_escapes_requestor_cgroup :
    normalize_path "a/.//././/./victim".toList = some "a/../../victim".toList ∧
    remove_main (cgSys openEnv) 1 [userDir, victimDir, userA] "memory".toList
        "a/.//././/./victim".toList alice 0
      = some ⟨0, 1, [userDir, userA],
          [Event.may_access 100 1000 1000 "/user/a/../..".toList .O_WRONLY true,
            Event.rmdir "/user/a/../../victim".toList true]⟩ :=
  ⟨by decide, rfl⟩

/-- C3, the code at the failing input: `create_main` on `a/../x` for a
requestor in `/user` returns -1 only after it has created `/user/a` and given
it to the requestor; the directory is still there afterwards. -/
theorem create_dotdot_after_mkdir :
    create_main (cgSys openEnv) [userDir] "memory".toList "a/../x".toList alice
      = ⟨-1, -1, [userA, userDir],
          [Event.may_access 100 1000 1000 "/user".toList .O_RDWR true,
            Event.mkdir "/user/a".toList 0o755 .ok,
            Event.chown_cgroup_path "/user/a".toList 1000 1000 true true]⟩ :=
  rfl

/-- The sibling path of C3: `remove_main` refuses a client path that contains
`".."` before it calls anything. -/
theorem remove_dotdot_rejected (sys : Sys σ) (fuel : Nat) (st : σ)
    (controller cgroup : List Char) (u : ucred) (recursive : Int)
    (h : strstr_dotdot cgroup = true) :
    remove_main sys fuel st controller cgroup u recursive = some ⟨-1, 1, st, []⟩ := by
  have hn : normalize_path cgroup = none := by simp [normalize_path, h]
  unfold remove_main
  split
  · simp [strstr_dotdot] at h
  · split
    · rfl
    · split
      · rfl
      · split
        · rfl
        · rw [hn]

/-- C4, the code at the failing input: `create_main` on `a/.` for a requestor
in `/user` creates `/user/a` and still leaves `existed = 1`, because the last
component `.` is found to exist; the reply byte is `'2'`.  The same happens for
`a//`, whose last component is empty. -/
theorem create_reports_existed_after_mkdir :
    create_main (cgSys openEnv) [userDir] "memory".toList "a/.".toList alice
      = ⟨0, 1, [userA, userDir],
          [Event.may_access 100 1000 1000 "/user".toList .O_RDWR true,
            Event.mkdir "/user/a".toList 0o755 .ok,
            Event.chown_cgroup_path "/user/a".toList 1000 1000 true true,
            Event.may_access 100 1000 1000 "/user/a/.".toList .O_RDONLY true]⟩ ∧
    create_scm_complete
      (create_main (cgSys openEnv) [userDir] "memory".toList "a/.".toList alice) = '2' ∧
    create_scm_complete
      (create_main (cgSys openEnv) [userDir] "memory".toList "a//".toList alice) = '2' ∧
    (create_main (cgSys openEnv) [userDir] "memory".toList "a//".toList alice).st
      = [userA, userDir] :=
  ⟨rfl, by decide, by decide, by decide⟩

/-- C6, counterexample: for a requestor in `/user`, creating `a/b` makes
`/user/a` and `/user/a/b`; the recursive removal of `a/b` succeeds and removes
only `/user/a/b`, so `/user/a` remains and the tree differs from the tree
before the create. -/
theorem create_remove_leaves_parent :
    (create_main (cgSys openEnv) [userDir] "memory".toList "a/b".toList alice).ret = 0 ∧
    (∃ o, remove_main (cgSys openEnv) 1
        (create_main (cgSys openEnv) [userDir] "memory".toList "a/b".toList alice).st
        "memory".toList "a/b".toList alice 1 = some o ∧
      o.ret = 0 ∧ o.st = [userA, userDir] ∧ o.st ≠ [userDir]) :=
  ⟨by decide, ⟨0, 1, [userA, userDir],
    [Event.may_access 100 1000 1000 "/user/a".toList .O_WRONLY true,
      Event.rmdir "/user/a/b".toList true]⟩, rfl, rfl, rfl, by decide⟩

/-! ### The directory tree -/

theorem isDir_cons (d : CgDir) (fs : CgFs) (p : List (List Char)) :
    CgFs.isDir (d :: fs) p = true ↔ (d.path = p ∨ CgFs.isDir fs p = true) := by
  simp only [CgFs.isDir, List.any_cons, Bool.or_eq_true, beq_iff_eq]
  tauto

theorem isDir_of_map_path {fs fs1 : CgFs} (h : fs1.map CgDir.path = fs.map CgDir.path)
    (p : List (List Char)) : CgFs.isDir fs1 p = CgFs.isDir fs p := by
  have h1 : ∀ l : CgFs, l.any (fun d => d.path == p) = (l.map CgDir.path).any (fun q => q == p) := by
    intro l
    induction l with
    | nil => rfl
    | cons a l ih => simp [List.any_cons, ih]
  simp only [CgFs.isDir, h1, h]

theorem walk_mono {fs fs1 : CgFs}
    (h : ∀ p, CgFs.isDir fs p = true → CgFs.isDir fs1 p = true) :
    ∀ (segs : List (List Char)) (cur c : List (List Char)),
      CgFs.walk fs segs cur = some c → CgFs.walk fs1 segs cur = some c
  | [], cur, c => by
    intro hw
    simpa [CgFs.walk] using hw
  | seg :: rest, cur, c => by
    intro hw
    unfold CgFs.walk at hw ⊢
    split
    · rw [if_pos (by assumption)] at hw
      exact walk_mono h rest cur c hw
    · rw [if_neg (by assumption)] at hw
      split at hw
      · simp at hw
      · rename_i hd
        simp only [Bool.not_eq_true', Bool.not_eq_false] at hd
        rw [if_neg (by simp [h cur hd])]
        split
        · rw [if_pos (by assumption)] at hw
          exact walk_mono h rest cur c hw
        · rw [if_neg (by assumption)] at hw
          split
          · rw [if_pos (by assumption)] at hw
            exact walk_mono h rest _ c hw
          · rw [if_neg (by assumption)] at hw
            exact walk_mono h rest _ c hw

theorem dir_exists_mono {fs fs1 : CgFs}
    (h : ∀ p, CgFs.isDir fs p = true → CgFs.isDir fs1 p = true) (s : List Char)
    (hd : CgFs.dir_exists fs s = true) : CgFs.dir_exists fs1 s = true := by
  unfold CgFs.dir_exists at hd ⊢
  cases hr : CgFs.resolve fs s with
  | none => simp [hr] at hd
  | some c =>
    rw [hr] at hd
    have hr1 : CgFs.resolve fs1 s = some c := walk_mono h _ _ _ hr
    rw [hr1]
    exact h c hd

theorem mkdir_spec (fs fs1 : CgFs) (s : List Char) (h : CgFs.mkdir fs s = (.ok, fs1)) :
    ∃ c, CgFs.resolve fs s = some c ∧ CgFs.isDir fs c = false ∧ fs1 = ⟨c, 0, 0⟩ :: fs := by
  unfold CgFs.mkdir at h
  split at h
  · simp at h
  · rename_i c hr
    split at h
    · simp at h
    · rename_i hd
      split at h
      · simp only [Prod.mk.injEq, true_and] at h
        exact ⟨c, hr, by simpa using hd, h.symm⟩
      · simp at h

theorem mkdir_eexist (fs fs1 : CgFs) (s : List Char) (h : CgFs.mkdir fs s = (.eexist, fs1)) :
    CgFs.dir_exists fs s = true := by
  unfold CgFs.mkdir at h
  split at h
  · simp at h
  · rename_i c hr
    split at h
    · rename_i hd
      simp [CgFs.dir_exists, hr, hd]
    · split at h <;> simp at h

theorem chown_map_path (fs : CgFs) (s : List Char) (uid gid : Nat) :
    (CgFs.chown_cgroup_path fs s uid gid).2.map CgDir.path = fs.map CgDir.path := by
  unfold CgFs.chown_cgroup_path
  split
  · rfl
  · split
    · rfl
    · split
      · rfl
      · simp only [List.map_map]
        apply List.map_congr_left
        intro d _
        simp only [Function.comp]
        split
        · rename_i h; exact h.symm
        · rfl

theorem chown_isDir (fs : CgFs) (s : List Char) (uid gid : Nat) (p : List (List Char)) :
    CgFs.isDir (CgFs.chown_cgroup_path fs s uid gid).2 p = CgFs.isDir fs p :=
  isDir_of_map_path (chown_map_path fs s uid gid) p

/-! ### Idempotence of `create_main` -/

theorem create_loop_second_run (env : CgEnv) (u : ucred) :
    ∀ (comps : List (List Char)) (fs : CgFs) (path dirpath : List Char) (ex : Int),
      (∀ p ∈ comps, p ≠ ['.', '.']) →
      (∀ q ∈ component_paths path comps, CgFs.dir_exists fs q = true ∧
        env.access fs u.pid u.uid u.gid q .O_RDONLY = true) →
      create_loop (cgSys env) u comps fs path dirpath ex
        = ⟨0, if comps = [] then ex else 1, fs,
            (component_paths path comps).map
              (fun q => Event.may_access u.pid u.uid u.gid q .O_RDONLY true)⟩
  | [], fs, path, dirpath, ex => by
    intro _ _
    simp [create_loop, component_paths]
  | p :: rest, fs, path, dirpath, ex => by
    intro hdd hq
    have hp : p ≠ ['.', '.'] := hdd p (List.mem_cons_self _ _)
    have hq1 := hq _ (List.mem_cons_self _ _)
    have ih := create_loop_second_run env u rest fs
      (strncat (strncat path ['/'] (MAXPATHLEN - 1)) p (MAXPATHLEN - 1))
      (strncat (strncat dirpath ['/'] (MAXPATHLEN - 1)) p (MAXPATHLEN - 1)) 1
      (fun p1 h => hdd p1 (List.mem_cons_of_mem _ h))
      (fun q h => hq q (List.mem_cons_of_mem _ h))
    have hde : (cgSys env).dir_exists fs
        (strncat (strncat path ['/'] (MAXPATHLEN - 1)) p (MAXPATHLEN - 1)) = true := hq1.1
    have hac : (cgSys env).may_access fs u.pid u.uid u.gid
        (strncat (strncat path ['/'] (MAXPATHLEN - 1)) p (MAXPATHLEN - 1)) .O_RDONLY = true :=
      hq1.2
    unfold create_loop
    simp only [hp, if_false, hde, hac, if_true, ih, Outcome.after, component_paths,
      List.map_cons, List.singleton_append]
    cases rest <;> simp

theorem create_loop_first_run (env : CgEnv) (u : ucred) :
    ∀ (comps : List (List Char)) (fs : CgFs) (path dirpath : List Char) (ex : Int),
      (create_loop (cgSys env) u comps fs path dirpath ex).ret = 0 →
      (∀ p ∈ comps, p ≠ ['.', '.']) ∧
      (∀ p, CgFs.isDir fs p = true →
        CgFs.isDir (create_loop (cgSys env) u comps fs path dirpath ex).st p = true) ∧
      (∀ q ∈ component_paths path comps,
        CgFs.dir_exists (create_loop (cgSys env) u comps fs path dirpath ex).st q = true)
  | [], fs, path, dirpath, ex => by
    intro _
    simp [create_loop, component_paths]
  | p :: rest, fs, path, dirpath, ex => by
    intro hret
    have ih := fun fs1 ex1 => create_loop_first_run env u rest fs1
      (strncat (strncat path ['/'] (MAXPATHLEN - 1)) p (MAXPATHLEN - 1))
      (strncat (strncat dirpath ['/'] (MAXPATHLEN - 1)) p (MAXPATHLEN - 1)) ex1
    generalize ho : create_loop (cgSys env) u (p :: rest) fs path dirpath ex = o at hret ⊢
    unfold create_loop at ho
    split at ho
    · subst ho; simp at hret
    · rename_i hp
      simp only [] at ho
      split at ho
      · rename_i hde
        split at ho
        · subst ho
          rw [after_ret] at hret
          obtain ⟨h1, h2, h3⟩ := ih _ _ hret
          rw [after_st]
          refine ⟨?_, h2, ?_⟩
          · intro p1 hp1
            rcases List.mem_cons.1 hp1 with rfl | hp1
            · exact hp
            · exact h1 p1 hp1
          · intro q hq
            rcases List.mem_cons.1 hq with rfl | hq
            · exact dir_exists_mono h2 _ hde
            · exact h3 q hq
        · subst ho; simp at hret
      · rename_i hde
        split at ho
        · split at ho
          · rename_i heq
            exact absurd (mkdir_eexist _ _ _ heq) hde
          · subst ho; simp at hret
          · rename_i st1 heq
            split at ho
            · subst ho; simp at hret
            · rename_i st2 heq2
              subst ho
              rw [after_ret] at hret
              obtain ⟨h1, h2, h3⟩ := ih _ _ hret
              rw [after_st]
              obtain ⟨c, hr, hnd, hst1⟩ := mkdir_spec _ _ _ heq
              have hst2 : st2 = (CgFs.chown_cgroup_path st1
                  (strncat (strncat path ['/'] (MAXPATHLEN - 1)) p (MAXPATHLEN - 1))
                  u.uid u.gid).2 := by
                have : (CgFs.chown_cgroup_path st1
                  (strncat (strncat path ['/'] (MAXPATHLEN - 1)) p (MAXPATHLEN - 1))
                  u.uid u.gid) = (true, st2) := heq2
                rw [this]
              have e01 : ∀ q, CgFs.isDir fs q = true → CgFs.isDir st1 q = true := by
                intro q hq
                rw [hst1]
                exact (isDir_cons _ _ _).2 (Or.inr hq)
              have e12 : ∀ q, CgFs.isDir st1 q = true → CgFs.isDir st2 q = true := by
                intro q hq
                rw [hst2, chown_isDir]
                exact hq
              have hd1 : CgFs.dir_exists st1
                  (strncat (strncat path ['/'] (MAXPATHLEN - 1)) p (MAXPATHLEN - 1)) = true := by
                have hr1 : CgFs.resolve st1
                    (strncat (strncat path ['/'] (MAXPATHLEN - 1)) p (MAXPATHLEN - 1))
                    = some c := walk_mono e01 _ _ _ hr
                unfold CgFs.dir_exists
                rw [hr1, hst1]
                exact (isDir_cons _ _ _).2 (Or.inl rfl)
              refine ⟨?_, fun q hq => h2 q (e12 q (e01 q hq)), ?_⟩
              · intro p1 hp1
                rcases List.mem_cons.1 hp1 with rfl | hp1
                · exact hp
                · exact h1 p1 hp1
              · intro q hq
                rcases List.mem_cons.1 hq with rfl | hq
                · exact dir_exists_mono h2 _ (dir_exists_mono e12 _ hd1)
                · exact h3 q hq
        · subst ho; simp at hret

/-- On the directory-tree model without regular files, if `create_main`
succeeds and afterwards the requestor may read every component path of the
client path, then the same `create_main` run again in the resulting tree
returns 0 with `existed = 1` (reply `'2'`), leaves the tree identical, and
calls nothing but the read checks: no `mkdir`, no chown, no `rmdir`.  There
every component path is a directory once the first run has succeeded. -/
theorem create_idempotent_tree (env : CgEnv) (fs : CgFs) (controller cgroup : List Char)
    (u : ucred)
    (h1 : (create_main (cgSys env) fs controller cgroup u).ret = 0)
    (hread : ∀ rcgpath, env.cgroup_of u.pid controller [] = some rcgpath →
      ∀ q ∈ component_paths rcgpath (components cgroup),
        env.access (create_main (cgSys env) fs controller cgroup u).st
          u.pid u.uid u.gid q .O_RDONLY = true) :
    ∃ trace,
      create_main (cgSys env) (create_main (cgSys env) fs controller cgroup u).st
          controller cgroup u
        = ⟨0, 1, (create_main (cgSys env) fs controller cgroup u).st, trace⟩ ∧
      (∀ e ∈ trace, e.isMutation = false) ∧
      create_scm_complete (create_main (cgSys env)
        (create_main (cgSys env) fs controller cgroup u).st controller cgroup u) = '2' := by
  cases cgroup with
  | nil => exact ⟨[], rfl, by simp, by simp [create_main, create_scm_complete]⟩
  | cons c0 cs =>
    by_cases hc : c0 = '/' ∨ c0 = '.'
    · simp [create_main, hc] at h1
    · cases hcg : env.cgroup_of u.pid controller [] with
      | none =>
        have : (cgSys env).compute_pid_cgroup fs u.pid controller [] = none := hcg
        simp [create_main, hc, this] at h1
      | some rcgpath =>
        have hcg0 : ∀ st, (cgSys env).compute_pid_cgroup st u.pid controller []
            = some rcgpath := fun _ => hcg
        by_cases hl : rcgpath.length + (c0 :: cs).length > MAXPATHLEN
        · simp only [create_main, hc, if_false, hcg0, hl, if_true] at h1
          simp at h1
        · have hrun : ∀ st, create_main (cgSys env) st controller (c0 :: cs) u
              = create_loop (cgSys env) u (components (c0 :: cs)) st rcgpath rcgpath 1 := by
            intro st
            simp only [create_main, hc, if_false, hcg0, hl]
          rw [hrun] at h1 hread ⊢
          obtain ⟨hdd, _, hex⟩ := create_loop_first_run env u _ fs rcgpath rcgpath 1 h1
          have h2 := create_loop_second_run env u (components (c0 :: cs))
            (create_loop (cgSys env) u (components (c0 :: cs)) fs rcgpath rcgpath 1).st
            rcgpath rcgpath 1 hdd (fun q hq => ⟨hex q hq, hread rcgpath hcg q hq⟩)
          rw [hrun, h2]
          refine ⟨(component_paths rcgpath (components (c0 :: cs))).map
            (fun q => Event.may_access u.pid u.uid u.gid q .O_RDONLY true), ?_, ?_, ?_⟩
          · simp
          · intro e he
            obtain ⟨q, _, rfl⟩ := List.mem_map.1 he
            rfl
          · simp [create_scm_complete]

/-! ### Path strings -/

theorem normalize_scan_id : ∀ (s : List Char), strstr_slashslash s = false →
    normalize_scan false s = s
  | [] => fun _ => rfl
  | [c] => fun _ => by simp [normalize_scan]
  | c :: d :: rest => by
    intro h
    simp only [strstr_slashslash, Bool.or_eq_false_iff, Bool.and_eq_false_imp, beq_iff_eq] at h
    have ih := normalize_scan_id (d :: rest) h.2
    unfold normalize_scan
    simp only []
    rw [if_neg (by
      intro hcd
      have := h.1 hcd.1
      simp [hcd.2] at this), ih]

theorem split_slash_ne_nil : ∀ (s : List Char), split_slash s ≠ []
  | [] => by simp [split_slash]
  | c :: cs => by
    unfold split_slash
    split
    · simp
    · split <;> simp

theorem split_slash_cons (c : Char) (cs : List Char) :
    split_slash (c :: cs) =
      if c = '/' then [] :: split_slash cs
      else
        match split_slash cs with
        | [] => [[c]]
        | s :: ss => (c :: s) :: ss := by
  rw [split_slash]

theorem split_slash_append : ∀ (a b : List Char),
    split_slash (a ++ '/' :: b) = split_slash a ++ split_slash b
  | [], b => by simp [split_slash_cons, split_slash]
  | c :: a, b => by
    have ih := split_slash_append a b
    simp only [List.cons_append]
    rw [split_slash_cons c (a ++ '/' :: b), split_slash_cons c a, ih]
    split
    · simp
    · cases hs : split_slash a with
      | nil => exact absurd hs (split_slash_ne_nil a)
      | cons s0 ss => simp

theorem split_slash_no_slash : ∀ (c : List Char), '/' ∉ c → split_slash c = [c]
  | [] => fun _ => rfl
  | a :: c => by
    intro h
    have ha : a ≠ '/' := fun e => h (by simp [e])
    have hc : '/' ∉ c := fun e => h (List.mem_cons_of_mem _ e)
    unfold split_slash
    rw [if_neg ha, split_slash_no_slash c hc]

theorem split_slash_components : ∀ (s : List Char),
    split_slash s = components s ∨ split_slash s = components s ++ [[]]
  | [] => Or.inr rfl
  | c :: cs => by
    have ih := split_slash_components cs
    unfold split_slash components
    split
    · rcases ih with h | h
      · exact Or.inl (by rw [h])
      · exact Or.inr (by rw [h]; rfl)
    · rcases ih with h | h
      · rw [h]
        cases hc : components cs with
        | nil => rw [hc] at h; exact absurd h (split_slash_ne_nil cs)
        | cons s0 ss => exact Or.inl rfl
      · rw [h]
        cases hc : components cs with
        | nil => exact Or.inl rfl
        | cons s0 ss => exact Or.inr rfl

theorem components_length_le : ∀ (s : List Char), ∀ c ∈ components s, c.length ≤ s.length
  | [] => by simp [components]
  | a :: s => by
    have ih := components_length_le s
    intro c hc
    unfold components at hc
    split at hc
    · rcases List.mem_cons.1 hc with h | h
      · subst h; simp
      · have := ih c h
        simp only [List.length_cons]
        omega
    · split at hc
      · rcases List.mem_cons.1 hc with h | h
        · subst h; simp
        · simp at h
      · rename_i s0 ss heq
        rw [heq] at ih
        rcases List.mem_cons.1 hc with h | h
        · subst h
          have := ih s0 (List.mem_cons_self _ _)
          simp only [List.length_cons]
          omega
        · have := ih c (List.mem_cons_of_mem _ h)
          simp only [List.length_cons]
          omega

theorem walk_cons (fs : CgFs) (seg : List Char) (rest cur : List (List Char)) :
    CgFs.walk fs (seg :: rest) cur =
      if seg = [] then CgFs.walk fs rest cur
      else if !fs.isDir cur then none
      else if seg = ['.'] then CgFs.walk fs rest cur
      else if seg = ['.', '.'] then CgFs.walk fs rest cur.tail
      else CgFs.walk fs rest (seg :: cur) := by
  rw [CgFs.walk]

theorem walk_append (fs : CgFs) : ∀ (s1 s2 : List (List Char)) (cur : List (List Char)),
    CgFs.walk fs (s1 ++ s2) cur = (CgFs.walk fs s1 cur).bind (CgFs.walk fs s2)
  | [], s2, cur => by simp [CgFs.walk]
  | seg :: s1, s2, cur => by
    simp only [List.cons_append]
    rw [walk_cons fs seg (s1 ++ s2), walk_cons fs seg s1]
    split
    · exact walk_append fs s1 s2 cur
    · split
      · rfl
      · split
        · exact walk_append fs s1 s2 cur
        · split
          · exact walk_append fs s1 s2 _
          · exact walk_append fs s1 s2 _

theorem walk_split_slash (fs : CgFs) (s : List Char) (cur : List (List Char)) :
    CgFs.walk fs (split_slash s) cur = CgFs.walk fs (components s) cur := by
  rcases split_slash_components s with h | h
  · rw [h]
  · rw [h, walk_append]
    cases CgFs.walk fs (components s) cur with
    | none => rfl
    | some c => simp [CgFs.walk]

theorem component_paths_last : ∀ (comps : List (List Char)) (path lastpath : List Char),
    (∀ c ∈ comps, '/' ∉ c ∧ c.length ≤ MAXPATHLEN - 1) →
    (component_paths path comps).getLast? = some lastpath →
    split_slash lastpath = split_slash path ++ comps
  | [], path, lastpath => by
    intro _ h
    simp [component_paths] at h
  | p :: rest, path, lastpath => by
    intro hc h
    have hp := hc p (List.mem_cons_self _ _)
    have hpath : strncat (strncat path ['/'] (MAXPATHLEN - 1)) p (MAXPATHLEN - 1)
        = path ++ '/' :: p := by
      rw [strncat_component, List.take_of_length_le hp.2]
    have hsp : split_slash (path ++ '/' :: p) = split_slash path ++ [p] := by
      rw [split_slash_append, split_slash_no_slash p hp.1]
    unfold component_paths at h
    rw [hpath] at h
    cases rest with
    | nil =>
      simp only [component_paths, List.getLast?_singleton, Option.some.injEq] at h
      rw [← h, hsp]
    | cons p2 rest =>
      have ih := component_paths_last (p2 :: rest) (path ++ '/' :: p) lastpath
        (fun c hc1 => hc c (List.mem_cons_of_mem _ hc1))
      have hne : component_paths (path ++ '/' :: p) (p2 :: rest) ≠ [] := by
        simp [component_paths]
      have hgl : ∀ (a : List Char) (l : List (List Char)), l ≠ [] →
          (a :: l).getLast? = l.getLast? := by
        intro a l hl
        cases l with
        | nil => exact absurd rfl hl
        | cons b l => exact List.getLast?_cons_cons
      rw [hgl _ _ hne] at h
      rw [ih h, hsp]
      simp

/-! ### Create followed by remove -/

theorem getLast?_cons_ne_nil {α : Type} (a : α) (l : List α) (hl : l ≠ []) :
    (a :: l).getLast? = l.getLast? := by
  cases l with
  | nil => exact absurd rfl hl
  | cons b l => exact List.getLast?_cons_cons

theorem component_paths_ne_nil (path p : List Char) (rest : List (List Char)) :
    component_paths path (p :: rest) ≠ [] := by
  simp [component_paths]

theorem create_loop_makes_last (env : CgEnv) (u : ucred) :
    ∀ (comps : List (List Char)) (fs : CgFs) (path dirpath : List Char),
      (∀ q ∈ (component_paths path comps).dropLast, CgFs.dir_exists fs q = true) →
      (create_loop (cgSys env) u comps fs path dirpath 1).ret = 0 →
      (create_loop (cgSys env) u comps fs path dirpath 1).existed ≠ 1 →
      ∃ lastpath st1, (component_paths path comps).getLast? = some lastpath ∧
        CgFs.mkdir fs lastpath = (.ok, st1) ∧
        CgFs.chown_cgroup_path st1 lastpath u.uid u.gid
          = (true, (create_loop (cgSys env) u comps fs path dirpath 1).st)
  | [], fs, path, dirpath => by
    intro _ _ hex
    simp [create_loop] at hex
  | p :: rest, fs, path, dirpath => by
    intro hpre hret hex
    have ih := create_loop_makes_last env u rest fs
      (strncat (strncat path ['/'] (MAXPATHLEN - 1)) p (MAXPATHLEN - 1))
      (strncat (strncat dirpath ['/'] (MAXPATHLEN - 1)) p (MAXPATHLEN - 1))
    generalize ho : create_loop (cgSys env) u (p :: rest) fs path dirpath 1 = o at hret hex ⊢
    unfold create_loop at ho
    split at ho
    · subst ho; simp at hret
    · simp only [] at ho
      split at ho
      · split at ho
        · subst ho
          rw [after_ret] at hret
          rw [after_existed] at hex
          rw [after_st]
          cases rest with
          | nil => simp [create_loop] at hex
          | cons p2 rest =>
            have hne := component_paths_ne_nil
              (strncat (strncat path ['/'] (MAXPATHLEN - 1)) p (MAXPATHLEN - 1)) p2 rest
            obtain ⟨lastpath, st1, h1, h2, h3⟩ := ih (by
              intro q hq
              apply hpre q
              rw [component_paths, List.dropLast_cons_of_ne_nil hne]
              exact List.mem_cons_of_mem _ hq) hret hex
            refine ⟨lastpath, st1, ?_, h2, h3⟩
            rw [component_paths, getLast?_cons_ne_nil _ _ hne]
            exact h1
        · subst ho; simp at hret
      · rename_i hde
        cases rest with
        | cons p2 rest =>
          have hne := component_paths_ne_nil
            (strncat (strncat path ['/'] (MAXPATHLEN - 1)) p (MAXPATHLEN - 1)) p2 rest
          exfalso
          apply hde
          apply hpre
          rw [component_paths, List.dropLast_cons_of_ne_nil hne]
          exact List.mem_cons_self _ _
        | nil =>
          split at ho
          · split at ho
            · subst ho
              rw [after_existed] at hex
              simp [create_loop] at hex
            · subst ho; simp at hret
            · rename_i st1 heq
              split at ho
              · subst ho; simp at hret
              · rename_i st2 heq2
                subst ho
                refine ⟨_, st1, rfl, heq, ?_⟩
                rw [after_st]
                simpa [create_loop] using heq2
          · subst ho; simp at hret

theorem not_isDir_path_ne {fs : CgFs} {c : List (List Char)} (h : CgFs.isDir fs c = false) :
    ∀ d ∈ fs, d.path ≠ c := by
  intro d hd e
  have : CgFs.isDir fs c = true := by
    simp only [CgFs.isDir, Bool.or_eq_true, List.any_eq_true, beq_iff_eq]
    exact Or.inr ⟨d, hd, e⟩
  rw [h] at this
  exact Bool.noConfusion this

theorem map_chown_fresh {fs : CgFs} {c : List (List Char)} (h : CgFs.isDir fs c = false)
    (uid gid : Nat) :
    fs.map (fun d => if d.path = c then (⟨c, uid, gid⟩ : CgDir) else d) = fs := by
  have hne := not_isDir_path_ne h
  conv_rhs => rw [← List.map_id fs]
  apply List.map_congr_left
  intro d hd
  simp [hne d hd]

theorem filter_fresh {fs : CgFs} {c : List (List Char)} (h : CgFs.isDir fs c = false) :
    fs.filter (fun d => d.path != c) = fs := by
  have hne := not_isDir_path_ne h
  apply List.filter_eq_self.2
  intro d hd
  simp [hne d hd]

theorem rmdir_spec (fs fs1 : CgFs) (s : List Char) (h : CgFs.rmdir fs s = (true, fs1)) :
    ∃ c, CgFs.resolve fs s = some c ∧ fs1 = fs.filter (fun d => d.path != c) := by
  unfold CgFs.rmdir at h
  split at h
  · simp at h
  · rename_i c hr
    split at h
    · simp at h
    · split at h
      · simp at h
      · split at h
        · simp at h
        · split at h
          · simp at h
          · simp only [Prod.mk.injEq, true_and] at h
            exact ⟨c, hr, h.symm⟩

theorem chown_fresh (fs st2 : CgFs) (s : List Char) (c : List (List Char)) (uid gid : Nat)
    (hr : CgFs.resolve fs s = some c) (hnd : CgFs.isDir fs c = false)
    (h : CgFs.chown_cgroup_path (⟨c, 0, 0⟩ :: fs) s uid gid = (true, st2)) :
    st2 = ⟨c, uid, gid⟩ :: fs := by
  have e01 : ∀ q, CgFs.isDir fs q = true → CgFs.isDir (⟨c, 0, 0⟩ :: fs) q = true :=
    fun q hq => (isDir_cons _ _ _).2 (Or.inr hq)
  have hr1 : CgFs.resolve (⟨c, 0, 0⟩ :: fs) s = some c := walk_mono e01 _ _ _ hr
  unfold CgFs.chown_cgroup_path at h
  rw [hr1] at h
  simp only [] at h
  split at h
  · simp at h
  · split at h
    · simp at h
    · simp only [Prod.mk.injEq, true_and] at h
      rw [← h]
      simp [map_chown_fresh hnd]

theorem opendir_fresh (fs : CgFs) (s : List Char) (c : List (List Char)) (uid gid : Nat)
    (hwf : ∀ d ∈ fs, CgFs.isDir fs d.path.tail = true)
    (hr : CgFs.resolve (⟨c, uid, gid⟩ :: fs) s = some c) (hnd : CgFs.isDir fs c = false) :
    CgFs.opendir (⟨c, uid, gid⟩ :: fs) s = some [['.'], ['.', '.']] := by
  have hd : CgFs.isDir (⟨c, uid, gid⟩ :: fs) c = true := (isDir_cons _ _ _).2 (Or.inl rfl)
  unfold CgFs.opendir
  rw [hr]
  simp only [hd, if_true, Option.some.injEq, List.cons.injEq, true_and]
  apply List.filterMap_eq_nil_iff.2
  intro d hdm
  rcases List.mem_cons.1 hdm with rfl | hdm
  · simp only []
    cases c with
    | nil => rfl
    | cons n parent =>
      simp only []
      rw [if_neg]
      intro e
      have := congrArg List.length e
      simp at this
  · cases hp : d.path with
    | nil => rfl
    | cons n parent =>
      simp only []
      rw [if_neg]
      intro e
      have h1 := hwf d hdm
      rw [hp, List.tail_cons, e, hnd] at h1
      exact Bool.noConfusion h1

theorem resolve_working_eq (fs : CgFs) (rcgpath cgroup lastpath : List Char)
    (hlast : split_slash lastpath = split_slash rcgpath ++ components cgroup) :
    CgFs.resolve fs (rcgpath ++ ['/'] ++ cgroup) = CgFs.resolve fs lastpath := by
  unfold CgFs.resolve
  rw [hlast, List.append_assoc, List.singleton_append, split_slash_append, walk_append,
    walk_append]
  cases CgFs.walk fs (split_slash rcgpath) [] with
  | none => rfl
  | some c => exact walk_split_slash fs cgroup c

theorem rmdir_fresh (fs fs2 : CgFs) (s : List Char) (c : List (List Char)) (uid gid : Nat)
    (hr : CgFs.resolve (⟨c, uid, gid⟩ :: fs) s = some c) (hnd : CgFs.isDir fs c = false)
    (h : CgFs.rmdir (⟨c, uid, gid⟩ :: fs) s = (true, fs2)) : fs2 = fs := by
  obtain ⟨c1, hr1, h1⟩ := rmdir_spec _ _ _ h
  rw [hr] at hr1
  simp only [Option.some.injEq] at hr1
  subst hr1
  rw [h1, List.filter_cons]
  simp [filter_fresh hnd]

theorem recursive_rmdir_fresh (env : CgEnv) (fuel : Nat) (fs : CgFs) (s : List Char)
    (c : List (List Char)) (uid gid : Nat) (r : Ret CgFs)
    (hwf : ∀ d ∈ fs, CgFs.isDir fs d.path.tail = true)
    (hr : CgFs.resolve (⟨c, uid, gid⟩ :: fs) s = some c) (hnd : CgFs.isDir fs c = false)
    (h : recursive_rmdir (cgSys env) fuel (⟨c, uid, gid⟩ :: fs) s = some r)
    (hret : ¬ r.ret < 0) : r.st = fs := by
  cases fuel with
  | zero => simp [recursive_rmdir] at h
  | succ fuel =>
    have hop : (cgSys env).opendir (⟨c, uid, gid⟩ :: fs) s = some [['.'], ['.', '.']] :=
      opendir_fresh fs s c uid gid hwf hr hnd
    unfold recursive_rmdir at h
    rw [hop] at h
    simp only [readdir_loop, true_or, or_true, if_true, Option.some.injEq] at h
    subst h
    simp only [] at hret ⊢
    cases hx : CgFs.rmdir (⟨c, uid, gid⟩ :: fs) s with
    | mk b fs2 =>
      have hx1 : (cgSys env).rmdir (⟨c, uid, gid⟩ :: fs) s = (b, fs2) := hx
      rw [hx1] at hret ⊢
      cases b with
      | false => simp at hret
      | true => exact rmdir_fresh fs fs2 s c uid gid hr hnd hx

/-- C6, amended: on the directory-tree model, in a tree in which every
directory has its parent, let the client path have no `"//"` and let every
component path but the last be an existing directory.  If `create_main`
succeeds with reply `'1'` (it made the last component) and the following
`remove_main` on the same path, recursive or not, returns 0, then the tree is
again the tree before the create.  `rcgpath` is the non-empty path that
`compute_pid_cgroup` gives for the requestor. -/
theorem create_remove_round_trip (env : CgEnv) (fs : CgFs)
    (controller cgroup rcgpath : List Char) (u : ucred) (fuel : Nat) (recursive : Int)
    (o : Outcome CgFs)
    (hwf : ∀ d ∈ fs, CgFs.isDir fs d.path.tail = true)
    (hcg : env.cgroup_of u.pid controller [] = some rcgpath)
    (hB : rcgpath ≠ [])
    (hds : strstr_slashslash cgroup = false)
    (hpre : ∀ q ∈ (component_paths rcgpath (components cgroup)).dropLast,
      CgFs.dir_exists fs q = true)
    (hc : (create_main (cgSys env) fs controller cgroup u).ret = 0)
    (hcr : create_scm_complete (create_main (cgSys env) fs controller cgroup u) = '1')
    (hr : remove_main (cgSys env) fuel (create_main (cgSys env) fs controller cgroup u).st
      controller cgroup u recursive = some o)
    (hro : o.ret = 0) :
    o.st = fs := by
  cases cgroup with
  | nil => simp [create_main, create_scm_complete] at hcr
  | cons c0 cs =>
    have hcg0 : ∀ st, (cgSys env).compute_pid_cgroup st u.pid controller []
        = some rcgpath := fun _ => hcg
    by_cases hc0 : c0 = '/' ∨ c0 = '.'
    · simp [create_main, hc0] at hc
    by_cases hl : rcgpath.length + (c0 :: cs).length > MAXPATHLEN
    · simp only [create_main, hc0, if_false, hcg0, hl, if_true] at hc
      simp at hc
    have hrun : create_main (cgSys env) fs controller (c0 :: cs) u
        = create_loop (cgSys env) u (components (c0 :: cs)) fs rcgpath rcgpath 1 := by
      simp only [create_main, hc0, if_false, hcg0, hl]
    rw [hrun] at hc hcr hr
    have hex : (create_loop (cgSys env) u (components (c0 :: cs)) fs rcgpath rcgpath 1).existed
        ≠ 1 := by
      intro e
      simp [create_scm_complete, hc, e] at hcr
    obtain ⟨lastpath, st1, hlast, hmk, hch⟩ :=
      create_loop_makes_last env u _ fs rcgpath rcgpath hpre hc hex
    obtain ⟨c, hres, hnd, hst1⟩ := mkdir_spec _ _ _ hmk
    subst hst1
    have hfs1 := chown_fresh fs _ lastpath c u.uid u.gid hres hnd hch
    rw [hfs1] at hr
    have hBlen : 1 ≤ rcgpath.length := by
      cases rcgpath with
      | nil => exact absurd rfl hB
      | cons a l => simp
    have hcomps : ∀ p ∈ components (c0 :: cs), '/' ∉ p ∧ p.length ≤ MAXPATHLEN - 1 := by
      intro p hp
      refine ⟨components_no_slash _ p hp, ?_⟩
      have := components_length_le _ p hp
      simp only [MAXPATHLEN] at hl ⊢
      omega
    have hsplit := component_paths_last _ rcgpath lastpath hcomps hlast
    have e01 : ∀ q, CgFs.isDir fs q = true →
        CgFs.isDir (⟨c, u.uid, u.gid⟩ :: fs) q = true :=
      fun q hq => (isDir_cons _ _ _).2 (Or.inr hq)
    have hrw : CgFs.resolve (⟨c, u.uid, u.gid⟩ :: fs) (rcgpath ++ ['/'] ++ c0 :: cs)
        = some c := by
      rw [resolve_working_eq _ _ _ _ hsplit]
      exact walk_mono e01 _ _ _ hres
    have hde : (cgSys env).dir_exists (⟨c, u.uid, u.gid⟩ :: fs)
        (rcgpath ++ ['/'] ++ c0 :: cs) = true := by
      show CgFs.dir_exists _ _ = true
      unfold CgFs.dir_exists
      rw [hrw]
      exact (isDir_cons _ _ _).2 (Or.inl rfl)
    unfold remove_main at hr
    simp only [hc0, if_false, hcg0, hl] at hr
    cases hdd : strstr_dotdot (c0 :: cs) with
    | true =>
      have hn : normalize_path (c0 :: cs) = none := by simp [normalize_path, hdd]
      rw [hn] at hr
      simp only [Option.some.injEq] at hr
      subst hr
      simp at hro
    | false =>
      have hn : normalize_path (c0 :: cs) = some (c0 :: cs) := by
        simp [normalize_path, hdd, normalize_scan_id _ hds]
      rw [hn] at hr
      simp only [hde, Bool.not_true, Bool.false_eq_true, if_false] at hr
      split at hr
      · simp only [Option.some.injEq] at hr
        subst hr
        simp at hro
      · split at hr
        · simp only [Option.some.injEq] at hr
          subst hr
          simp at hro
        · split at hr
          · simp only [Option.some.injEq] at hr
            subst hr
            simp only [] at hro ⊢
            cases hx : CgFs.rmdir (⟨c, u.uid, u.gid⟩ :: fs) (rcgpath ++ ['/'] ++ c0 :: cs) with
            | mk b fs2 =>
              have hx1 : (cgSys env).rmdir (⟨c, u.uid, u.gid⟩ :: fs)
                  (rcgpath ++ ['/'] ++ c0 :: cs) = (b, fs2) := hx
              rw [hx1] at hro ⊢
              cases b with
              | false => simp at hro
              | true => exact rmdir_fresh fs fs2 _ c u.uid u.gid hrw hnd hx
          · split at hr
            · simp at hr
            · rename_i r hrec
              simp only [Option.some.injEq] at hr
              subst hr
              simp only [] at hro ⊢
              have hret : ¬ r.ret < 0 := by
                intro hneg
                simp [hneg] at hro
              exact recursive_rmdir_fresh env fuel fs _ c u.uid u.gid r hwf hrw hnd hrec hret

/-- Witness of C6 (amended): creating and recursively removing `a/b` when
`/user/a` already exists gives back the tree `/user`, `/user/a`. -/
theorem create_remove_round_trip_witness :
    (⟨0, 1, [userA, userDir],
      [Event.may_access 100 1000 1000 "/user/a".toList .O_WRONLY true,
        Event.rmdir "/user/a/b".toList true]⟩ : Outcome CgFs).st = [userA, userDir] :=
  create_remove_round_trip openEnv [userA, userDir] "memory".toList "a/b".toList
    "/user".toList alice 1 1 _ (by decide) rfl (by decide) (by decide) (by decide)
    (by decide) (by decide) rfl rfl

/-! ### The guards of `chown` and of the plain methods -/

/-- C17: when `hostuid_to_ns` finds no mapping for the requestor's uid in
the requestor's user namespace, or maps it to a uid other than 0, `chown_main`
returns -1 without any call and with the state unchanged. -/
theorem chown_requires_ns_root (sys : Sys σ) (st : σ) (controller cgroup : List Char)
    (r v : ucred) (h : sys.hostuid_to_ns st r.uid r.pid ≠ some 0) :
    chown_main sys st controller cgroup r v = ⟨-1, st, []⟩ := by
  unfold chown_main
  rw [if_pos h]

/-- Witness of C17: a chown request of a requestor whose uid is not mapped. -/
theorem chown_requires_ns_root_witness :
    (cgSys unmappedEnv).hostuid_to_ns [userA, userDir] alice.uid alice.pid ≠ some 0 ∧
    chown_main (cgSys unmappedEnv) [userA, userDir] "memory".toList "a".toList alice bob
      = ⟨-1, [userA, userDir], []⟩ :=
  ⟨by decide, chown_requires_ns_root (cgSys unmappedEnv) [userA, userDir] "memory".toList
    "a".toList alice bob (by decide)⟩

/-- C16: for a peer that is not in the pid namespace of the daemon,
`cgmanager_get_pid_cgroup` and `cgmanager_chown` return -1 without calling
`get_pid_cgroup_main` or `chown_main`; `cgmanager_chown` does the same for a
peer that is not in the user namespace of the daemon. -/
theorem plain_methods_namespace_guard (sys : Sys σ) (st : σ) (peer : ucred)
    (controller cgroup : List Char) (plain_pid uid gid : Int)
    (h : sys.is_same_pidns st peer.pid = false ∨ sys.is_same_userns st peer.pid = false) :
    (sys.is_same_pidns st peer.pid = false →
      cgmanager_get_pid_cgroup sys st (some ⟨some peer⟩) controller plain_pid = ⟨-1, none⟩) ∧
    cgmanager_chown sys st (some ⟨some peer⟩) controller cgroup uid gid = ⟨-1, none⟩ := by
  constructor
  · intro hp
    simp [cgmanager_get_pid_cgroup, hp]
  · rcases h with hp | hu
    · simp [cgmanager_chown, hp]
    · cases hp : sys.is_same_pidns st peer.pid <;> simp [cgmanager_chown, hp, hu]

/-- Witness of C16: a peer outside the pid namespace of the daemon. -/
theorem plain_methods_namespace_guard_witness :
    ((cgSys otherPidnsEnv).is_same_pidns [userDir] alice.pid = false ∨
      (cgSys otherPidnsEnv).is_same_userns [userDir] alice.pid = false) ∧
    ((cgSys otherPidnsEnv).is_same_pidns [userDir] alice.pid = false →
      cgmanager_get_pid_cgroup (cgSys otherPidnsEnv) [userDir] (some ⟨some alice⟩)
        "memory".toList 200 = ⟨-1, none⟩) ∧
    cgmanager_chown (cgSys otherPidnsEnv) [userDir] (some ⟨some alice⟩) "memory".toList
      "a".toList 1001 1001 = ⟨-1, none⟩ :=
  ⟨Or.inl rfl, plain_methods_namespace_guard (cgSys otherPidnsEnv) [userDir] alice
    "memory".toList "a".toList 200 1001 1001 (Or.inl rfl)⟩

/-! ### The checks before `chown`, `movePid`, `getValue` and `setValue` act -/

/-- C18: every chown that `chown_main` performs is on the path
`rcgpath/cgroup` built from the requestor's base path and the client path,
after `realpath_escapes` accepted that path and `may_access` granted the
requestor (pid, uid, gid) both `O_RDONLY` and `O_RDWR` on it, all in the
unchanged initial state; the new owner is the victim's uid and gid, and the
chown is the only mutating call. -/
theorem chown_authorized (sys : Sys σ) (st : σ) (controller cgroup : List Char)
    (r v : ucred) (P : List Char) (uid gid : Nat) (all res : Bool)
    (h : Event.chown_cgroup_path P uid gid all res
      ∈ (chown_main sys st controller cgroup r v).trace) :
    ∃ rcgpath, sys.compute_pid_cgroup st r.pid controller [] = some rcgpath ∧
      P = rcgpath ++ ['/'] ++ cgroup ∧
      sys.hostuid_to_ns st r.uid r.pid = some 0 ∧
      sys.realpath_escapes st P rcgpath = false ∧
      sys.may_access st r.pid r.uid r.gid P .O_RDONLY = true ∧
      sys.may_access st r.pid r.uid r.gid P .O_RDWR = true ∧
      uid = v.uid ∧ gid = v.gid ∧ all = false ∧
      (chown_main sys st controller cgroup r v).trace
        = [Event.may_access r.pid r.uid r.gid P .O_RDONLY true,
            Event.may_access r.pid r.uid r.gid P .O_RDWR true,
            Event.chown_cgroup_path P v.uid v.gid false
              (sys.chown_cgroup_path st P v.uid v.gid false).1] := by
  generalize ho : chown_main sys st controller cgroup r v = o at h ⊢
  unfold chown_main at ho
  split at ho
  · subst ho; simp at h
  · rename_i hroot
    split at ho
    · subst ho; simp at h
    · split at ho
      · subst ho; simp at h
      · rename_i rcgpath hcg
        split at ho
        · subst ho; simp at h
        · simp only [] at ho
          split at ho
          · subst ho; simp at h
          · rename_i hesc
            split at ho
            · subst ho; simp at h
            · rename_i ha1
              split at ho
              · subst ho; simp at h
              · rename_i ha2
                subst ho
                simp only [Bool.not_eq_true', Bool.not_eq_false] at ha1 ha2
                simp only [List.cons_append, List.nil_append, List.mem_cons,
                  List.mem_singleton, Event.chown_cgroup_path.injEq, List.not_mem_nil,
                  or_false, false_or, reduceCtorEq] at h
                obtain ⟨rfl, rfl, rfl, rfl, _⟩ := h
                refine ⟨rcgpath, hcg, rfl, not_not.1 hroot, by simpa using hesc, ha1, ha2,
                  rfl, rfl, rfl, ?_⟩
                rw [ha1, ha2]
                rfl

/-- Witness of C18: root in its namespace gives `/user/a` to uid and gid 1001. -/
theorem chown_authorized_witness :
    Event.chown_cgroup_path "/user/a".toList 1001 1001 false true
      ∈ (chown_main (cgSys openEnv) [userA, userDir] "memory".toList "a".toList
          alice bob).trace ∧
    (chown_main (cgSys openEnv) [userA, userDir] "memory".toList "a".toList alice bob).st
      = [⟨["a".toList, "user".toList], 1001, 1001⟩, userDir] ∧
    ∃ rcgpath, (cgSys openEnv).compute_pid_cgroup [userA, userDir] alice.pid
        "memory".toList [] = some rcgpath ∧
      "/user/a".toList = rcgpath ++ ['/'] ++ "a".toList ∧
      (cgSys openEnv).hostuid_to_ns [userA, userDir] alice.uid alice.pid = some 0 ∧
      (cgSys openEnv).realpath_escapes [userA, userDir] "/user/a".toList rcgpath = false ∧
      (cgSys openEnv).may_access [userA, userDir] alice.pid alice.uid alice.gid
        "/user/a".toList .O_RDONLY = true ∧
      (cgSys openEnv).may_access [userA, userDir] alice.pid alice.uid alice.gid
        "/user/a".toList .O_RDWR = true ∧
      1001 = bob.uid ∧ 1001 = bob.gid ∧ false = false ∧
      (chown_main (cgSys openEnv) [userA, userDir] "memory".toList "a".toList
          alice bob).trace
        = [Event.may_access alice.pid alice.uid alice.gid "/user/a".toList .O_RDONLY true,
            Event.may_access alice.pid alice.uid alice.gid "/user/a".toList .O_RDWR true,
            Event.chown_cgroup_path "/user/a".toList bob.uid bob.gid false
              ((cgSys openEnv).chown_cgroup_path [userA, userDir] "/user/a".toList
                bob.uid bob.gid false).1] :=
  ⟨by decide, by decide,
    chown_authorized (cgSys openEnv) [userA, userDir] "memory".toList "a".toList alice bob
      "/user/a".toList 1001 1001 false true (by decide)⟩

theorem take_of_le_maxpath (s : List Char) (h : s.length ≤ MAXPATHLEN - 1) :
    s.take (MAXPATHLEN - 1) = s :=
  List.take_of_length_le h

/-- C19: every mutating call of `move_pid_main` is the `fopen(path, "w")`, the
`fprintf` or the `fclose` on the file `rcgpath/cgroup/tasks`, and it is made
only when, in the unchanged initial state, `may_move_pid(r.pid, r.uid, v.pid)`
held, `realpath_escapes` accepted `rcgpath/cgroup`, and `may_access` granted
the requestor `O_RDONLY` on `rcgpath/cgroup` and `O_WRONLY` on the tasks file;
the bytes printed are `fmt_pid v.pid`, the decimal pid and a newline. -/
theorem move_pid_write_gated (sys : Sys σ) (st : σ) (controller cgroup : List Char)
    (r v : ucred) (e : Event)
    (he : e ∈ (move_pid_main sys st controller cgroup r v).trace)
    (hm : e.isMutation = true) :
    ∃ rcgpath res, sys.compute_pid_cgroup st r.pid controller [] = some rcgpath ∧
      sys.may_move_pid st r.pid r.uid v.pid = true ∧
      sys.realpath_escapes st (rcgpath ++ ['/'] ++ cgroup) rcgpath = false ∧
      sys.may_access st r.pid r.uid r.gid (rcgpath ++ ['/'] ++ cgroup) .O_RDONLY = true ∧
      sys.may_access st r.pid r.uid r.gid (rcgpath ++ ['/'] ++ cgroup ++ "/tasks".toList)
        .O_WRONLY = true ∧
      (e = Event.fopen_w (rcgpath ++ ['/'] ++ cgroup ++ "/tasks".toList) res ∨
        e = Event.fprintf (rcgpath ++ ['/'] ++ cgroup ++ "/tasks".toList) (fmt_pid v.pid) res ∨
        e = Event.fclose (rcgpath ++ ['/'] ++ cgroup ++ "/tasks".toList) res) := by
  generalize ho : move_pid_main sys st controller cgroup r v = o at he
  unfold move_pid_main at ho
  split at ho
  · subst ho; simp at he
  · rename_i hmove
    split at ho
    · subst ho; simp at he
    · split at ho
      · subst ho; simp at he
      · rename_i rcgpath hcg
        split at ho
        · subst ho; simp at he
        · rename_i hlen
          have hcl : cgroup.length ≤ MAXPATHLEN - 1 := by
            simp only [MAXPATHLEN] at hlen ⊢
            omega
          have hpath : strncat (strncat rcgpath ['/'] (MAXPATHLEN - 1)) cgroup (MAXPATHLEN - 1)
              = rcgpath ++ ['/'] ++ cgroup := by
            simp only [strncat, take_of_le_maxpath cgroup hcl]
            simp [MAXPATHLEN]
          have htasks : strncat (rcgpath ++ ['/'] ++ cgroup) ['/', 't', 'a', 's', 'k', 's']
              (MAXPATHLEN - 1) = rcgpath ++ ['/'] ++ cgroup ++ "/tasks".toList := by
            simp [strncat, MAXPATHLEN]
          simp only [hpath, htasks] at ho
          split at ho
          · subst ho; simp at he
          · rename_i hesc
            split at ho
            · subst ho
              simp only [List.mem_singleton] at he
              subst he
              simp [Event.isMutation] at hm
            · rename_i ha1
              split at ho
              · subst ho
                simp only [List.cons_append, List.nil_append, List.mem_cons,
                  List.mem_singleton, List.not_mem_nil, or_false] at he
                rcases he with rfl | rfl <;> simp [Event.isMutation] at hm
              · rename_i ha2
                simp only [Bool.not_eq_true', Bool.not_eq_false] at ha1 ha2 hmove
                have hesc1 : sys.realpath_escapes st (rcgpath ++ ['/'] ++ cgroup) rcgpath
                    = false := by simpa using hesc
                split at ho
                · subst ho
                  simp only [List.cons_append, List.nil_append, List.mem_cons,
                    List.mem_singleton, List.not_mem_nil, or_false] at he
                  rcases he with rfl | rfl | rfl
                  · simp [Event.isMutation] at hm
                  · simp [Event.isMutation] at hm
                  · exact ⟨rcgpath, _, hcg, hmove, hesc1, ha1, ha2, Or.inl rfl⟩
                · split at ho
                  · subst ho
                    simp only [List.cons_append, List.nil_append, List.mem_cons,
                      List.mem_singleton, List.not_mem_nil, or_false] at he
                    rcases he with rfl | rfl | rfl | rfl | rfl
                    · simp [Event.isMutation] at hm
                    · simp [Event.isMutation] at hm
                    · exact ⟨rcgpath, _, hcg, hmove, hesc1, ha1, ha2, Or.inl rfl⟩
                    · exact ⟨rcgpath, _, hcg, hmove, hesc1, ha1, ha2, Or.inr (Or.inl rfl)⟩
                    · exact ⟨rcgpath, _, hcg, hmove, hesc1, ha1, ha2, Or.inr (Or.inr rfl)⟩
                  · subst ho
                    simp only [List.cons_append, List.nil_append, List.mem_cons,
                      List.mem_singleton, List.not_mem_nil, or_false] at he
                    rcases he with rfl | rfl | rfl | rfl | rfl
                    · simp [Event.isMutation] at hm
                    · simp [Event.isMutation] at hm
                    · exact ⟨rcgpath, _, hcg, hmove, hesc1, ha1, ha2, Or.inl rfl⟩
                    · exact ⟨rcgpath, _, hcg, hmove, hesc1, ha1, ha2, Or.inr (Or.inl rfl)⟩
                    · exact ⟨rcgpath, _, hcg, hmove, hesc1, ha1, ha2, Or.inr (Or.inr rfl)⟩

/-- Witness of C19: scenario S3, moving pid 200 into `g` below `/user` prints
`200` and a newline into `/user/g/tasks`. -/
theorem move_pid_write_gated_witness :
    fmt_pid 200 = "200\n".toList ∧
    (move_pid_main (cgSys openEnv) [userDir] "freezer".toList "g".toList alice bob).trace
      = [Event.may_access 100 1000 1000 "/user/g".toList .O_RDONLY true,
          Event.may_access 100 1000 1000 "/user/g/tasks".toList .O_WRONLY true,
          Event.fopen_w "/user/g/tasks".toList true,
          Event.fprintf "/user/g/tasks".toList "200\n".toList true,
          Event.fclose "/user/g/tasks".toList true] ∧
    ∃ rcgpath res, (cgSys openEnv).compute_pid_cgroup [userDir] alice.pid
        "freezer".toList [] = some rcgpath ∧
      (cgSys openEnv).may_move_pid [userDir] alice.pid alice.uid bob.pid = true ∧
      (cgSys openEnv).realpath_escapes [userDir] (rcgpath ++ ['/'] ++ "g".toList) rcgpath
        = false ∧
      (cgSys openEnv).may_access [userDir] alice.pid alice.uid alice.gid
        (rcgpath ++ ['/'] ++ "g".toList) .O_RDONLY = true ∧
      (cgSys openEnv).may_access [userDir] alice.pid alice.uid alice.gid
        (rcgpath ++ ['/'] ++ "g".toList ++ "/tasks".toList) .O_WRONLY = true ∧
      (Event.fprintf "/user/g/tasks".toList "200\n".toList true
          = Event.fopen_w (rcgpath ++ ['/'] ++ "g".toList ++ "/tasks".toList) res ∨
        Event.fprintf "/user/g/tasks".toList "200\n".toList true
          = Event.fprintf (rcgpath ++ ['/'] ++ "g".toList ++ "/tasks".toList)
              (fmt_pid bob.pid) res ∨
        Event.fprintf "/user/g/tasks".toList "200\n".toList true
          = Event.fclose (rcgpath ++ ['/'] ++ "g".toList ++ "/tasks".toList) res) :=
  ⟨by decide, by decide,
    move_pid_write_gated (cgSys openEnv) [userDir] "freezer".toList "g".toList alice bob
      (Event.fprintf "/user/g/tasks".toList "200\n".toList true) (by decide) (by decide)⟩

theorem strncat_key (path key : List Char)
    (h : ¬ path.length + key.length + 2 > MAXPATHLEN) :
    strncat (strncat path ['/'] (MAXPATHLEN - 1)) key (MAXPATHLEN - 1)
      = path ++ ['/'] ++ key := by
  have hk : key.length ≤ MAXPATHLEN - 1 := by
    simp only [MAXPATHLEN] at h ⊢
    omega
  simp only [strncat, take_of_le_maxpath key hk]
  simp [MAXPATHLEN]

/-- C20: with `dir` the directory that `compute_pid_cgroup` gives for the
requested cgroup, `get_value_main` reads only the file `dir/key` and only
after `may_access` granted the requestor `O_RDONLY` on `dir` and on `dir/key`;
`set_value_main` writes only the file `dir/key`, only the given value, and
only after `may_access` granted `O_RDONLY` on `dir` and `O_RDWR` on `dir/key`;
and when one of the two checks of an executor is refused, it returns -1 with
the state unchanged after nothing but `may_access` calls. -/
theorem value_access_checked (sys : Sys σ) (st : σ)
    (controller req_cgroup key value : List Char) (u : ucred) :
    (∀ P res, Event.file_read_string P res
        ∈ (get_value_main sys st controller req_cgroup key u).trace →
      ∃ dir, sys.compute_pid_cgroup st u.pid controller req_cgroup = some dir ∧
        P = dir ++ ['/'] ++ key ∧
        sys.may_access st u.pid u.uid u.gid dir .O_RDONLY = true ∧
        sys.may_access st u.pid u.uid u.gid P .O_RDONLY = true) ∧
    (∀ P val res, Event.set_value P val res
        ∈ (set_value_main sys st controller req_cgroup key value u).trace →
      ∃ dir, sys.compute_pid_cgroup st u.pid controller req_cgroup = some dir ∧
        P = dir ++ ['/'] ++ key ∧ val = value ∧
        sys.may_access st u.pid u.uid u.gid dir .O_RDONLY = true ∧
        sys.may_access st u.pid u.uid u.gid P .O_RDWR = true) ∧
    (∀ dir, sys.compute_pid_cgroup st u.pid controller req_cgroup = some dir →
      (sys.may_access st u.pid u.uid u.gid dir .O_RDONLY = false ∨
        sys.may_access st u.pid u.uid u.gid (dir ++ ['/'] ++ key) .O_RDONLY = false) →
      (get_value_main sys st controller req_cgroup key u).ret = -1 ∧
      (get_value_main sys st controller req_cgroup key u).output = none ∧
      (get_value_main sys st controller req_cgroup key u).st = st ∧
      ∀ e ∈ (get_value_main sys st controller req_cgroup key u).trace,
        ∃ p m b, e = Event.may_access u.pid u.uid u.gid p m b) ∧
    (∀ dir, sys.compute_pid_cgroup st u.pid controller req_cgroup = some dir →
      (sys.may_access st u.pid u.uid u.gid dir .O_RDONLY = false ∨
        sys.may_access st u.pid u.uid u.gid (dir ++ ['/'] ++ key) .O_RDWR = false) →
      (set_value_main sys st controller req_cgroup key value u).ret = -1 ∧
      (set_value_main sys st controller req_cgroup key value u).st = st ∧
      ∀ e ∈ (set_value_main sys st controller req_cgroup key value u).trace,
        ∃ p m b, e = Event.may_access u.pid u.uid u.gid p m b) := by
  refine ⟨?_, ?_, ?_, ?_⟩
  · intro P res h
    generalize ho : get_value_main sys st controller req_cgroup key u = o at h
    unfold get_value_main at ho
    split at ho
    · subst ho; simp at h
    · rename_i dir hcg
      simp only [] at ho
      split at ho
      · subst ho; simp at h
      · rename_i ha1
        split at ho
        · subst ho; simp at h
        · rename_i hlen
          rw [strncat_key dir key hlen] at ho
          split at ho
          · subst ho; simp at h
          · rename_i ha2
            subst ho
            simp only [Bool.not_eq_true', Bool.not_eq_false] at ha1 ha2
            simp only [List.cons_append, List.nil_append, List.mem_cons,
              List.mem_singleton, List.not_mem_nil, or_false, false_or, reduceCtorEq,
              Event.file_read_string.injEq] at h
            obtain ⟨rfl, _⟩ := h
            exact ⟨dir, hcg, rfl, ha1, ha2⟩
  · intro P val res h
    generalize ho : set_value_main sys st controller req_cgroup key value u = o at h
    unfold set_value_main at ho
    split at ho
    · subst ho; simp at h
    · rename_i dir hcg
      simp only [] at ho
      split at ho
      · subst ho; simp at h
      · rename_i ha1
        split at ho
        · subst ho; simp at h
        · rename_i hlen
          rw [strncat_key dir key hlen] at ho
          split at ho
          · subst ho; simp at h
          · rename_i ha2
            subst ho
            simp only [Bool.not_eq_true', Bool.not_eq_false] at ha1 ha2
            simp only [List.cons_append, List.nil_append, List.mem_cons,
              List.mem_singleton, List.not_mem_nil, or_false, false_or, reduceCtorEq,
              Event.set_value.injEq] at h
            obtain ⟨rfl, rfl, _⟩ := h
            exact ⟨dir, hcg, rfl, rfl, ha1, ha2⟩
  · intro dir hcg hfail
    unfold get_value_main
    rw [hcg]
    simp only []
    cases ha1 : sys.may_access st u.pid u.uid u.gid dir .O_RDONLY with
    | false => simp
    | true =>
      rw [ha1] at hfail
      have ha2 : sys.may_access st u.pid u.uid u.gid (dir ++ ['/'] ++ key) .O_RDONLY = false := by
        simpa using hfail
      by_cases hlen : dir.length + key.length + 2 > MAXPATHLEN
      · simp [hlen]
      · simp only [Bool.not_true, Bool.false_eq_true, if_false, hlen,
          strncat_key dir key hlen, ha2, Bool.not_false, if_true]
        simp
  · intro dir hcg hfail
    unfold set_value_main
    rw [hcg]
    simp only []
    cases ha1 : sys.may_access st u.pid u.uid u.gid dir .O_RDONLY with
    | false => simp
    | true =>
      rw [ha1] at hfail
      have ha2 : sys.may_access st u.pid u.uid u.gid (dir ++ ['/'] ++ key) .O_RDWR = false := by
        simpa using hfail
      by_cases hlen : dir.length + key.length + 2 > MAXPATHLEN
      · simp [hlen]
      · simp only [Bool.not_true, Bool.false_eq_true, if_false, hlen,
          strncat_key dir key hlen, ha2, Bool.not_false, if_true]
        simp

/-- Witness of C20: with every access granted `get_value_main` reads
`/user/memory.limit_in_bytes` after both checks; when the requestor may not
read `/user` it fails without reading. -/
theorem value_access_checked_witness :
    (Event.file_read_string "/user/memory.limit_in_bytes".toList (some [])
        ∈ (get_value_main (cgSys openEnv) [userDir] "memory".toList "".toList
            "memory.limit_in_bytes".toList alice).trace ∧
      ∃ dir, (cgSys openEnv).compute_pid_cgroup [userDir] alice.pid "memory".toList
          "".toList = some dir ∧
        "/user/memory.limit_in_bytes".toList = dir ++ ['/'] ++ "memory.limit_in_bytes".toList ∧
        (cgSys openEnv).may_access [userDir] alice.pid alice.uid alice.gid dir .O_RDONLY
          = true ∧
        (cgSys openEnv).may_access [userDir] alice.pid alice.uid alice.gid
          "/user/memory.limit_in_bytes".toList .O_RDONLY = true) ∧
    (get_value_main (cgSys parentDeniedEnv) [userDir] "memory".toList "".toList
        "memory.limit_in_bytes".toList alice).ret = -1 ∧
    (get_value_main (cgSys parentDeniedEnv) [userDir] "memory".toList "".toList
        "memory.limit_in_bytes".toList alice).output = none :=
  ⟨⟨by decide,
      (value_access_checked (cgSys openEnv) [userDir] "memory".toList "".toList
        "memory.limit_in_bytes".toList [] alice).1 "/user/memory.limit_in_bytes".toList
        (some []) (by decide)⟩,
    ((value_access_checked (cgSys parentDeniedEnv) [userDir] "memory".toList "".toList
      "memory.limit_in_bytes".toList [] alice).2.2.1 "/user".toList rfl
        (Or.inl (by decide))).1,
    ((value_access_checked (cgSys parentDeniedEnv) [userDir] "memory".toList "".toList
      "memory.limit_in_bytes".toList [] alice).2.2.1 "/user".toList rfl
        (Or.inl (by decide))).2.1⟩

/-! ### The credential exchange and `getPidCgroup` -/

/-- C13: `need_two_creds` holds exactly for `GET_PID`, `MOVE_PID` and
`CHOWN`.  On a context at step 0 of such a kind, the first datagram records
its credentials as `rcred`, sets the step to 1 and sends the kick (shutting
down if the kick fails) without calling the executor, a datagram without
credentials only shuts down, and the next datagram with credentials calls the
executor on a context whose `rcred` is the first and whose `vcred` is the
second datagram's credentials.  For the other kinds the first datagram calls
the executor with `rcred` set to its credentials. -/
theorem sock_scm_sequencing (d : scm_sock_data) (c1 c2 : ucred) (k1 k2 : Bool)
    (hstep : d.step = 0) :
    (∀ t, need_two_creds t = true ↔
      (t = .REQ_TYPE_GET_PID ∨ t = .REQ_TYPE_MOVE_PID ∨ t = .REQ_TYPE_CHOWN)) ∧
    (need_two_creds d.type = true →
      sock_scm_reader d (some c1) k1
        = ({ d with rcred := c1, step := 1 },
            if k1 then [.kick true] else [.kick false, .shutdown]) ∧
      (∀ creds x, ScmAction.complete x ∉ (sock_scm_reader d creds k1).2) ∧
      sock_scm_reader (sock_scm_reader d (some c1) k1).1 (some c2) k2
        = ({ d with rcred := c1, step := 1, vcred := c2 },
            [.complete { d with rcred := c1, step := 1, vcred := c2 }, .shutdown])) ∧
    (need_two_creds d.type = false →
      sock_scm_reader d (some c1) k1
        = ({ d with rcred := c1 }, [.complete { d with rcred := c1 }, .shutdown])) := by
  refine ⟨?_, ?_, ?_⟩
  · intro t
    cases t <;> simp [need_two_creds]
  · intro htwo
    refine ⟨?_, ?_, ?_⟩
    · simp [sock_scm_reader, hstep, htwo]
    · intro creds x
      cases creds with
      | none => simp [sock_scm_reader]
      | some uc =>
        cases k1 <;> simp [sock_scm_reader, hstep, htwo]
    · simp [sock_scm_reader, hstep, htwo]
  · intro hone
    simp [sock_scm_reader, hstep, hone]

/-- Witness of C13: a `movePid` request, requestor `alice`, then victim `bob`. -/
theorem sock_scm_sequencing_witness :
    (fresh_data .REQ_TYPE_MOVE_PID "freezer".toList "g".toList 7).step = 0 ∧
    (sock_scm_reader (fresh_data .REQ_TYPE_MOVE_PID "freezer".toList "g".toList 7)
        (some alice) true).2 = [.kick true] ∧
    (sock_scm_reader (sock_scm_reader
        (fresh_data .REQ_TYPE_MOVE_PID "freezer".toList "g".toList 7) (some alice) true).1
        (some bob) true).2
      = [.complete ⟨.REQ_TYPE_MOVE_PID, "freezer".toList, "g".toList, [], [], 1, alice, bob,
          7, 0⟩, .shutdown] ∧
    (sock_scm_reader (fresh_data .REQ_TYPE_CREATE "memory".toList "a".toList 7)
        (some alice) true).2
      = [.complete ⟨.REQ_TYPE_CREATE, "memory".toList, "a".toList, [], [], 0, alice,
          ⟨0, 0, 0⟩, 7, 0⟩, .shutdown] :=
  ⟨rfl,
    by rw [((sock_scm_sequencing (fresh_data .REQ_TYPE_MOVE_PID "freezer".toList "g".toList 7)
      alice bob true true rfl).2.1 rfl).1]; rfl,
    by rw [((sock_scm_sequencing (fresh_data .REQ_TYPE_MOVE_PID "freezer".toList "g".toList 7)
      alice bob true true rfl).2.1 rfl).2.2]; rfl,
    by rw [(sock_scm_sequencing (fresh_data .REQ_TYPE_CREATE "memory".toList "a".toList 7)
      alice bob true true rfl).2.2 rfl]; rfl⟩

theorem strncmp_eq_append : ∀ (a b : List Char), strncmp_eq a (a ++ b) a.length = true
  | [], b => by simp [strncmp_eq]
  | x :: a, b => by
    simp only [List.cons_append, List.length_cons, strncmp_eq, beq_self_eq_true,
      Bool.true_and]
    exact strncmp_eq_append a b

/-- C14, counterexample: with the requestor at the root of the `cpu` hierarchy
and the victim in `/a/b`, `get_pid_cgroup_main` returns `a/b`, the victim's
path after the requestor's path and the `'/'` that follows it, not `/a/b`. -/
theorem get_pid_cgroup_drops_slash :
    (get_pid_cgroup_main (cgSys cpuEnv) [] "cpu".toList ⟨100, 0, 0⟩ ⟨200, 0, 0⟩).ret = 0 ∧
    (get_pid_cgroup_main (cgSys cpuEnv) [] "cpu".toList ⟨100, 0, 0⟩ ⟨200, 0, 0⟩).output
      = some "a/b".toList ∧
    (get_pid_cgroup_main (cgSys cpuEnv) [] "cpu".toList ⟨100, 0, 0⟩ ⟨200, 0, 0⟩).output
      ≠ some "/a/b".toList :=
  ⟨by decide, by decide, by decide⟩

/-- C14, amended: with `rcgpath` the requestor's path, `get_pid_cgroup_main`
returns `"/"` when the victim's path is `rcgpath` itself, and returns `rel`,
without a leading `'/'`, when the victim's path is `rcgpath/rel`. -/
theorem get_pid_cgroup_result (sys : Sys σ) (st : σ) (controller rcgpath : List Char)
    (r v : ucred) (hr : sys.compute_pid_cgroup st r.pid controller [] = some rcgpath) :
    (sys.compute_pid_cgroup st v.pid controller [] = some rcgpath →
      get_pid_cgroup_main sys st controller r v = ⟨0, some ['/'], st, []⟩) ∧
    (∀ rel, sys.compute_pid_cgroup st v.pid controller [] = some (rcgpath ++ '/' :: rel) →
      get_pid_cgroup_main sys st controller r v = ⟨0, some rel, st, []⟩) := by
  constructor
  · intro hv
    have h1 : strncmp_eq rcgpath rcgpath rcgpath.length = true := by
      have := strncmp_eq_append rcgpath []
      simpa using this
    simp [get_pid_cgroup_main, hr, hv, h1]
  · intro rel hv
    have h1 := strncmp_eq_append rcgpath ('/' :: rel)
    have h2 : (rcgpath ++ '/' :: rel).drop (rcgpath.length + 1) = rel := by
      rw [← List.drop_drop, List.drop_left]
      rfl
    simp [get_pid_cgroup_main, hr, hv, h1, h2]

/-- Witness of C14 (amended): the victim in `/a/b` below the requestor at the
root of the `cpu` hierarchy. -/
theorem get_pid_cgroup_result_witness :
    (cgSys cpuEnv).compute_pid_cgroup [] 100 "cpu".toList [] = some "/sys/fs/cgroup/cpu".toList ∧
    (cgSys cpuEnv).compute_pid_cgroup [] 200 "cpu".toList []
      = some ("/sys/fs/cgroup/cpu".toList ++ '/' :: "a/b".toList) ∧
    get_pid_cgroup_main (cgSys cpuEnv) [] "cpu".toList ⟨100, 0, 0⟩ ⟨200, 0, 0⟩
      = ⟨0, some "a/b".toList, [], []⟩ :=
  ⟨rfl, by decide,
    (get_pid_cgroup_result (cgSys cpuEnv) [] "cpu".toList "/sys/fs/cgroup/cpu".toList
      ⟨100, 0, 0⟩ ⟨200, 0, 0⟩ rfl).2 "a/b".toList (by decide)⟩

/-- C15, the code at the failing input: with the requestor in `/a` and the
victim in `/ab` of the `cpu` hierarchy, the victim is not below the requestor,
yet `strncmp` over the length of the requestor's path finds no difference and
`get_pid_cgroup_main` returns 0 with the empty string as output. -/
theorem get_pid_cgroup_accepts_sibling :
    get_pid_cgroup_main (cgSys cpuEnv) [] "cpu".toList ⟨300, 0, 0⟩ ⟨400, 0, 0⟩
      = ⟨0, some [], [], []⟩ :=
  rfl

/-! ### The access check of `remove` -/

/-- C11, the code at the failing input: for the client path `a/` the string
`/user/a/` is cut at its last `'/'`, so the write access of the requestor is
checked on the target `/user/a` itself.  A requestor who may not write the
parent `/user` is refused the removal of `a` but removes the same directory
with `a/`. -/
theorem remove_trailing_slash_checks_target :
    remove_main (cgSys parentDeniedEnv) 1 [userA, userDir] "memory".toList "a/".toList
        alice 0
      = some ⟨0, 1, [userDir],
          [Event.may_access 100 1000 1000 "/user/a".toList .O_WRONLY true,
            Event.rmdir "/user/a/".toList true]⟩ ∧
    remove_main (cgSys parentDeniedEnv) 1 [userA, userDir] "memory".toList "a".toList
        alice 0
      = some ⟨-1, 1, [userA, userDir],
          [Event.may_access 100 1000 1000 "/user".toList .O_WRONLY false]⟩ :=
  ⟨rfl, rfl⟩

/-! ### Recursive removal on the directory tree -/

theorem proper_name_iff (n : List Char) :
    proper_name n = true ↔ n ≠ [] ∧ '/' ∉ n ∧ n ≠ ['.'] ∧ n ≠ ['.', '.'] := by
  simp [proper_name, and_assoc]

theorem isDir_iff (fs : CgFs) (p : List (List Char)) :
    CgFs.isDir fs p = true ↔ p = [] ∨ ∃ d ∈ fs, d.path = p := by
  simp [CgFs.isDir]

theorem isDir_filter {fs : CgFs} {q : CgDir → Bool} {p : List (List Char)}
    (h : CgFs.isDir (fs.filter q) p = true) : CgFs.isDir fs p = true := by
  rcases (isDir_iff _ _).1 h with h | ⟨d, hd, hp⟩
  · exact (isDir_iff _ _).2 (Or.inl h)
  · exact (isDir_iff _ _).2 (Or.inr ⟨d, (List.mem_filter.1 hd).1, hp⟩)

theorem walk_suffix (fs : CgFs) : ∀ (segs : List (List Char)) (cur c : List (List Char)),
    ['.', '.'] ∉ segs → CgFs.walk fs segs cur = some c → cur <:+ c
  | [], cur, c => by
    intro _ h
    simp only [CgFs.walk, Option.some.injEq] at h
    rw [h]
  | seg :: rest, cur, c => by
    intro hdd h
    have hseg : seg ≠ ['.', '.'] := fun e => hdd (by simp [e])
    have hrest : ['.', '.'] ∉ rest := fun e => hdd (List.mem_cons_of_mem _ e)
    rw [walk_cons] at h
    split at h
    · exact walk_suffix fs rest cur c hrest h
    · split at h
      · simp at h
      · split at h
        · exact walk_suffix fs rest cur c hrest h
        · try rw [if_neg hseg] at h
          exact (List.suffix_cons seg cur).trans (walk_suffix fs rest _ c hrest h)

theorem walk_stable {fs fs1 : CgFs} : ∀ (segs : List (List Char)) (cur c : List (List Char)),
    ['.', '.'] ∉ segs → CgFs.walk fs segs cur = some c →
    (∀ p, p <:+ c → CgFs.isDir fs p = true → CgFs.isDir fs1 p = true) →
    CgFs.walk fs1 segs cur = some c
  | [], cur, c => by
    intro _ h _
    simpa [CgFs.walk] using h
  | seg :: rest, cur, c => by
    intro hdd h hkeep
    have hseg : seg ≠ ['.', '.'] := fun e => hdd (by simp [e])
    have hrest : ['.', '.'] ∉ rest := fun e => hdd (List.mem_cons_of_mem _ e)
    have hsuf := walk_suffix fs (seg :: rest) cur c hdd h
    rw [walk_cons] at h ⊢
    split
    · rw [if_pos (by assumption)] at h
      exact walk_stable rest cur c hrest h hkeep
    · rw [if_neg (by assumption)] at h
      split at h
      · simp at h
      · rename_i hd
        simp only [Bool.not_eq_true', Bool.not_eq_false] at hd
        rw [if_neg (by simp [hkeep cur hsuf hd])]
        split
        · rw [if_pos (by assumption)] at h
          exact walk_stable rest cur c hrest h hkeep
        · try rw [if_neg (by assumption)] at h
          try rw [if_neg hseg] at h
          try rw [if_neg hseg]
          exact walk_stable rest _ c hrest h hkeep

theorem resolve_child (fs : CgFs) (s n : List Char) (c : List (List Char))
    (hres : CgFs.resolve fs s = some c) (hdir : CgFs.isDir fs c = true)
    (hn : proper_name n = true) :
    CgFs.resolve fs (s ++ '/' :: n) = some (n :: c) := by
  obtain ⟨h1, h2, h3, h4⟩ := (proper_name_iff n).1 hn
  unfold CgFs.resolve at hres ⊢
  rw [split_slash_append, walk_append, hres, split_slash_no_slash n h2]
  simp [walk_cons, CgFs.walk, h1, h3, h4, hdir]

theorem split_slash_child (s n : List Char) (hn : proper_name n = true) :
    split_slash (s ++ '/' :: n) = split_slash s ++ [n] := by
  obtain ⟨_, h2, _, _⟩ := (proper_name_iff n).1 hn
  rw [split_slash_append, split_slash_no_slash n h2]

theorem last_segment_child (s n : List Char) (hn : proper_name n = true) :
    CgFs.last_segment (s ++ '/' :: n) = some n := by
  obtain ⟨h1, _, _, _⟩ := (proper_name_iff n).1 hn
  unfold CgFs.last_segment
  rw [split_slash_child s n hn, List.filter_append]
  simp [h1]

theorem sub_path_child (s n : List Char) : ∀ (rel : List (List Char)),
    sub_path (s ++ '/' :: n) rel = sub_path s (rel ++ [n])
  | [] => rfl
  | m :: rel => by
    show sub_path (s ++ '/' :: n) rel ++ '/' :: m = sub_path s (rel ++ [n]) ++ '/' :: m
    rw [sub_path_child s n rel]

theorem mem_prune {fs : CgFs} {c : List (List Char)} {d : CgDir} :
    d ∈ CgFs.prune fs c ↔ d ∈ fs ∧ ¬ c <:+ d.path := by
  simp [CgFs.prune, List.mem_filter]

theorem nodup_filter_path {fs : CgFs} (q : CgDir → Bool)
    (h : (fs.map CgDir.path).Nodup) : ((fs.filter q).map CgDir.path).Nodup :=
  h.sublist ((List.filter_sublist fs).map CgDir.path)

theorem rooted_iff (fs : CgFs) (d : CgDir) :
    CgFs.rooted fs d = true ↔
      ∃ n parent, d.path = n :: parent ∧ proper_name n = true ∧ CgFs.isDir fs parent = true := by
  unfold CgFs.rooted
  cases hp : d.path with
  | nil => simp
  | cons n parent =>
    simp only [Bool.and_eq_true, List.cons.injEq]
    constructor
    · intro h
      exact ⟨n, parent, ⟨rfl, rfl⟩, h⟩
    · rintro ⟨n1, p1, ⟨rfl, rfl⟩, h⟩
      exact h

theorem isDir_prune {fs : CgFs} {c p : List (List Char)}
    (hd : CgFs.isDir fs p = true) (hp : ¬ c <:+ p) : CgFs.isDir (CgFs.prune fs c) p = true := by
  rcases (isDir_iff _ _).1 hd with h | ⟨d, hd1, rfl⟩
  · exact (isDir_iff _ _).2 (Or.inl h)
  · exact (isDir_iff _ _).2 (Or.inr ⟨d, mem_prune.2 ⟨hd1, hp⟩, rfl⟩)

theorem rooted_prune {fs : CgFs} {c : List (List Char)}
    (h : ∀ d ∈ fs, CgFs.rooted fs d = true) :
    ∀ d ∈ CgFs.prune fs c, CgFs.rooted (CgFs.prune fs c) d = true := by
  intro d hd
  obtain ⟨hd1, hd2⟩ := mem_prune.1 hd
  obtain ⟨n, parent, hp, hn, hpar⟩ := (rooted_iff fs d).1 (h d hd1)
  refine (rooted_iff _ d).2 ⟨n, parent, hp, hn, isDir_prune hpar ?_⟩
  intro hsuf
  apply hd2
  rw [hp]
  exact hsuf.trans (List.suffix_cons n parent)

theorem isDir_ancestor {fs : CgFs} (h : ∀ d ∈ fs, CgFs.rooted fs d = true) :
    ∀ (k : Nat) (p q : List (List Char)), p.length = k → CgFs.isDir fs p = true →
      q <:+ p → CgFs.isDir fs q = true := by
  intro k
  induction k with
  | zero =>
    intro p q hk _ hq
    have hp : p = [] := List.length_eq_zero.1 hk
    subst hp
    have : q = [] := List.suffix_nil.1 hq
    subst this
    rfl
  | succ k ih =>
    intro p q hk hp hq
    rcases (isDir_iff _ _).1 hp with h0 | ⟨d, hd, hdp⟩
    · subst h0; simp at hk
    · obtain ⟨n, parent, hpath, _, hpar⟩ := (rooted_iff fs d).1 (h d hd)
      rw [hdp] at hpath
      subst hpath
      rcases List.suffix_cons_iff.1 hq with rfl | hq1
      · exact hp
      · exact ih parent q (by simpa using hk) hpar hq1

theorem nodup_filterMap_of_map {α β γ : Type} (f : α → Option β) (g : α → γ)
    (h : ∀ a b n, f a = some n → f b = some n → g a = g b) :
    ∀ (l : List α), (l.map g).Nodup → (l.filterMap f).Nodup
  | [] => fun _ => by simp
  | a :: l => by
    intro hnd
    simp only [List.map_cons, List.nodup_cons] at hnd
    have ih := nodup_filterMap_of_map f g h l hnd.2
    cases hfa : f a with
    | none => simpa [List.filterMap_cons, hfa] using ih
    | some n =>
      simp only [List.filterMap_cons, hfa, List.nodup_cons]
      refine ⟨?_, ih⟩
      intro hmem
      obtain ⟨b, hb, hfb⟩ := List.mem_filterMap.1 hmem
      apply hnd.1
      rw [h a b n hfa hfb]
      exact List.mem_map_of_mem g hb

theorem opendir_spec (fs : CgFs) (s : List Char) (c : List (List Char))
    (hnd : (fs.map CgDir.path).Nodup)
    (hres : CgFs.resolve fs s = some c) (hdir : CgFs.isDir fs c = true) :
    ∃ kids, CgFs.opendir fs s = some (['.'] :: ['.', '.'] :: kids) ∧ kids.Nodup ∧
      ∀ n, n ∈ kids ↔ ∃ d ∈ fs, d.path = n :: c := by
  unfold CgFs.opendir
  rw [hres]
  simp only [hdir, if_true]
  refine ⟨_, rfl, ?_, ?_⟩
  · apply nodup_filterMap_of_map _ CgDir.path _ fs hnd
    intro a b n ha hb
    split at ha
    · simp at ha
    · rename_i n1 p1 hpa
      split at ha
      · rename_i hp1
        simp only [Option.some.injEq] at ha
        split at hb
        · simp at hb
        · rename_i n2 p2 hpb
          split at hb
          · rename_i hp2
            simp only [Option.some.injEq] at hb
            rw [hpa, hpb, ha, hb, hp1, hp2]
          · simp at hb
      · simp at ha
  · intro n
    rw [List.mem_filterMap]
    constructor
    · rintro ⟨d, hd, hf⟩
      refine ⟨d, hd, ?_⟩
      split at hf
      · simp at hf
      · rename_i n1 p1 hpa
        split at hf
        · rename_i hp1
          simp only [Option.some.injEq] at hf
          rw [hpa, hf, hp1]
        · simp at hf
    · rintro ⟨d, hd, hp⟩
      refine ⟨d, hd, ?_⟩
      rw [hp]
      simp

theorem not_cons_suffix_of_suffix {α : Type} {n : α} {c p : List α} (h : p <:+ c) :
    ¬ (n :: c) <:+ p := by
  intro h1
  have h2 := (h1.trans h).length_le
  simp at h2

theorem removable_child {fs : CgFs} {s n : List Char} {c : List (List Char)}
    (h : Removable fs s c) (hn : ∃ d ∈ fs, d.path = n :: c) :
    proper_name n = true ∧ Removable fs (s ++ '/' :: n) (n :: c) := by
  obtain ⟨d, hd, hp⟩ := hn
  obtain ⟨n1, p1, hp1, hn1, _⟩ := (rooted_iff fs d).1 (h.rooted d hd)
  rw [hp] at hp1
  simp only [List.cons.injEq] at hp1
  obtain ⟨rfl, rfl⟩ := hp1
  obtain ⟨h1, h2, h3, h4⟩ := (proper_name_iff n).1 hn1
  refine ⟨hn1, ⟨h.nodup, h.rooted, resolve_child fs s n c h.resolves h.isdir hn1,
    (isDir_iff _ _).2 (Or.inr ⟨d, hd, hp⟩), by simp, ?_, ?_⟩⟩
  · rw [split_slash_child s n hn1]
    intro hm
    rcases List.mem_append.1 hm with hm | hm
    · exact h.nodotdot hm
    · simp only [List.mem_singleton] at hm
      exact h4 hm.symm
  · rw [last_segment_child s n hn1]
    simp only [ne_eq, Option.some.injEq]
    exact h3

theorem removable_filter {fs : CgFs} {s : List Char} {c : List (List Char)}
    (q : CgDir → Bool) (h : Removable fs s c)
    (hrooted : ∀ d ∈ fs.filter q, CgFs.rooted (fs.filter q) d = true)
    (hkeep : ∀ d ∈ fs, d.path <:+ c → q d = true) :
    Removable (fs.filter q) s c := by
  have hk : ∀ p, p <:+ c → CgFs.isDir fs p = true → CgFs.isDir (fs.filter q) p = true := by
    intro p hp hd
    rcases (isDir_iff _ _).1 hd with h0 | ⟨d, hd1, rfl⟩
    · exact (isDir_iff _ _).2 (Or.inl h0)
    · exact (isDir_iff _ _).2 (Or.inr ⟨d, List.mem_filter.2 ⟨hd1, hkeep d hd1 hp⟩, rfl⟩)
  exact ⟨nodup_filter_path q h.nodup, hrooted,
    walk_stable _ _ _ h.nodotdot h.resolves hk, hk c (List.suffix_refl c) h.isdir,
    h.nonroot, h.nodotdot, h.lastseg⟩

theorem removable_prune {fs : CgFs} {s n : List Char} {c : List (List Char)}
    (h : Removable fs s c) : Removable (CgFs.prune fs (n :: c)) s c := by
  apply removable_filter _ h (rooted_prune h.rooted)
  intro d _ hsuf
  simpa using not_cons_suffix_of_suffix hsuf

theorem dir_exists_of_filter {fs : CgFs} {q : CgDir → Bool} {p : List Char}
    (h : CgFs.dir_exists (fs.filter q) p = true) : CgFs.dir_exists fs p = true :=
  dir_exists_mono (fun _ hq => isDir_filter hq) p h

theorem rmdir_leaf (fs : CgFs) (s : List Char) (c : List (List Char))
    (h : Removable fs s c) (hleaf : ∀ d ∈ fs, ∀ n, d.path ≠ n :: c) :
    CgFs.rmdir fs s = (true, fs.filter (fun d => d.path != c)) := by
  have hls2 : CgFs.last_segment s ≠ some ['.', '.'] := by
    intro e
    apply h.nodotdot
    unfold CgFs.last_segment at e
    exact (List.mem_filter.1 (List.mem_of_getLast?_eq_some e)).1
  have hch : CgFs.hasChild fs c = false := by
    unfold CgFs.hasChild
    rw [List.any_eq_false]
    intro d hd
    simp only [Bool.and_eq_true, bne_iff_ne, ne_eq, beq_iff_eq, not_and]
    intro hne htail
    cases hp : d.path with
    | nil => exact hne hp
    | cons n t =>
      rw [hp] at htail
      simp only [List.tail_cons] at htail
      subst htail
      exact hleaf d hd n hp
  unfold CgFs.rmdir
  rw [h.resolves]
  simp only [h.lastseg, hls2, or_self, if_false, h.nonroot, h.isdir, hch, Bool.not_true,
    Bool.false_eq_true]

theorem suffix_iff_eq_or_child {fs : CgFs} (hroot : ∀ d ∈ fs, CgFs.rooted fs d = true)
    (c : List (List Char)) (d : CgDir) (hd : d ∈ fs) :
    c <:+ d.path ↔ d.path = c ∨ ∃ n, (∃ d1 ∈ fs, d1.path = n :: c) ∧ (n :: c) <:+ d.path := by
  constructor
  · rintro ⟨rel, hrel⟩
    rcases List.eq_nil_or_concat rel with rfl | ⟨rel1, m, rfl⟩
    · exact Or.inl (by simpa using hrel.symm)
    · right
      have hsuf : (m :: c) <:+ d.path := ⟨rel1, by rw [← hrel]; simp⟩
      have hdir : CgFs.isDir fs (m :: c) = true :=
        isDir_ancestor hroot _ d.path (m :: c) rfl
          ((isDir_iff _ _).2 (Or.inr ⟨d, hd, rfl⟩)) hsuf
      rcases (isDir_iff _ _).1 hdir with h0 | h1
      · simp at h0
      · exact ⟨m, h1, hsuf⟩
  · rintro (h | ⟨n, _, hsuf⟩)
    · rw [h]
    · exact (List.suffix_cons n c).trans hsuf

theorem sub_path_length (s : List Char) : ∀ (rel : List (List Char)),
    (sub_path s rel).length = s.length + (rel.map (fun n => n.length + 1)).sum
  | [] => by simp [sub_path]
  | n :: rel => by
    simp only [sub_path, List.length_append, List.length_cons, sub_path_length s rel,
      List.map_cons, List.sum_cons]
    omega

theorem sub_path_fits (fs : CgFs) (s : List Char) (c : List (List Char))
    (h : ∀ d ∈ fs, s.length + (d.path.map (fun n => n.length + 1)).sum < MAXPATHLEN) :
    ∀ d ∈ fs, ∀ rel, rel ≠ [] → d.path = rel ++ c → (sub_path s rel).length < MAXPATHLEN := by
  intro d hd rel _ hp
  have h1 := h d hd
  rw [hp, List.map_append, List.sum_append] at h1
  rw [sub_path_length]
  omega

/-! ### The access check of `getTasks` -/

/-- C21: on a host where the requestor `alice` may read the directory
`/user/g` but may not open the file `/user/g/tasks`, `get_tasks_main` checks
only the directory and returns the two pids of the file; the only calls are
the `may_access` on the directory and `file_read_pids`.  On the same host
`get_value_main` with the key `tasks` checks the file and fails. -/
theorem get_tasks_skips_file_check :
    (cgSys tasksDeniedEnv).may_access [userG, userDir] 100 1000 1000
      "/user/g/tasks".toList .O_RDONLY = false ∧
    (get_tasks_main (cgSys tasksDeniedEnv) [userG, userDir] "memory".toList "g".toList
      alice).ret = 2 ∧
    (get_tasks_main (cgSys tasksDeniedEnv) [userG, userDir] "memory".toList "g".toList
      alice).pids = some [100, 200] ∧
    (get_tasks_main (cgSys tasksDeniedEnv) [userG, userDir] "memory".toList "g".toList
      alice).trace
      = [Event.may_access 100 1000 1000 "/user/g".toList .O_RDONLY true,
          Event.file_read_pids "/user/g/tasks".toList (some [100, 200])] ∧
    (get_value_main (cgSys tasksDeniedEnv) [userG, userDir] "memory".toList "g".toList
      "tasks".toList alice).ret = -1 ∧
    (get_value_main (cgSys tasksDeniedEnv) [userG, userDir] "memory".toList "g".toList
      "tasks".toList alice).output = none ∧
    (get_value_main (cgSys tasksDeniedEnv) [userG, userDir] "memory".toList "g".toList
      "tasks".toList alice).trace
      = [Event.may_access 100 1000 1000 "/user/g".toList .O_RDONLY true,
          Event.may_access 100 1000 1000 "/user/g/tasks".toList .O_RDONLY false] :=
  ⟨by decide, by decide, by decide, by decide, by decide, by decide, by decide⟩

theorem get_tasks_checks_directory_only (sys : Sys σ) (st : σ) (controller cgroup : List Char)
    (u : ucred) (pid : Int) (uid gid : Nat) (p : List Char) (mode : OpenMode) (res : Bool)
    (h : Event.may_access pid uid gid p mode res
      ∈ (get_tasks_main sys st controller cgroup u).trace) :
    sys.compute_pid_cgroup st u.pid controller cgroup = some p ∧ mode = .O_RDONLY := by
  unfold get_tasks_main at h
  split at h
  · simp at h
  · split at h
    · simp at h
    · rename_i path hpath
      simp only [] at h
      split at h
      · simp only [List.mem_singleton, Event.may_access.injEq] at h
        exact ⟨by rw [hpath, h.2.2.2.1], h.2.2.2.2.1⟩
      · split at h
        · simp only [List.mem_singleton, Event.may_access.injEq] at h
          exact ⟨by rw [hpath, h.2.2.2.1], h.2.2.2.2.1⟩
        · simp only [List.singleton_append, List.mem_cons, Event.may_access.injEq,
            List.mem_singleton, reduceCtorEq, or_false, List.not_mem_nil] at h
          exact ⟨by rw [hpath, h.2.2.2.1], h.2.2.2.2.1⟩

/-! ### What `normalize_path` does to a run of slashes -/

/-- C22: `normalize_path` succeeds on `a//b`, `a///b`, `a//b//c` and `a//`,
none of which holds `..`, and rewrites them to `ab`, `ab`, `abc` and `a`: the
whole run of slashes is dropped, no `'/'` is kept, so `a//b` does not become
`a/b`. -/
theorem normalize_path_deletes_slash_run :
    normalize_path "a//b".toList = some "ab".toList ∧
    normalize_path "a//b".toList ≠ some "a/b".toList ∧
    normalize_path "a///b".toList = some "ab".toList ∧
    normalize_path "a//b//c".toList = some "abc".toList ∧
    normalize_path "a//".toList = some "a".toList ∧
    normalize_path "a/b".toList = some "a/b".toList :=
  ⟨by decide, by decide, by decide, by decide, by decide, by decide⟩

theorem normalize_scan_false_head (d : Char) (rest : List Char) (hd : d ≠ '/') :
    ∃ r, normalize_scan false (d :: rest) = d :: r := by
  cases rest with
  | nil => exact ⟨[], by simp [normalize_scan]⟩
  | cons e rest =>
    refine ⟨normalize_scan false (e :: rest), ?_⟩
    rw [normalize_scan]
    rw [if_neg (fun h => hd h.1)]

theorem strstr_slashslash_cons (c : Char) (r : List Char)
    (h : strstr_slashslash r = false) (hc : c = '/' → r.head? ≠ some '/') :
    strstr_slashslash (c :: r) = false := by
  cases r with
  | nil => simp [strstr_slashslash]
  | cons d r =>
    rw [strstr_slashslash]
    simp only [Bool.or_eq_false_iff, Bool.and_eq_false_imp, beq_iff_eq]
    refine ⟨?_, h⟩
    intro hc1
    have := hc hc1
    simpa using this

theorem normalize_scan_no_slashslash : ∀ (n : Nat) (b : Bool) (s : List Char), s.length ≤ n →
    strstr_slashslash (normalize_scan b s) = false
  | _, b, [], _ => by cases b <;> simp [normalize_scan, strstr_slashslash]
  | 0, _, _ :: _, h => by simp at h
  | n + 1, true, c :: cs, h => by
    have hlen : cs.length ≤ n := by simpa using h
    rw [normalize_scan]
    split
    · exact normalize_scan_no_slashslash n true cs hlen
    · rename_i hc
      exact strstr_slashslash_cons c _ (normalize_scan_no_slashslash n false cs hlen)
        (fun h => absurd h hc)
  | n + 1, false, [c], _ => by simp [normalize_scan, strstr_slashslash]
  | n + 1, false, c :: d :: rest, h => by
    have hlen : (d :: rest).length ≤ n := by simpa using h
    have hlen2 : rest.length ≤ n := by
      simp only [List.length_cons] at hlen
      omega
    rw [normalize_scan]
    split
    · exact normalize_scan_no_slashslash n true rest hlen2
    · rename_i hcd
      refine strstr_slashslash_cons c _
        (normalize_scan_no_slashslash n false (d :: rest) hlen) ?_
      intro hc
      have hd : d ≠ '/' := fun hd => hcd ⟨hc, hd⟩
      obtain ⟨r, hr⟩ := normalize_scan_false_head d rest hd
      rw [hr]
      simpa using hd

/-- On every string without `..` the function `normalize_path` succeeds, and
its result holds no `//`. -/
theorem normalize_path_no_slashslash (path : List Char) (h : strstr_dotdot path = false) :
    ∃ s, normalize_path path = some s ∧ strstr_slashslash s = false :=
  ⟨normalize_scan false path, by simp [normalize_path, h],
    normalize_scan_no_slashslash path.length false path (Nat.le_refl _)⟩

/-! ### Failures during the recursive removal -/

theorem readdir_loop_total (sys : Sys σ) (recurse : σ → List Char → Option (Ret σ))
    (path : List Char)
    (hrec : ∀ st1 n, (path ++ '/' :: n).length < MAXPATHLEN →
      ∃ r, recurse st1 (path ++ '/' :: n) = some r) :
    ∀ (names : List (List Char)) (st : σ) (failed : Bool),
      ∃ x, readdir_loop sys recurse path names st failed = some x
  | [], st, failed => ⟨_, by rw [readdir_loop]⟩
  | d :: ds, st, failed => by
    rw [readdir_loop]
    by_cases hdot : d = ['.'] ∨ d = ['.', '.']
    · rw [if_pos hdot]
      exact readdir_loop_total sys recurse path hrec ds st failed
    · rw [if_neg hdot]
      simp only []
      by_cases hlen : (path ++ '/' :: d).length ≥ MAXPATHLEN
      · rw [if_pos hlen]
        exact readdir_loop_total sys recurse path hrec ds st true
      · rw [if_neg hlen]
        cases sys.lstat_isdir st (path ++ '/' :: d) with
        | none => exact readdir_loop_total sys recurse path hrec ds st true
        | some b =>
          cases b with
          | false => exact readdir_loop_total sys recurse path hrec ds st failed
          | true =>
            simp only []
            obtain ⟨r, hr⟩ := hrec st d (by omega)
            rw [hr]
            simp only []
            obtain ⟨x, hx⟩ := readdir_loop_total sys recurse path hrec ds r.st
              (failed || decide (r.ret < 0))
            rw [hx]
            exact ⟨_, rfl⟩

theorem recursive_rmdir_total (sys : Sys σ) : ∀ (fuel : Nat) (st : σ) (path : List Char),
    MAXPATHLEN ≤ path.length + fuel → ∃ r, recursive_rmdir sys (fuel + 1) st path = some r
  | fuel, st, path => by
    intro hfuel
    rw [recursive_rmdir]
    cases sys.opendir st path with
    | none => exact ⟨_, rfl⟩
    | some names =>
      simp only []
      have hrec : ∀ st1 n, (path ++ '/' :: n).length < MAXPATHLEN →
          ∃ r, recursive_rmdir sys fuel st1 (path ++ '/' :: n) = some r := by
        intro st1 n hn
        cases fuel with
        | zero =>
          simp only [List.length_append, List.length_cons] at hn
          omega
        | succ k =>
          refine recursive_rmdir_total sys k st1 (path ++ '/' :: n) ?_
          simp only [List.length_append, List.length_cons]
          omega
      obtain ⟨x, hx⟩ := readdir_loop_total sys (recursive_rmdir sys fuel) path hrec names st false
      rw [hx]
      exact ⟨_, rfl⟩

theorem components_single : ∀ (s : List Char), s ≠ [] → '/' ∉ s → components s = [s]
  | [], h, _ => absurd rfl h
  | [c], _, hs => by
    have hc : c ≠ '/' := fun h => hs (by simp [h])
    simp [components, hc]
  | c :: d :: rest, _, hs => by
    have hc : c ≠ '/' := fun h => hs (by simp [h])
    have ih := components_single (d :: rest) (by simp)
      (fun h => hs (List.mem_cons_of_mem _ h))
    rw [components, if_neg hc, ih]

theorem create_loop_single_path (sys : Sys σ) (u : ucred) (st : σ) (base p : List Char)
    (ex : Int) (hp : p ≠ ['.', '.']) (hlen : p.length ≤ MAXPATHLEN - 1)
    (hacc : sys.may_access st u.pid u.uid u.gid base .O_RDWR = true) :
    (∃ a, Event.may_access u.pid u.uid u.gid (base ++ '/' :: p) .O_RDONLY a
        ∈ (create_loop sys u [p] st base base ex).trace) ∨
    (∃ res, Event.mkdir (base ++ '/' :: p) 0o755 res
        ∈ (create_loop sys u [p] st base base ex).trace) := by
  have hpath : strncat (strncat base ['/'] (MAXPATHLEN - 1)) p (MAXPATHLEN - 1)
      = base ++ '/' :: p := by
    rw [strncat_component, take_of_le_maxpath p hlen]
  generalize ho : create_loop sys u [p] st base base ex = o
  unfold create_loop at ho
  rw [if_neg hp] at ho
  simp only [hpath] at ho
  split at ho
  · left
    refine ⟨sys.may_access st u.pid u.uid u.gid (base ++ '/' :: p) .O_RDONLY, ?_⟩
    split at ho
    · subst ho
      simp [Outcome.after]
    · subst ho
      simp
  · right
    split at ho
    · subst ho
      exact ⟨.eexist, by simp [Outcome.after]⟩
    · subst ho
      exact ⟨.error, by simp⟩
    · split at ho
      · subst ho
        exact ⟨.ok, by simp⟩
      · subst ho
        exact ⟨.ok, by simp [Outcome.after]⟩

/-- C25: let `base` be the requestor's cgroup path, not empty and shorter than
`MAXPATHLEN`, on which the requestor has `O_RDWR` access, and let the client
path be one name of `MAXPATHLEN - strlen(base)` bytes.  The length check of
`create_main` accepts the request, since the sum of the two lengths is
`MAXPATHLEN`, and the executor builds the path `base/name` of `MAXPATHLEN + 1`
bytes in its buffer `path[MAXPATHLEN]` and hands it to `may_access` or to
`mkdir`. -/
theorem create_main_path_exceeds_buffer (sys : Sys σ) (st : σ) (controller : List Char)
    (u : ucred) (base : List Char)
    (hbase : sys.compute_pid_cgroup st u.pid controller [] = some base)
    (hne : base ≠ [])
    (hlen : base.length < MAXPATHLEN)
    (hacc : sys.may_access st u.pid u.uid u.gid base .O_RDWR = true) :
    ¬ base.length + (List.replicate (MAXPATHLEN - base.length) 'a').length > MAXPATHLEN ∧
    (base ++ '/' :: List.replicate (MAXPATHLEN - base.length) 'a').length = MAXPATHLEN + 1 ∧
    ((∃ a, Event.may_access u.pid u.uid u.gid
          (base ++ '/' :: List.replicate (MAXPATHLEN - base.length) 'a') .O_RDONLY a
        ∈ (create_main sys st controller
            (List.replicate (MAXPATHLEN - base.length) 'a') u).trace) ∨
      (∃ res, Event.mkdir (base ++ '/' :: List.replicate (MAXPATHLEN - base.length) 'a')
          0o755 res
        ∈ (create_main sys st controller
            (List.replicate (MAXPATHLEN - base.length) 'a') u).trace)) := by
  have hb : 0 < base.length := List.length_pos.2 hne
  obtain ⟨m, hm⟩ : ∃ m, MAXPATHLEN - base.length = m + 1 :=
    ⟨MAXPATHLEN - base.length - 1, by omega⟩
  have hsum : base.length + (List.replicate (MAXPATHLEN - base.length) 'a').length
      = MAXPATHLEN := by
    rw [List.length_replicate]
    omega
  refine ⟨by omega, ?_, ?_⟩
  · simp only [List.length_append, List.length_cons, List.length_replicate]
    omega
  · have hns : '/' ∉ List.replicate (MAXPATHLEN - base.length) 'a' := by
      intro h
      have := List.eq_of_mem_replicate h
      simp at this
    have hnil : List.replicate (MAXPATHLEN - base.length) 'a' ≠ [] := by
      rw [hm, List.replicate_succ]
      simp
    have hdd : List.replicate (MAXPATHLEN - base.length) 'a' ≠ ['.', '.'] := by
      rw [hm, List.replicate_succ]
      simp
    have hmain : create_main sys st controller
        (List.replicate (MAXPATHLEN - base.length) 'a') u
        = create_loop sys u [List.replicate (MAXPATHLEN - base.length) 'a'] st base base 1 := by
      unfold create_main
      rw [components_single _ hnil hns]
      rw [hm, List.replicate_succ] at hsum ⊢
      simp only [hbase]
      rw [if_neg (by simp), if_neg (by omega)]
    rw [hmain]
    refine create_loop_single_path sys u st base _ 1 hdd ?_ hacc
    rw [List.length_replicate]
    omega

/-- Witness of C25: the requestor `alice` in the cgroup `/user`, with a client
path of 4091 bytes. -/
theorem create_main_path_exceeds_buffer_witness :
    ¬ "/user".toList.length
        + (List.replicate (MAXPATHLEN - "/user".toList.length) 'a').length > MAXPATHLEN ∧
    ("/user".toList ++ '/' :: List.replicate (MAXPATHLEN - "/user".toList.length) 'a').length
      = MAXPATHLEN + 1 ∧
    ((∃ a, Event.may_access alice.pid alice.uid alice.gid
          ("/user".toList ++ '/' :: List.replicate (MAXPATHLEN - "/user".toList.length) 'a')
          .O_RDONLY a
        ∈ (create_main (cgSys openEnv) [userDir] "memory".toList
            (List.replicate (MAXPATHLEN - "/user".toList.length) 'a') alice).trace) ∨
      (∃ res, Event.mkdir
          ("/user".toList ++ '/' :: List.replicate (MAXPATHLEN - "/user".toList.length) 'a')
          0o755 res
        ∈ (create_main (cgSys openEnv) [userDir] "memory".toList
            (List.replicate (MAXPATHLEN - "/user".toList.length) 'a') alice).trace)) :=
  create_main_path_exceeds_buffer (cgSys openEnv) [userDir] "memory".toList alice
    "/user".toList rfl (by decide) (by decide) rfl

theorem move_pid_paths_fit (sys : Sys σ) (st : σ) (controller cgroup : List Char)
    (r v : ucred) (e : Event)
    (he : e ∈ (move_pid_main sys st controller cgroup r v).trace) :
    e.path.length ≤ MAXPATHLEN - 1 := by
  generalize ho : move_pid_main sys st controller cgroup r v = o at he
  unfold move_pid_main at ho
  split at ho
  · subst ho; simp at he
  · split at ho
    · subst ho; simp at he
    · split at ho
      · subst ho; simp at he
      · rename_i rcgpath hcg
        split at ho
        · subst ho; simp at he
        · rename_i hlen
          simp only [] at ho
          have h1 : (strncat (strncat rcgpath ['/'] (MAXPATHLEN - 1)) cgroup
              (MAXPATHLEN - 1)).length ≤ MAXPATHLEN - 7 := by
            simp only [strncat, List.length_append, List.length_take, MAXPATHLEN] at hlen ⊢
            simp only [List.length_cons, List.length_nil]
            omega
          have h2 : (strncat (strncat (strncat rcgpath ['/'] (MAXPATHLEN - 1)) cgroup
              (MAXPATHLEN - 1)) ['/', 't', 'a', 's', 'k', 's'] (MAXPATHLEN - 1)).length
              ≤ MAXPATHLEN - 1 := by
            have h3 : ∀ x : List Char, (strncat x ['/', 't', 'a', 's', 'k', 's']
                (MAXPATHLEN - 1)).length = x.length + 6 := by
              intro x
              simp [strncat, MAXPATHLEN]
            rw [h3]
            simp only [MAXPATHLEN] at h1 ⊢
            omega
          have h1b : (strncat (strncat rcgpath ['/'] (MAXPATHLEN - 1)) cgroup
              (MAXPATHLEN - 1)).length ≤ MAXPATHLEN - 1 := by
            simp only [MAXPATHLEN] at h1 ⊢
            omega
          generalize strncat (strncat (strncat rcgpath ['/'] (MAXPATHLEN - 1)) cgroup
              (MAXPATHLEN - 1)) ['/', 't', 'a', 's', 'k', 's'] (MAXPATHLEN - 1) = tasks
            at ho h2
          generalize strncat (strncat rcgpath ['/'] (MAXPATHLEN - 1)) cgroup
              (MAXPATHLEN - 1) = path at ho h1b
          have key : ∀ l : List Event, (∀ x ∈ l, x.path = path ∨ x.path = tasks) →
              e ∈ l → e.path.length ≤ MAXPATHLEN - 1 := by
            intro l hl hel
            rcases hl e hel with h | h <;> rw [h] <;> assumption
          split at ho
          · subst ho; simp at he
          · split at ho
            · subst ho
              exact key _ (by simp [Event.path]) he
            · split at ho
              · subst ho
                exact key _ (by simp [Event.path]) he
              · split at ho
                · subst ho
                  exact key _ (by simp [Event.path]) he
                · split at ho
                  · subst ho
                    exact key _ (by simp [Event.path]) he
                  · subst ho
                    exact key _ (by simp [Event.path]) he

/-! ### The requestor credentials of a request context -/

theorem scm_reader_run_step (data : scm_sock_data) (hstep : data.step ≠ 0) :
    ∀ (later : List (Option ucred × Bool)),
      ∃ v, scm_reader_run data later = { data with vcred := v }
  | [] => ⟨data.vcred, rfl⟩
  | (creds, kick_ok) :: rest => by
    rw [scm_reader_run]
    cases creds with
    | none => exact ⟨data.vcred, by simp [sock_scm_reader]⟩
    | some uc => exact ⟨uc, by simp [sock_scm_reader, hstep]⟩

/-- C24: on a fresh context (step 0) of any request kind, the first datagram
with credentials is copied into `rcred`, and whatever datagrams arrive after
it, the context then differs from the fresh one only in `rcred`, which stays
the first datagram's credentials, in the step, which is 1 for the kinds that
need two credentials and 0 for the others, and in `vcred`.  For the kinds
with one credential the first datagram ends the context; for the others the
step is 1 from then on, so that a later datagram can only set `vcred`. -/
theorem scm_rcred_recorded_once (d : scm_sock_data) (c1 : ucred) (k1 : Bool)
    (later : List (Option ucred × Bool)) (hstep : d.step = 0) :
    (sock_scm_reader d (some c1) k1).1.rcred = c1 ∧
    (need_two_creds d.type = false →
      ScmAction.shutdown ∈ (sock_scm_reader d (some c1) k1).2) ∧
    (∀ x : scm_sock_data, x.step ≠ 0 → ∀ creds k,
      ∃ v, (sock_scm_reader x creds k).1 = { x with vcred := v }) ∧
    ∃ v, scm_reader_run d ((some c1, k1) :: later)
      = { d with rcred := c1, step := if need_two_creds d.type then 1 else 0, vcred := v } := by
  refine ⟨?_, ?_, ?_, ?_⟩
  · cases h2 : need_two_creds d.type <;> simp [sock_scm_reader, hstep, h2]
  · intro h1
    simp [sock_scm_reader, hstep, h1]
  · intro x hx creds k
    cases creds with
    | none => exact ⟨x.vcred, by simp [sock_scm_reader]⟩
    | some uc => exact ⟨uc, by simp [sock_scm_reader, hx]⟩
  · rw [scm_reader_run]
    cases h2 : need_two_creds d.type with
    | false =>
      refine ⟨d.vcred, ?_⟩
      simp only [sock_scm_reader, hstep, h2, if_true, Bool.false_eq_true, if_false]
      simp [← hstep]
    | true =>
      cases k1 with
      | false =>
        refine ⟨d.vcred, ?_⟩
        simp [sock_scm_reader, hstep, h2]
      | true =>
        have h1 : sock_scm_reader d (some c1) true
            = ({ d with rcred := c1, step := 1 }, [.kick true]) := by
          simp [sock_scm_reader, hstep, h2]
        rw [h1]
        simp only [List.mem_singleton, reduceCtorEq, if_false, if_true]
        obtain ⟨v, hv⟩ := scm_reader_run_step { d with rcred := c1, step := 1 } (by simp) later
        exact ⟨v, hv⟩

/-- Witness of C24: a `movePid` request; after the requestor `alice`, the
victim `bob` and one more datagram of `alice`, `rcred` is still `alice`. -/
theorem scm_rcred_recorded_once_witness :
    (fresh_data .REQ_TYPE_MOVE_PID "freezer".toList "g".toList 7).step = 0 ∧
    ∃ v, scm_reader_run (fresh_data .REQ_TYPE_MOVE_PID "freezer".toList "g".toList 7)
        ((some alice, true) :: [(some bob, true), (some alice, false)])
      = { fresh_data .REQ_TYPE_MOVE_PID "freezer".toList "g".toList 7 with
          rcred := alice,
          step := if need_two_creds
            (fresh_data .REQ_TYPE_MOVE_PID "freezer".toList "g".toList 7).type then 1 else 0,
          vcred := v } :=
  ⟨rfl,
    (scm_rcred_recorded_once (fresh_data .REQ_TYPE_MOVE_PID "freezer".toList "g".toList 7)
      alice true [(some bob, true), (some alice, false)] rfl).2.2.2⟩

/-- Two runs evaluated: on a `movePid` context the
datagrams of `alice`, `bob` and `alice` leave `rcred = alice`, `vcred = bob`;
on a `create` context the datagram of `alice` ends the context, and the one of
`bob` after it is not handled. -/
theorem scm_reader_run_scenarios :
    scm_reader_run (fresh_data .REQ_TYPE_MOVE_PID "freezer".toList "g".toList 7)
        [(some alice, true), (some bob, true), (some alice, false)]
      = ⟨.REQ_TYPE_MOVE_PID, "freezer".toList, "g".toList, [], [], 1, alice, bob, 7, 0⟩ ∧
    scm_reader_run (fresh_data .REQ_TYPE_CREATE "memory".toList "a".toList 7)
        [(some alice, true), (some bob, true)]
      = ⟨.REQ_TYPE_CREATE, "memory".toList, "a".toList, [], [], 0, alice, ⟨0, 0, 0⟩, 7, 0⟩ :=
  ⟨by decide, by decide⟩

/-! ### The target of `remove` and its reply -/

/-- C9: in a tree with the directories `/user/a` and `/user/ab` and without
`/user/a/b`, the requestor in `/user` asks to remove `a//b`, whose target
`/user/a/b` does not exist.  `normalize_path` turns the client path into `ab`,
and `remove_main`, instead of replying `'1'` without any call, checks the
write access on `/user`, removes the directory `/user/ab` and replies `'2'`. -/
theorem remove_missing_target_removes_other :
    CgFs.dir_exists [userAB, userA, userDir] "/user/a//b".toList = false ∧
    CgFs.dir_exists [userAB, userA, userDir] "/user/a/b".toList = false ∧
    normalize_path "a//b".toList = some "ab".toList ∧
    remove_main (cgSys openEnv) 0 [userAB, userA, userDir] "memory".toList "a//b".toList
        alice 0
      = some ⟨0, 1, [userA, userDir],
          [Event.may_access 100 1000 1000 "/user".toList .O_WRONLY true,
            Event.rmdir "/user/ab".toList true]⟩ ∧
    remove_scm_complete (⟨0, 1, [userA, userDir],
        [Event.may_access 100 1000 1000 "/user".toList .O_WRONLY true,
          Event.rmdir "/user/ab".toList true]⟩ : Outcome CgFs) = '2' :=
  ⟨by decide, by decide, by decide, rfl, by decide⟩

theorem normalize_path_plain (cgroup wcgroup : List Char)
    (hss : strstr_slashslash cgroup = false) (h : normalize_path cgroup = some wcgroup) :
    wcgroup = cgroup := by
  unfold normalize_path at h
  split at h
  · simp at h
  · simp only [Option.some.injEq] at h
    rw [← h, normalize_scan_id cgroup hss]

/-- For a non-empty client path without `//` that passes the syntactic checks
and whose target `rcgpath/path` is not an existing directory, `remove_main`
returns (for every recursion bound, recursive or not) 0 with `existed = -1`,
the reply byte is `'1'`, the state is unchanged and no call is made. -/
theorem remove_missing_plain (sys : Sys σ) (fuel : Nat) (st : σ)
    (controller cgroup rcgpath : List Char) (u : ucred) (recursive : Int)
    (hne : cgroup ≠ [])
    (hfirst : bad_first_byte cgroup = false)
    (hcg : sys.compute_pid_cgroup st u.pid controller [] = some rcgpath)
    (hlen : rcgpath.length + cgroup.length ≤ MAXPATHLEN)
    (hdd : strstr_dotdot cgroup = false)
    (hss : strstr_slashslash cgroup = false)
    (hmiss : sys.dir_exists st (rcgpath ++ ['/'] ++ cgroup) = false) :
    ∃ o, remove_main sys fuel st controller cgroup u recursive = some o ∧
      o.ret = 0 ∧ o.existed = -1 ∧ remove_scm_complete o = '1' ∧ o.st = st ∧
      o.trace = [] :=
  remove_missing_normalized sys fuel st controller cgroup rcgpath cgroup u recursive hne
    hfirst hcg hlen (by simp [normalize_path, hdd, normalize_scan_id cgroup hss]) hmiss

theorem recursive_rmdir_ne_none (sys : Sys σ) (fuel : Nat) (st : σ) (path : List Char)
    (h : MAXPATHLEN ≤ path.length + fuel) : recursive_rmdir sys (fuel + 1) st path ≠ none := by
  obtain ⟨r, hr⟩ := recursive_rmdir_total sys fuel st path h
  rw [hr]
  simp

theorem remove_main_total (sys : Sys σ) (fuel : Nat) (st : σ)
    (controller cgroup : List Char) (u : ucred) (recursive : Int) (hfuel : MAXPATHLEN < fuel) :
    ∃ o, remove_main sys fuel st controller cgroup u recursive = some o := by
  obtain ⟨k, rfl⟩ : ∃ k, fuel = k + 1 := ⟨fuel - 1, by omega⟩
  unfold remove_main
  split
  · exact ⟨_, rfl⟩
  · split
    · exact ⟨_, rfl⟩
    · split
      · exact ⟨_, rfl⟩
      · split
        · exact ⟨_, rfl⟩
        · split
          · exact ⟨_, rfl⟩
          · simp only []
            split
            · exact ⟨_, rfl⟩
            · split
              · exact ⟨_, rfl⟩
              · split
                · exact ⟨_, rfl⟩
                · split
                  · exact ⟨_, rfl⟩
                  · split
                    · rename_i hnone
                      exact absurd hnone (recursive_rmdir_ne_none sys k st _ (by omega))
                    · exact ⟨_, rfl⟩

/-- C10, amended: with a recursion bound above `MAXPATHLEN`, `remove_main`
returns, with result 0 or -1, and the reply byte is `'0'` exactly when the
result is -1.  For a non-empty client path without `//` the reply is `'2'`
only when the target `rcgpath/path` was an existing directory and the last
call is the successful `rmdir` of that target, and it is `'1'` only when the
target was not an existing directory (nothing is called then).  For the empty
client path the reply is `'2'` and nothing is called. -/
theorem remove_reply_code (sys : Sys σ) (fuel : Nat) (st : σ)
    (controller cgroup : List Char) (u : ucred) (recursive : Int)
    (hfuel : MAXPATHLEN < fuel) (hss : strstr_slashslash cgroup = false) :
    ∃ o, remove_main sys fuel st controller cgroup u recursive = some o ∧
      (cgroup = [] → remove_scm_complete o = '2' ∧ o.trace = [] ∧ o.st = st) ∧
      (cgroup ≠ [] → remove_scm_complete o = '2' →
        ∃ rcgpath pre,
          sys.compute_pid_cgroup st u.pid controller [] = some rcgpath ∧
          sys.dir_exists st (rcgpath ++ ['/'] ++ cgroup) = true ∧
          o.trace = pre ++ [Event.rmdir (rcgpath ++ ['/'] ++ cgroup) true]) ∧
      (remove_scm_complete o = '1' →
        cgroup ≠ [] ∧
        ∃ rcgpath,
          sys.compute_pid_cgroup st u.pid controller [] = some rcgpath ∧
          sys.dir_exists st (rcgpath ++ ['/'] ++ cgroup) = false ∧
          o.trace = [] ∧ o.st = st) ∧
      (remove_scm_complete o = '0' ↔ o.ret = -1) ∧ (o.ret = 0 ∨ o.ret = -1) := by
  obtain ⟨o, ho⟩ := remove_main_total sys fuel st controller cgroup u recursive hfuel
  obtain ⟨h1, h2, h3, h4, h5⟩ :=
    remove_reply_normalized sys fuel st controller cgroup u recursive o ho
  refine ⟨o, ho, h1, ?_, ?_, h4, h5⟩
  · intro hne hrep
    obtain ⟨rcgpath, wcgroup, pre, hcg, hnorm, hde, htr⟩ := h2 hne hrep
    have hw := normalize_path_plain cgroup wcgroup hss hnorm
    subst hw
    exact ⟨rcgpath, pre, hcg, hde, htr⟩
  · intro hrep
    obtain ⟨rcgpath, wcgroup, hcg, hnorm, hde, htr, hst⟩ := h3 hrep
    have hw := normalize_path_plain cgroup wcgroup hss hnorm
    subst hw
    refine ⟨?_, rcgpath, hcg, hde, htr, hst⟩
    intro hnil
    have := (h1 hnil).1
    rw [hrep] at this
    exact absurd this (by decide)

/-- Witness of C10: the recursive removal of `a` by the requestor in `/user`,
in the tree with the directories `/user/a` and `/user`. -/
theorem remove_reply_code_witness :
    MAXPATHLEN < 4097 ∧ strstr_slashslash "a".toList = false ∧
    ∃ o, remove_main (cgSys openEnv) 4097 [userA, userDir] "memory".toList "a".toList
        alice 1 = some o ∧
      ("a".toList = [] → remove_scm_complete o = '2' ∧ o.trace = [] ∧
        o.st = [userA, userDir]) ∧
      ("a".toList ≠ [] → remove_scm_complete o = '2' →
        ∃ rcgpath pre,
          (cgSys openEnv).compute_pid_cgroup [userA, userDir] alice.pid "memory".toList []
            = some rcgpath ∧
          (cgSys openEnv).dir_exists [userA, userDir] (rcgpath ++ ['/'] ++ "a".toList)
            = true ∧
          o.trace = pre ++ [Event.rmdir (rcgpath ++ ['/'] ++ "a".toList) true]) ∧
      (remove_scm_complete o = '1' →
        "a".toList ≠ [] ∧
        ∃ rcgpath,
          (cgSys openEnv).compute_pid_cgroup [userA, userDir] alice.pid "memory".toList []
            = some rcgpath ∧
          (cgSys openEnv).dir_exists [userA, userDir] (rcgpath ++ ['/'] ++ "a".toList)
            = false ∧
          o.trace = [] ∧ o.st = [userA, userDir]) ∧
      (remove_scm_complete o = '0' ↔ o.ret = -1) ∧ (o.ret = 0 ∨ o.ret = -1) :=
  ⟨by decide, by decide,
    remove_reply_code (cgSys openEnv) 4097 [userA, userDir] "memory".toList "a".toList
      alice 1 (by decide) (by decide)⟩

/-- The removals of scenario S1 evaluated: the recursive removal of the
existing `/user/a` replies `'2'` after the successful `rmdir`, the removal of
the missing `/user/a` replies `'1'` without any call. -/
theorem remove_main_scenarios :
    remove_main (cgSys openEnv) 1 [userA, userDir] "memory".toList "a".toList alice 1
      = some ⟨0, 1, [userDir],
          [Event.may_access 100 1000 1000 "/user".toList .O_WRONLY true,
            Event.rmdir "/user/a".toList true]⟩ ∧
    remove_main (cgSys openEnv) 1 [userDir] "memory".toList "a".toList alice 1
      = some ⟨0, -1, [userDir], []⟩ :=
  ⟨rfl, rfl⟩

/-! ### The authorization of `mkdir` within the buffers -/

theorem components_weight : ∀ (s : List Char),
    ((components s).map (fun c => c.length + 1)).sum ≤ s.length + 1
  | [] => by simp [components]
  | c :: cs => by
    have ih := components_weight cs
    unfold components
    split
    · simp only [List.map_cons, List.sum_cons, List.length_nil, List.length_cons]
      omega
    · split
      · rename_i h
        rw [h] at ih
        simp
      · rename_i s ss h
        rw [h] at ih
        simp only [List.map_cons, List.sum_cons, List.length_cons] at ih ⊢
        omega

theorem create_loop_paths_fit (sys : Sys σ) (u : ucred) :
    ∀ (comps : List (List Char)) (st : σ) (path : List Char) (ex : Int) (e : Event),
      e ∈ (create_loop sys u comps st path path ex).trace →
      e.path.length ≤ path.length + (comps.map (fun c => c.length + 1)).sum
  | [], st, path, ex, e => by
    intro h
    simp [create_loop] at h
  | p :: rest, st, path, ex, e => by
    intro h
    have hp1 : (strncat (strncat path ['/'] (MAXPATHLEN - 1)) p (MAXPATHLEN - 1)).length
        ≤ path.length + (p.length + 1) := by
      rw [strncat_component]
      simp only [List.length_append, List.length_cons, List.length_take]
      omega
    have ih := fun st1 ex1 e1 => create_loop_paths_fit sys u rest st1
      (strncat (strncat path ['/'] (MAXPATHLEN - 1)) p (MAXPATHLEN - 1)) ex1 e1
    simp only [List.map_cons, List.sum_cons]
    generalize hP : strncat (strncat path ['/'] (MAXPATHLEN - 1)) p (MAXPATHLEN - 1) = P
      at hp1 ih
    have hrest : ∀ st1 ex1, e ∈ (create_loop sys u rest st1 P P ex1).trace →
        e.path.length ≤ path.length + (p.length + 1 + (rest.map (fun c => c.length + 1)).sum) := by
      intro st1 ex1 he
      have := ih st1 ex1 e he
      omega
    have hev : ∀ l : List Event, (∀ x ∈ l, x.path = path ∨ x.path = P) → e ∈ l →
        e.path.length ≤ path.length + (p.length + 1 + (rest.map (fun c => c.length + 1)).sum) := by
      intro l hl he
      rcases hl e he with h1 | h1 <;> rw [h1] <;> omega
    generalize ho : create_loop sys u (p :: rest) st path path ex = o at h
    unfold create_loop at ho
    split at ho
    · subst ho; simp at h
    · simp only [hP] at ho
      split at ho
      · split at ho
        · subst ho
          rw [after_trace] at h
          rcases List.mem_append.1 h with h | h
          · exact hev _ (by simp [Event.path]) h
          · exact hrest _ _ h
        · subst ho
          exact hev _ (by simp [Event.path]) h
      · split at ho
        · split at ho
          · subst ho
            rw [after_trace] at h
            rcases List.mem_append.1 h with h | h
            · exact hev _ (by simp [Event.path]) h
            · exact hrest _ _ h
          · subst ho
            exact hev _ (by simp [Event.path]) h
          · split at ho
            · subst ho
              exact hev _ (by simp [Event.path]) h
            · subst ho
              rw [after_trace] at h
              rcases List.mem_append.1 h with h | h
              · exact hev _ (by simp [Event.path]) h
              · exact hrest _ _ h
        · subst ho
          exact hev _ (by simp [Event.path]) h

theorem create_main_paths_fit (sys : Sys σ) (st : σ) (controller cgroup : List Char)
    (u : ucred)
    (hfit : ∀ rcgpath, sys.compute_pid_cgroup st u.pid controller [] = some rcgpath →
      rcgpath.length + cgroup.length + 2 ≤ MAXPATHLEN)
    (e : Event) (he : e ∈ (create_main sys st controller cgroup u).trace) :
    e.path.length < MAXPATHLEN := by
  generalize ho : create_main sys st controller cgroup u = o at he
  unfold create_main at ho
  cases cgroup with
  | nil => subst ho; simp at he
  | cons c0 cs =>
    simp only [] at ho
    split at ho
    · subst ho; simp at he
    · split at ho
      · subst ho; simp at he
      · rename_i rcgpath hcg
        split at ho
        · subst ho; simp at he
        · subst ho
          have h1 := create_loop_paths_fit sys u _ st rcgpath 1 e he
          have h2 := components_weight (c0 :: cs)
          have h3 := hfit rcgpath hcg
          omega

/-- C7: for a request whose paths fit the buffers, that is with
`strlen(rcgpath) + strlen(cgroup) + 2 ≤ MAXPATHLEN`, every `mkdir` that
`create_main` calls comes immediately after a `may_access` call made with the
requestor's own pid, uid and gid and mode `O_RDWR` that returned true, and the
directory `D` checked there is the parent of the created path `P`: `P` is `D`,
a `'/'` and one component without `'/'`; both strings are shorter than
`MAXPATHLEN`, so that they are what the buffers `dirpath` and `path` hold. -/
theorem create_mkdir_authorized (sys : Sys σ) (st : σ) (controller cgroup : List Char)
    (u : ucred) (pre post : List Event) (P : List Char) (m : Nat) (res : MkdirResult)
    (hfit : ∀ rcgpath, sys.compute_pid_cgroup st u.pid controller [] = some rcgpath →
      rcgpath.length + cgroup.length + 2 ≤ MAXPATHLEN)
    (h : (create_main sys st controller cgroup u).trace = pre ++ Event.mkdir P m res :: post) :
    ∃ pre1 D c, pre = pre1 ++ [Event.may_access u.pid u.uid u.gid D .O_RDWR true] ∧
      P = D ++ '/' :: c ∧ '/' ∉ c ∧ P.length < MAXPATHLEN ∧ D.length < MAXPATHLEN := by
  have hch := create_main_chained sys st controller cgroup u
  rw [h] at hch
  obtain ⟨_, D, c, h1, h2, h3⟩ := chained_split _ pre none _ post hch
  have hP : P.length < MAXPATHLEN :=
    create_main_paths_fit sys st controller cgroup u hfit (Event.mkdir P m res)
      (by rw [h]; simp)
  have hD : D.length < MAXPATHLEN := by
    rw [h2] at hP
    simp only [List.length_append, List.length_cons] at hP
    omega
  cases hl : pre.getLast? with
  | none => rw [hl] at h1; simp at h1
  | some x =>
    rw [hl] at h1
    obtain ⟨pre1, rfl⟩ := getLast?_eq_some_append hl
    simp only [Option.or_some, Option.some.injEq] at h1
    exact ⟨pre1, D, c, by rw [h1], h2, h3, hP, hD⟩

/-- Witness of C7: the `mkdir` of `/user/a/b` in scenario S1 follows the
granted check on `/user/a`. -/
theorem create_mkdir_authorized_witness :
    ∃ pre1 D c,
      [Event.may_access 100 1000 1000 "/user".toList .O_RDWR true,
        Event.mkdir "/user/a".toList 0o755 .ok,
        Event.chown_cgroup_path "/user/a".toList 1000 1000 true true,
        Event.may_access 100 1000 1000 "/user/a".toList .O_RDWR true]
        = pre1 ++ [Event.may_access alice.pid alice.uid alice.gid D .O_RDWR true] ∧
      "/user/a/b".toList = D ++ '/' :: c ∧ '/' ∉ c ∧
      "/user/a/b".toList.length < MAXPATHLEN ∧ D.length < MAXPATHLEN :=
  create_mkdir_authorized (cgSys openEnv) [userDir] "memory".toList "a/b".toList alice
    _ [Event.chown_cgroup_path "/user/a/b".toList 1000 1000 true true]
    "/user/a/b".toList 0o755 .ok
    (fun rcgpath h => by
      have h1 : rcgpath = "/user".toList := by
        have h2 : some "/user".toList = some rcgpath := h
        simp only [Option.some.injEq] at h2
        exact h2.symm
      subst h1
      decide)
    (by decide)

/-! ### Idempotence of `create_main` on any host -/

theorem create_loop_no_dotdot (sys : Sys σ) (u : ucred) :
    ∀ (comps : List (List Char)) (st : σ) (path dirpath : List Char) (ex : Int),
      (create_loop sys u comps st path dirpath ex).ret = 0 → ∀ p ∈ comps, p ≠ ['.', '.']
  | [], _, _, _, _ => by
    intro _ p hp
    simp at hp
  | p :: rest, st, path, dirpath, ex => by
    intro h q hq
    have ih := fun st1 path1 dirpath1 ex1 hr =>
      create_loop_no_dotdot sys u rest st1 path1 dirpath1 ex1 hr
    generalize ho : create_loop sys u (p :: rest) st path dirpath ex = o at h
    unfold create_loop at ho
    split at ho
    · subst ho
      exact absurd h (by simp)
    · rename_i hp
      rcases List.mem_cons.1 hq with rfl | hq
      · exact hp
      · simp only [] at ho
        split at ho
        · split at ho
          · subst ho
            exact ih _ _ _ _ (by rw [after_ret] at h; exact h) q hq
          · subst ho
            exact absurd h (by simp)
        · split at ho
          · split at ho
            · subst ho
              exact ih _ _ _ _ (by rw [after_ret] at h; exact h) q hq
            · subst ho
              exact absurd h (by simp)
            · split at ho
              · subst ho
                exact absurd h (by simp)
              · subst ho
                exact ih _ _ _ _ (by rw [after_ret] at h; exact h) q hq
          · subst ho
            exact absurd h (by simp)

theorem create_loop_rerun (sys : Sys σ) (u : ucred) :
    ∀ (comps : List (List Char)) (st : σ) (path dirpath : List Char) (ex : Int),
      (∀ p ∈ comps, p ≠ ['.', '.']) →
      (∀ q ∈ component_paths path comps, sys.dir_exists st q = true ∧
        sys.may_access st u.pid u.uid u.gid q .O_RDONLY = true) →
      create_loop sys u comps st path dirpath ex
        = ⟨0, if comps = [] then ex else 1, st,
            (component_paths path comps).map
              (fun q => Event.may_access u.pid u.uid u.gid q .O_RDONLY true)⟩
  | [], st, path, dirpath, ex => by
    intro _ _
    simp [create_loop, component_paths]
  | p :: rest, st, path, dirpath, ex => by
    intro hdd hq
    have hp : p ≠ ['.', '.'] := hdd p (List.mem_cons_self _ _)
    have hq1 := hq _ (List.mem_cons_self _ _)
    have ih := create_loop_rerun sys u rest st
      (strncat (strncat path ['/'] (MAXPATHLEN - 1)) p (MAXPATHLEN - 1))
      (strncat (strncat dirpath ['/'] (MAXPATHLEN - 1)) p (MAXPATHLEN - 1)) 1
      (fun p1 h => hdd p1 (List.mem_cons_of_mem _ h))
      (fun q h => hq q (List.mem_cons_of_mem _ h))
    have hde : sys.dir_exists st
        (strncat (strncat path ['/'] (MAXPATHLEN - 1)) p (MAXPATHLEN - 1)) = true := hq1.1
    have hac : sys.may_access st u.pid u.uid u.gid
        (strncat (strncat path ['/'] (MAXPATHLEN - 1)) p (MAXPATHLEN - 1)) .O_RDONLY = true :=
      hq1.2
    unfold create_loop
    simp only [hp, if_false, hde, hac, if_true, ih, Outcome.after, component_paths,
      List.map_cons, List.singleton_append]
    cases rest <;> simp

/-- C5, counterexample: on a host whose directories hold the regular file
`tasks`, the requestor in `/user` creates `tasks`.  The first `create_main`
finds no directory `/user/tasks`, checks the write access on `/user`, calls
`mkdir`, which answers `EEXIST`, and succeeds with `existed = 1`; the same
`create_main` run again makes the same two calls, so it does call `mkdir`,
although it replies `'2'` and the tree stays identical. -/
theorem create_existing_file_repeats_mkdir :
    create_main (cgFileSys openEnv controlFiles) [userDir] "memory".toList "tasks".toList
        alice
      = ⟨0, 1, [userDir],
          [Event.may_access 100 1000 1000 "/user".toList .O_RDWR true,
            Event.mkdir "/user/tasks".toList 0o755 .eexist]⟩ ∧
    (cgFileSys openEnv controlFiles).may_access [userDir] 100 1000 1000
      "/user/tasks".toList .O_RDONLY = true ∧
    create_main (cgFileSys openEnv controlFiles)
        (create_main (cgFileSys openEnv controlFiles) [userDir] "memory".toList
          "tasks".toList alice).st "memory".toList "tasks".toList alice
      = ⟨0, 1, [userDir],
          [Event.may_access 100 1000 1000 "/user".toList .O_RDWR true,
            Event.mkdir "/user/tasks".toList 0o755 .eexist]⟩ :=
  ⟨rfl, rfl, rfl⟩

/-- C5, amended: on any host, let `create_main` succeed on a request whose
paths fit the buffers, and let afterwards the requestor's cgroup be the same,
every component path of the client path be a directory, and the requestor have
read access to each of them.  Then the same `create_main` run again in the
resulting state returns 0 with `existed = 1` (reply `'2'`), leaves the state
identical, and its calls are exactly the read checks on the component paths,
all shorter than `MAXPATHLEN`: no `mkdir`, no chown, no `rmdir`. -/
theorem create_idempotent (sys : Sys σ) (st : σ) (controller cgroup : List Char) (u : ucred)
    (h1 : (create_main sys st controller cgroup u).ret = 0)
    (hfit : ∀ rcgpath, sys.compute_pid_cgroup st u.pid controller [] = some rcgpath →
      rcgpath.length + cgroup.length + 2 ≤ MAXPATHLEN)
    (hcg : sys.compute_pid_cgroup (create_main sys st controller cgroup u).st u.pid
      controller [] = sys.compute_pid_cgroup st u.pid controller [])
    (hdir : ∀ rcgpath, sys.compute_pid_cgroup st u.pid controller [] = some rcgpath →
      ∀ q ∈ component_paths rcgpath (components cgroup),
        sys.dir_exists (create_main sys st controller cgroup u).st q = true ∧
        sys.may_access (create_main sys st controller cgroup u).st
          u.pid u.uid u.gid q .O_RDONLY = true) :
    ∃ trace,
      create_main sys (create_main sys st controller cgroup u).st controller cgroup u
        = ⟨0, 1, (create_main sys st controller cgroup u).st, trace⟩ ∧
      (∀ e ∈ trace, e.isMutation = false ∧ e.path.length < MAXPATHLEN) ∧
      (∀ rcgpath, sys.compute_pid_cgroup st u.pid controller [] = some rcgpath →
        trace = (component_paths rcgpath (components cgroup)).map
          (fun q => Event.may_access u.pid u.uid u.gid q .O_RDONLY true)) ∧
      create_scm_complete (create_main sys
        (create_main sys st controller cgroup u).st controller cgroup u) = '2' := by
  have hfit1 : ∀ rcgpath,
      sys.compute_pid_cgroup (create_main sys st controller cgroup u).st u.pid controller []
        = some rcgpath → rcgpath.length + cgroup.length + 2 ≤ MAXPATHLEN := by
    intro rcgpath h
    rw [hcg] at h
    exact hfit rcgpath h
  have hlenall := create_main_paths_fit sys (create_main sys st controller cgroup u).st
    controller cgroup u hfit1
  generalize hst1 : (create_main sys st controller cgroup u).st = st1 at hcg hdir hlenall ⊢
  cases cgroup with
  | nil => exact ⟨[], rfl, by simp, by simp [component_paths, components],
      by simp [create_main, create_scm_complete]⟩
  | cons c0 cs =>
    by_cases hc : c0 = '/' ∨ c0 = '.'
    · simp [create_main, hc] at h1
    · cases hcg0 : sys.compute_pid_cgroup st u.pid controller [] with
      | none => simp [create_main, hc, hcg0] at h1
      | some rcgpath =>
        rw [hcg0] at hcg
        by_cases hl : rcgpath.length + (c0 :: cs).length > MAXPATHLEN
        · simp only [create_main, hc, if_false, hcg0, hl, if_true] at h1
          simp at h1
        · have hrun0 : create_main sys st controller (c0 :: cs) u
              = create_loop sys u (components (c0 :: cs)) st rcgpath rcgpath 1 := by
            simp only [create_main, hc, if_false, hcg0, hl]
          have hrun1 : create_main sys st1 controller (c0 :: cs) u
              = create_loop sys u (components (c0 :: cs)) st1 rcgpath rcgpath 1 := by
            simp only [create_main, hc, if_false, hcg, hl]
          rw [hrun0] at h1
          have hdd := create_loop_no_dotdot sys u _ st rcgpath rcgpath 1 h1
          have h2 := create_loop_rerun sys u (components (c0 :: cs)) st1
            rcgpath rcgpath 1 hdd (hdir rcgpath hcg0)
          rw [hrun1, h2] at hlenall
          rw [hrun1, h2]
          refine ⟨(component_paths rcgpath (components (c0 :: cs))).map
            (fun q => Event.may_access u.pid u.uid u.gid q .O_RDONLY true), ?_, ?_, ?_, ?_⟩
          · simp
          · intro e he
            refine ⟨?_, hlenall e he⟩
            obtain ⟨q, _, rfl⟩ := List.mem_map.1 he
            rfl
          · intro r hr
            simp only [Option.some.injEq] at hr
            rw [hr]
          · simp [create_scm_complete]

/-- Witness of C5: scenario S1, `create("memory", "a/b")` twice. -/
theorem create_idempotent_witness :
    ∃ trace,
      create_main (cgSys openEnv)
          (create_main (cgSys openEnv) [userDir] "memory".toList "a/b".toList alice).st
          "memory".toList "a/b".toList alice
        = ⟨0, 1, (create_main (cgSys openEnv) [userDir] "memory".toList "a/b".toList alice).st,
            trace⟩ ∧
      (∀ e ∈ trace, e.isMutation = false ∧ e.path.length < MAXPATHLEN) ∧
      (∀ rcgpath, (cgSys openEnv).compute_pid_cgroup [userDir] alice.pid "memory".toList []
          = some rcgpath →
        trace = (component_paths rcgpath (components "a/b".toList)).map
          (fun q => Event.may_access alice.pid alice.uid alice.gid q .O_RDONLY true)) ∧
      create_scm_complete (create_main (cgSys openEnv)
        (create_main (cgSys openEnv) [userDir] "memory".toList "a/b".toList alice).st
        "memory".toList "a/b".toList alice) = '2' :=
  create_idempotent (cgSys openEnv) [userDir] "memory".toList "a/b".toList alice (by decide)
    (fun rcgpath h => by
      have h2 : some "/user".toList = some rcgpath := h
      simp only [Option.some.injEq] at h2
      subst h2
      decide)
    rfl
    (fun rcgpath h => by
      have h2 : some "/user".toList = some rcgpath := h
      simp only [Option.some.injEq] at h2
      subst h2
      decide)

/-! ### Recursive removal on a tree with control files -/

theorem filesOk_filter {files : List (List Char)} {fs : CgFs} (q : CgDir → Bool)
    (h : FilesOk files fs) : FilesOk files (fs.filter q) :=
  ⟨h.proper, fun d hd => h.nodir d (List.mem_filter.1 hd).1⟩

theorem lstat_files_dir (files : List (List Char)) (fs : CgFs) (s : List Char)
    (c : List (List Char)) (hres : CgFs.resolve fs s = some c)
    (hdir : CgFs.isDir fs c = true) : CgFs.lstat_files files fs s = some true := by
  unfold CgFs.lstat_files
  rw [hres]
  simp [hdir]

theorem lstat_files_file (files : List (List Char)) (fs : CgFs) (s f : List Char)
    (c : List (List Char)) (hok : FilesOk files fs) (hres : CgFs.resolve fs s = some c)
    (hdir : CgFs.isDir fs c = true) (hf : f ∈ files) :
    CgFs.lstat_files files fs (s ++ '/' :: f) = some false := by
  have hnot : CgFs.isDir fs (f :: c) = false := by
    cases h : CgFs.isDir fs (f :: c) with
    | false => rfl
    | true =>
      exfalso
      rcases (isDir_iff _ _).1 h with h0 | ⟨d, hd, hpth⟩
      · simp at h0
      · exact hok.nodir d hd f hf (by rw [hpth]; rfl)
  unfold CgFs.lstat_files
  rw [resolve_child fs s f c hres hdir (hok.proper f hf)]
  simp [hnot, CgFs.isFile, hf, hdir]

theorem opendir_files_spec (files : List (List Char)) (fs : CgFs) (s : List Char)
    (c : List (List Char)) (hnd : (fs.map CgDir.path).Nodup)
    (hres : CgFs.resolve fs s = some c) (hdir : CgFs.isDir fs c = true) :
    ∃ kids, CgFs.opendir_files files fs s = some (['.'] :: ['.', '.'] :: (files ++ kids)) ∧
      kids.Nodup ∧ ∀ n, n ∈ kids ↔ ∃ d ∈ fs, d.path = n :: c := by
  obtain ⟨kids, hopen, hknd, hk⟩ := opendir_spec fs s c hnd hres hdir
  refine ⟨kids, ?_, hknd, hk⟩
  unfold CgFs.opendir at hopen
  unfold CgFs.opendir_files
  rw [hres] at hopen ⊢
  simp only [hdir, if_true, Option.some.injEq, List.cons.injEq, true_and] at hopen ⊢
  rw [hopen]

theorem readdir_loop_skip_files (sys : Sys CgFs) (recurse : CgFs → List Char → Option (Ret CgFs))
    (s : List Char) (cur : CgFs) (failed : Bool) (rest : List (List Char)) :
    ∀ (fl : List (List Char)),
      (∀ f ∈ fl, f ≠ ['.'] ∧ f ≠ ['.', '.'] ∧ (s ++ '/' :: f).length < MAXPATHLEN ∧
        sys.lstat_isdir cur (s ++ '/' :: f) = some false) →
      readdir_loop sys recurse s (fl ++ rest) cur failed
        = readdir_loop sys recurse s rest cur failed
  | [] => fun _ => rfl
  | f :: fl => by
    intro h
    obtain ⟨h1, h2, h3, h4⟩ := h f (List.mem_cons_self _ _)
    rw [List.cons_append, readdir_loop, if_neg (by simp [h1, h2])]
    simp only []
    rw [if_neg (by omega), h4]
    exact readdir_loop_skip_files sys recurse s cur failed rest fl
      (fun g hg => h g (List.mem_cons_of_mem _ hg))

theorem readdir_loop_files_spec (env : CgEnv) (files : List (List Char)) (k : Nat)
    (s : List Char) (c : List (List Char))
    (ih : ∀ (cur : CgFs) (s1 : List Char) (c1 : List (List Char)),
      Removable cur s1 c1 → FilesOk files cur →
      (∀ d ∈ cur, ∀ rel, rel ≠ [] → d.path = rel ++ c1 →
        (sub_path s1 rel).length < MAXPATHLEN) →
      (∀ d ∈ cur, ∀ rel, d.path = rel ++ c1 → ∀ f ∈ files,
        (sub_path s1 rel ++ '/' :: f).length < MAXPATHLEN) →
      (∀ d ∈ cur, c1 <:+ d.path → d.path.length < c1.length + k) →
      ∃ t, recursive_rmdir (cgFileSys env files) k cur s1 = some ⟨0, CgFs.prune cur c1, t⟩ ∧
        Visit s1 t ∧
        ∀ e ∈ t, ∃ p, e = Event.rmdir p true ∧ CgFs.dir_exists cur p = true) :
    ∀ (names : List (List Char)) (cur : CgFs),
      Removable cur s c → FilesOk files cur → names.Nodup →
      (∀ n ∈ names, ∃ d ∈ cur, d.path = n :: c) →
      (∀ d ∈ cur, ∀ rel, rel ≠ [] → d.path = rel ++ c →
        (sub_path s rel).length < MAXPATHLEN) →
      (∀ d ∈ cur, ∀ rel, d.path = rel ++ c → ∀ f ∈ files,
        (sub_path s rel ++ '/' :: f).length < MAXPATHLEN) →
      (∀ d ∈ cur, c <:+ d.path → d.path.length < c.length + (k + 1)) →
      ∃ t, readdir_loop (cgFileSys env files) (recursive_rmdir (cgFileSys env files) k) s
            names cur false
          = some (false,
              cur.filter (fun d => !names.any (fun n => decide ((n :: c) <:+ d.path))), t) ∧
        VisitKids s t ∧
        ∀ e ∈ t, ∃ p, e = Event.rmdir p true ∧ CgFs.dir_exists cur p = true
  | [], cur => by
    intro _ _ _ _ _ _ _
    refine ⟨[], ?_, VisitKids.nil s, by simp⟩
    simp [readdir_loop]
  | n :: ns, cur => by
    intro hrem hok hnd hkids hlen hlenF hdepth
    obtain ⟨hn, hremc⟩ := removable_child hrem (hkids n (List.mem_cons_self _ _))
    obtain ⟨hn1, _, hn3, hn4⟩ := (proper_name_iff n).1 hn
    obtain ⟨d0, hd0, hp0⟩ := hkids n (List.mem_cons_self _ _)
    have hlen0 : ¬ (s ++ '/' :: n).length ≥ MAXPATHLEN := by
      have := hlen d0 hd0 [n] (by simp) (by simpa using hp0)
      simp only [sub_path] at this
      omega
    have hstat : (cgFileSys env files).lstat_isdir cur (s ++ '/' :: n) = some true :=
      lstat_files_dir files cur _ _ hremc.resolves hremc.isdir
    obtain ⟨t1, hrec, hv1, he1⟩ := ih cur (s ++ '/' :: n) (n :: c) hremc hok
      (by
        intro d hd rel hrel hp
        rw [sub_path_child]
        exact hlen d hd (rel ++ [n]) (by simp) (by simpa using hp))
      (by
        intro d hd rel hp f hf
        rw [sub_path_child]
        exact hlenF d hd (rel ++ [n]) (by simpa using hp) f hf)
      (by
        intro d hd hsuf
        have := hdepth d hd ((List.suffix_cons n c).trans hsuf)
        simp only [List.length_cons]
        omega)
    have hnd2 := List.nodup_cons.1 hnd
    obtain ⟨t2, hloop, hv2, he2⟩ := readdir_loop_files_spec env files k s c ih ns
      (CgFs.prune cur (n :: c)) (removable_prune hrem) (filesOk_filter _ hok) hnd2.2
      (by
        intro m hm
        obtain ⟨d, hd, hp⟩ := hkids m (List.mem_cons_of_mem _ hm)
        refine ⟨d, mem_prune.2 ⟨hd, ?_⟩, hp⟩
        rw [hp]
        intro hsuf
        have hlen_eq : (n :: c).length = (m :: c).length := by simp
        have := List.IsSuffix.eq_of_length hsuf hlen_eq
        simp only [List.cons.injEq, and_true] at this
        exact hnd2.1 (this ▸ hm))
      (fun d hd => hlen d (mem_prune.1 hd).1)
      (fun d hd => hlenF d (mem_prune.1 hd).1)
      (fun d hd => hdepth d (mem_prune.1 hd).1)
    refine ⟨t1 ++ t2, ?_, VisitKids.cons s n t1 t2 hn hv1 hv2, ?_⟩
    · rw [readdir_loop, if_neg (by simp [hn3, hn4])]
      simp only []
      rw [if_neg hlen0, hstat]
      simp only [hrec]
      have hfalse : (false || decide ((0 : Int) < 0)) = false := by decide
      rw [hfalse, hloop]
      simp only [Option.some.injEq, Prod.mk.injEq, true_and, and_true]
      unfold CgFs.prune
      rw [List.filter_filter]
      apply List.filter_congr
      intro d _
      simp only [List.any_cons, Bool.not_or, Bool.and_comm]
    · intro e he
      rcases List.mem_append.1 he with he | he
      · exact he1 e he
      · obtain ⟨p, hp, hde⟩ := he2 e he
        exact ⟨p, hp, dir_exists_of_filter hde⟩

theorem recursive_rmdir_files_spec (env : CgEnv) (files : List (List Char)) :
    ∀ (fuel : Nat) (fs : CgFs) (s : List Char) (c : List (List Char)),
      Removable fs s c → FilesOk files fs →
      (∀ d ∈ fs, ∀ rel, rel ≠ [] → d.path = rel ++ c →
        (sub_path s rel).length < MAXPATHLEN) →
      (∀ d ∈ fs, ∀ rel, d.path = rel ++ c → ∀ f ∈ files,
        (sub_path s rel ++ '/' :: f).length < MAXPATHLEN) →
      (∀ d ∈ fs, c <:+ d.path → d.path.length < c.length + fuel) →
      ∃ t, recursive_rmdir (cgFileSys env files) fuel fs s = some ⟨0, CgFs.prune fs c, t⟩ ∧
        Visit s t ∧
        ∀ e ∈ t, ∃ p, e = Event.rmdir p true ∧ CgFs.dir_exists fs p = true
  | 0, fs, s, c => by
    intro hrem _ _ _ hdepth
    exfalso
    rcases (isDir_iff _ _).1 hrem.isdir with h0 | ⟨d, hd, hp⟩
    · exact hrem.nonroot h0
    · have := hdepth d hd (by rw [hp])
      rw [hp] at this
      omega
  | k + 1, fs, s, c => by
    intro hrem hok hlen hlenF hdepth
    obtain ⟨kids, hopen, hknd, hkids⟩ :=
      opendir_files_spec files fs s c hrem.nodup hrem.resolves hrem.isdir
    obtain ⟨t, hloop, hvk, hev⟩ := readdir_loop_files_spec env files k s c
      (recursive_rmdir_files_spec env files k)
      kids fs hrem hok hknd (fun n hn => (hkids n).1 hn) hlen hlenF hdepth
    obtain ⟨dc, hdc, hdcp⟩ : ∃ d ∈ fs, d.path = c := by
      rcases (isDir_iff _ _).1 hrem.isdir with h0 | h
      · exact absurd h0 hrem.nonroot
      · exact h
    have hskip : readdir_loop (cgFileSys env files) (recursive_rmdir (cgFileSys env files) k)
        s (files ++ kids) fs false
        = readdir_loop (cgFileSys env files) (recursive_rmdir (cgFileSys env files) k)
            s kids fs false := by
      apply readdir_loop_skip_files
      intro f hf
      obtain ⟨_, _, h3, h4⟩ := (proper_name_iff f).1 (hok.proper f hf)
      refine ⟨h3, h4, ?_, lstat_files_file files fs s f c hok hrem.resolves hrem.isdir hf⟩
      exact hlenF dc hdc [] (by simpa using hdcp) f hf
    have hremF : Removable
        (fs.filter (fun d => !kids.any (fun n => decide ((n :: c) <:+ d.path)))) s c := by
      have hcur : ∀ d ∈ fs, d.path <:+ c →
          (!kids.any (fun n => decide ((n :: c) <:+ d.path))) = true := by
        intro d _ hsuf
        simp only [Bool.not_eq_true', List.any_eq_false, decide_eq_true_eq]
        intro n _
        exact not_cons_suffix_of_suffix hsuf
      refine removable_filter _ hrem ?_ hcur
      intro d hd
      obtain ⟨hd1, hd2⟩ := List.mem_filter.1 hd
      obtain ⟨n, parent, hp, hn, hpar⟩ := (rooted_iff fs d).1 (hrem.rooted d hd1)
      refine (rooted_iff _ d).2 ⟨n, parent, hp, hn, ?_⟩
      rcases (isDir_iff _ _).1 hpar with h0 | ⟨d1, hd1m, hd1p⟩
      · exact (isDir_iff _ _).2 (Or.inl h0)
      · refine (isDir_iff _ _).2 (Or.inr ⟨d1, List.mem_filter.2 ⟨hd1m, ?_⟩, hd1p⟩)
        simp only [Bool.not_eq_true', List.any_eq_false, decide_eq_true_eq] at hd2 ⊢
        intro m hm hsuf
        apply hd2 m hm
        rw [hp]
        rw [hd1p] at hsuf
        exact hsuf.trans (List.suffix_cons n parent)
    have hleaf : ∀ d ∈ fs.filter (fun d => !kids.any (fun n => decide ((n :: c) <:+ d.path))),
        ∀ n, d.path ≠ n :: c := by
      intro d hd n hp
      obtain ⟨hd1, hd2⟩ := List.mem_filter.1 hd
      simp only [Bool.not_eq_true', List.any_eq_false, decide_eq_true_eq] at hd2
      exact hd2 n ((hkids n).2 ⟨d, hd1, hp⟩) (by rw [hp])
    have hrm := rmdir_leaf _ s c hremF hleaf
    have hrm1 : (cgFileSys env files).rmdir
        (fs.filter (fun d => !kids.any (fun n => decide ((n :: c) <:+ d.path)))) s
        = (true, (fs.filter (fun d =>
            !kids.any (fun n => decide ((n :: c) <:+ d.path)))).filter
              (fun d => d.path != c)) := hrm
    have hfinal : (fs.filter (fun d =>
        !kids.any (fun n => decide ((n :: c) <:+ d.path)))).filter (fun d => d.path != c)
        = CgFs.prune fs c := by
      unfold CgFs.prune
      rw [List.filter_filter]
      apply List.filter_congr
      intro d hd
      have hiff := suffix_iff_eq_or_child hrem.rooted c d hd
      by_cases hsuf : c <:+ d.path
      · simp only [hsuf, decide_True, Bool.not_true, Bool.and_eq_false_imp, bne_iff_ne,
          ne_eq, Bool.not_eq_false', List.any_eq_true, decide_eq_true_eq]
        intro hne
        rcases hiff.1 hsuf with h1 | ⟨n, hn, hns⟩
        · exact absurd h1 hne
        · exact ⟨n, (hkids n).2 hn, hns⟩
      · simp only [hsuf, decide_False, Bool.not_false, Bool.and_eq_true, bne_iff_ne, ne_eq,
          Bool.not_eq_true', List.any_eq_false, decide_eq_true_eq]
        refine ⟨fun e => hsuf (hiff.2 (Or.inl e)), ?_⟩
        intro n hn hns
        exact hsuf (hiff.2 (Or.inr ⟨n, (hkids n).1 hn, hns⟩))
    refine ⟨t ++ [Event.rmdir s true], ?_, Visit.node s t hvk, ?_⟩
    · have hopen1 : (cgFileSys env files).opendir fs s
          = some (['.'] :: ['.', '.'] :: (files ++ kids)) := hopen
      have hclose : (cgFileSys env files).closedir
          (fs.filter (fun d => !kids.any (fun n => decide ((n :: c) <:+ d.path)))) s
          = true := rfl
      rw [recursive_rmdir, hopen1]
      simp only [readdir_loop, true_or, or_true, if_true, hskip, hloop, hclose, hrm1, hfinal]
      rfl
    · intro e he
      rcases List.mem_append.1 he with he | he
      · exact hev e he
      · simp only [List.mem_singleton] at he
        refine ⟨s, he, ?_⟩
        unfold CgFs.dir_exists
        rw [hrem.resolves]
        exact hrem.isdir

theorem sub_path_files_fit (files : List (List Char)) (fs : CgFs) (s : List Char)
    (c : List (List Char))
    (h : ∀ d ∈ fs, ∀ f ∈ files,
      s.length + (d.path.map (fun n => n.length + 1)).sum + f.length + 1 < MAXPATHLEN) :
    ∀ d ∈ fs, ∀ rel, d.path = rel ++ c → ∀ f ∈ files,
      (sub_path s rel ++ '/' :: f).length < MAXPATHLEN := by
  intro d hd rel hp f hf
  have h1 := h d hd f hf
  rw [hp, List.map_append, List.sum_append] at h1
  rw [List.length_append, sub_path_length, List.length_cons]
  omega

/-- C12, amended: on a directory tree whose directories hold the regular
control files `files`, let the tree be well formed (no path twice, every
directory with a proper name below a directory of the tree, no directory named
like a control file), let the path string `s` name the directory `c`, not the
root, without a `..` segment and without a final `.`, let every path string
that is built below `s`, for a subdirectory or for a control file, be shorter
than `MAXPATHLEN`, and let the bound on the recursion depth exceed the depth of
the tree below `c`.  Then `recursive_rmdir` returns, with result 0; its calls
are a post-order visit (`Visit`: subtrees first, then the `rmdir` of their
parent), all of them successful `rmdir` calls on directories of the tree, none
on a control file; and afterwards the tree is the old tree without `c` and
everything below it, so neither `s` nor any directory below `c` exists. -/
theorem recursive_rmdir_no_residue (env : CgEnv) (files : List (List Char)) (fuel : Nat)
    (fs : CgFs) (s : List Char) (c : List (List Char))
    (hnd : (fs.map CgDir.path).Nodup)
    (hroot : ∀ d ∈ fs, CgFs.rooted fs d = true)
    (hfiles : ∀ f ∈ files, proper_name f = true)
    (hnodir : ∀ d ∈ fs, ∀ f ∈ files, d.path.head? ≠ some f)
    (hres : CgFs.resolve fs s = some c)
    (hdir : CgFs.isDir fs c = true)
    (hc : c ≠ [])
    (hdd : ['.', '.'] ∉ split_slash s)
    (hls : CgFs.last_segment s ≠ some ['.'])
    (hlen : ∀ d ∈ fs, ∀ rel, rel ≠ [] → d.path = rel ++ c →
      (sub_path s rel).length < MAXPATHLEN)
    (hlenF : ∀ d ∈ fs, ∀ rel, d.path = rel ++ c → ∀ f ∈ files,
      (sub_path s rel ++ '/' :: f).length < MAXPATHLEN)
    (hfuel : ∀ d ∈ fs, c <:+ d.path → d.path.length < c.length + fuel) :
    ∃ r, recursive_rmdir (cgFileSys env files) fuel fs s = some r ∧ r.ret = 0 ∧
      Visit s r.trace ∧
      (∀ e ∈ r.trace, ∃ p, e = Event.rmdir p true ∧ CgFs.dir_exists fs p = true) ∧
      r.st = CgFs.prune fs c ∧
      (∀ p, c <:+ p → CgFs.isDir r.st p = false) ∧
      CgFs.dir_exists r.st s = false := by
  obtain ⟨t, hrec, hv, hev⟩ := recursive_rmdir_files_spec env files fuel fs s c
    ⟨hnd, hroot, hres, hdir, hc, hdd, hls⟩ ⟨hfiles, hnodir⟩ hlen hlenF hfuel
  have hgone : ∀ p, c <:+ p → CgFs.isDir (CgFs.prune fs c) p = false := by
    intro p hp
    cases hd : CgFs.isDir (CgFs.prune fs c) p with
    | false => rfl
    | true =>
      exfalso
      rcases (isDir_iff _ _).1 hd with h0 | ⟨d, hd1, hd2⟩
      · subst h0
        exact hc (List.suffix_nil.1 hp)
      · exact (mem_prune.1 hd1).2 (hd2 ▸ hp)
  refine ⟨_, hrec, rfl, hv, hev, rfl, hgone, ?_⟩
  show CgFs.dir_exists (CgFs.prune fs c) s = false
  unfold CgFs.dir_exists
  cases hr : CgFs.resolve (CgFs.prune fs c) s with
  | none => rfl
  | some c1 =>
    have hr1 : CgFs.resolve fs s = some c1 :=
      walk_mono (fun _ hq => isDir_filter hq) _ _ _ hr
    rw [hres] at hr1
    simp only [Option.some.injEq] at hr1
    subst hr1
    exact hgone c (List.suffix_refl c)

/-- Witness of C12: scenario S6, the recursive removal of `/user/t` with the
directories `u` and `u/v` below it, each holding the control files, leaves
the tree `/user`. -/
theorem recursive_rmdir_no_residue_witness :
    ∃ r, recursive_rmdir (cgFileSys openEnv controlFiles) 3 tuvTree "/user/t".toList = some r ∧
      r.ret = 0 ∧
      Visit "/user/t".toList r.trace ∧
      (∀ e ∈ r.trace, ∃ p, e = Event.rmdir p true ∧ CgFs.dir_exists tuvTree p = true) ∧
      r.st = CgFs.prune tuvTree ["t".toList, "user".toList] ∧
      (∀ p, ["t".toList, "user".toList] <:+ p → CgFs.isDir r.st p = false) ∧
      CgFs.dir_exists r.st "/user/t".toList = false :=
  recursive_rmdir_no_residue openEnv controlFiles 3 tuvTree "/user/t".toList
    ["t".toList, "user".toList]
    (by decide) (by decide) (by decide) (by decide) (by decide) (by decide) (by decide)
    (by decide) (by decide)
    (sub_path_fits tuvTree "/user/t".toList _ (by decide))
    (sub_path_files_fit controlFiles tuvTree "/user/t".toList _ (by decide)) (by decide)

/-- Scenario S6 evaluated on the tree with control files: the calls of the
recursive removal of `/user/t` and the tree that is left. -/
theorem recursive_rmdir_tuv :
    recursive_rmdir (cgFileSys openEnv controlFiles) 3 tuvTree "/user/t".toList
      = some ⟨0, [userDir],
          [Event.rmdir "/user/t/u/v".toList true, Event.rmdir "/user/t/u".toList true,
            Event.rmdir "/user/t".toList true]⟩ :=
  rfl

theorem dot_path_length (s : List Char) : ∀ (k : Nat), (dot_path s k).length = s.length + 2 * k
  | 0 => rfl
  | k + 1 => by
    rw [dot_path, List.length_append, dot_path_length s k]
    simp only [List.length_cons, List.length_nil]
    omega

theorem resolve_dot (fs : CgFs) (s : List Char) (c : List (List Char))
    (hres : CgFs.resolve fs s = some c) (hdir : CgFs.isDir fs c = true) :
    CgFs.resolve fs (s ++ ['/', '.']) = some c := by
  unfold CgFs.resolve at hres ⊢
  rw [split_slash_append, walk_append, hres]
  have h1 : split_slash ['.'] = [['.']] := by decide
  rw [h1]
  simp [walk_cons, CgFs.walk, hdir]

theorem resolve_dot_path (fs : CgFs) (s : List Char) (c : List (List Char))
    (hres : CgFs.resolve fs s = some c) (hdir : CgFs.isDir fs c = true) :
    ∀ (k : Nat), CgFs.resolve fs (dot_path s k) = some c
  | 0 => hres
  | k + 1 => resolve_dot fs _ c (resolve_dot_path fs s c hres hdir k) hdir

theorem readdir_loop_all_long (sys : Sys σ) (recurse : σ → List Char → Option (Ret σ))
    (s : List Char) (cur : σ) (hlong : MAXPATHLEN ≤ s.length + 2) :
    ∀ (names : List (List Char)) (failed : Bool), (∀ n ∈ names, n ≠ []) →
      ∃ f, readdir_loop sys recurse s names cur failed = some (f, cur, [])
  | [], failed => fun _ => ⟨failed, rfl⟩
  | n :: ns, failed => by
    intro h
    have hn : n ≠ [] := h n (List.mem_cons_self _ _)
    have hns : ∀ m ∈ ns, m ≠ [] := fun m hm => h m (List.mem_cons_of_mem _ hm)
    rw [readdir_loop]
    split
    · exact readdir_loop_all_long sys recurse s cur hlong ns failed hns
    · simp only []
      have hl : (s ++ '/' :: n).length ≥ MAXPATHLEN := by
        have : 0 < n.length := List.length_pos.2 hn
        simp only [List.length_append, List.length_cons]
        omega
      rw [if_pos hl]
      exact readdir_loop_all_long sys recurse s cur hlong ns true hns

theorem rmdir_nonempty (fs : CgFs) (s : List Char) (c : List (List Char))
    (hres : CgFs.resolve fs s = some c) (hch : CgFs.hasChild fs c = true) :
    CgFs.rmdir fs s = (false, fs) := by
  unfold CgFs.rmdir
  rw [hres]
  simp only [hch, if_true]
  split
  · rfl
  · split
    · rfl
    · split <;> rfl

theorem recursive_rmdir_too_long (env : CgEnv) (files : List (List Char)) (fuel : Nat)
    (fs : CgFs) (s : List Char) (c : List (List Char))
    (hnd : (fs.map CgDir.path).Nodup)
    (hroot : ∀ d ∈ fs, CgFs.rooted fs d = true)
    (hfiles : ∀ f ∈ files, proper_name f = true)
    (hres : CgFs.resolve fs s = some c)
    (hdir : CgFs.isDir fs c = true)
    (hkid : CgFs.hasChild fs c = true)
    (hlong : MAXPATHLEN ≤ s.length + 2) :
    recursive_rmdir (cgFileSys env files) (fuel + 1) fs s
      = some ⟨-1, fs, [Event.rmdir s false]⟩ := by
  obtain ⟨kids, hopen, _, hkids⟩ := opendir_files_spec files fs s c hnd hres hdir
  have hnames : ∀ n ∈ ['.'] :: ['.', '.'] :: (files ++ kids), n ≠ [] := by
    intro n hn
    simp only [List.mem_cons, List.mem_append] at hn
    rcases hn with rfl | rfl | hf | hk
    · simp
    · simp
    · exact ((proper_name_iff n).1 (hfiles n hf)).1
    · obtain ⟨d, hd, hp⟩ := (hkids n).1 hk
      obtain ⟨n1, p1, hp1, hn1, _⟩ := (rooted_iff fs d).1 (hroot d hd)
      rw [hp] at hp1
      simp only [List.cons.injEq] at hp1
      rw [hp1.1]
      exact ((proper_name_iff n1).1 hn1).1
  obtain ⟨f, hloop⟩ := readdir_loop_all_long (cgFileSys env files)
    (recursive_rmdir (cgFileSys env files) fuel) s fs hlong _ false hnames
  have hopen1 : (cgFileSys env files).opendir fs s
      = some (['.'] :: ['.', '.'] :: (files ++ kids)) := hopen
  have hrm : (cgFileSys env files).rmdir fs s = (false, fs) := rmdir_nonempty fs s c hres hkid
  rw [recursive_rmdir, hopen1]
  simp only [hloop, hrm]
  simp

/-- C12, counterexample: in the finite tree `/user/a/t` with the subdirectory
`u`, the target is named by the path string `longT` of 4095 bytes.  The path
of every entry of the target would have at least `MAXPATHLEN` bytes, so
`recursive_rmdir` skips them all with `failed = 1`; it then calls `rmdir` on
the target, which still has its subdirectory, returns -1 and leaves the whole
tree.  Named by `/user/a/t`, the same tree is removed. -/
theorem recursive_rmdir_skips_long_paths :
    longT.length = 4095 ∧
    CgFs.resolve atuTree longT = some ["t".toList, "a".toList, "user".toList] ∧
    recursive_rmdir (cgFileSys openEnv controlFiles) 4097 atuTree longT
      = some ⟨-1, atuTree, [Event.rmdir longT false]⟩ ∧
    recursive_rmdir (cgFileSys openEnv controlFiles) 3 atuTree "/user/a/t".toList
      = some ⟨0, [userA, userDir],
          [Event.rmdir "/user/a/t/u".toList true, Event.rmdir "/user/a/t".toList true]⟩ := by
  have hlen : longT.length = 4095 := by
    rw [longT, List.length_append, dot_path_length]
    rfl
  have hres : CgFs.resolve atuTree longT = some ["t".toList, "a".toList, "user".toList] :=
    resolve_child atuTree _ "t".toList _
      (resolve_dot_path atuTree "/user/a".toList ["a".toList, "user".toList]
        (by decide) (by decide) 2043)
      (by decide) (by decide)
  refine ⟨hlen, hres, ?_, rfl⟩
  exact recursive_rmdir_too_long openEnv controlFiles 4096 atuTree longT _
    (by decide) (by decide) (by decide) hres (by decide) (by decide)
    (by rw [hlen]; decide)

theorem dot_path_append (a b : List Char) : ∀ (k : Nat),
    a ++ dot_path b k = dot_path (a ++ b) k
  | 0 => rfl
  | k + 1 => by
    rw [dot_path, dot_path, ← List.append_assoc, dot_path_append a b k]

theorem strstr_dotdot_append : ∀ (x y : List Char), strstr_dotdot x = false →
    strstr_dotdot y = false → y.head? ≠ some '.' → strstr_dotdot (x ++ y) = false
  | [], y, _, hy, _ => by simpa using hy
  | [c], y, _, hy, hh => by
    cases y with
    | nil => simp [strstr_dotdot]
    | cons d y =>
      have hd : d ≠ '.' := by simpa using hh
      show strstr_dotdot (c :: d :: y) = false
      rw [strstr_dotdot]
      simp [hd, hy]
  | c :: d :: x, y, hx, hy, hh => by
    simp only [strstr_dotdot, Bool.or_eq_false_iff, Bool.and_eq_false_imp, beq_iff_eq] at hx
    have ih := strstr_dotdot_append (d :: x) y hx.2 hy hh
    simp only [List.cons_append] at ih ⊢
    simp only [strstr_dotdot, Bool.or_eq_false_iff, Bool.and_eq_false_imp, beq_iff_eq]
    exact ⟨hx.1, ih⟩

theorem strstr_slashslash_append : ∀ (x y : List Char), strstr_slashslash x = false →
    strstr_slashslash y = false → x.getLast? ≠ some '/' → strstr_slashslash (x ++ y) = false
  | [], y, _, hy, _ => by simpa using hy
  | [c], y, _, hy, hl => by
    have hc : c ≠ '/' := by simpa using hl
    cases y with
    | nil => simp [strstr_slashslash]
    | cons d y =>
      show strstr_slashslash (c :: d :: y) = false
      rw [strstr_slashslash]
      simp [hc, hy]
  | c :: d :: x, y, hx, hy, hl => by
    simp only [strstr_slashslash, Bool.or_eq_false_iff, Bool.and_eq_false_imp, beq_iff_eq] at hx
    have ih := strstr_slashslash_append (d :: x) y hx.2 hy (by simpa using hl)
    simp only [List.cons_append] at ih ⊢
    simp only [strstr_slashslash, Bool.or_eq_false_iff, Bool.and_eq_false_imp, beq_iff_eq]
    exact ⟨hx.1, ih⟩

theorem dot_path_plain (s : List Char) (hdd : strstr_dotdot s = false)
    (hss : strstr_slashslash s = false) (hl : s.getLast? ≠ some '/') : ∀ (k : Nat),
    strstr_dotdot (dot_path s k) = false ∧ strstr_slashslash (dot_path s k) = false ∧
      (dot_path s k).getLast? ≠ some '/'
  | 0 => ⟨hdd, hss, hl⟩
  | k + 1 => by
    obtain ⟨h1, h2, h3⟩ := dot_path_plain s hdd hss hl k
    rw [dot_path]
    refine ⟨strstr_dotdot_append _ _ h1 (by decide) (by decide),
      strstr_slashslash_append _ _ h2 (by decide) h3, ?_⟩
    rw [List.getLast?_append]
    simp

theorem cut_at_last_slash_child : ∀ (x n : List Char), '/' ∉ n →
    cut_at_last_slash (x ++ '/' :: n) = some x
  | [], n, hn => by
    have h0 : ∀ (m : List Char), '/' ∉ m → cut_at_last_slash m = none := by
      intro m
      induction m with
      | nil => intro _; rfl
      | cons a m ih =>
        intro hm
        have ha : a ≠ '/' := fun e => hm (by simp [e])
        rw [cut_at_last_slash, ih (fun e => hm (List.mem_cons_of_mem _ e))]
        simp [ha]
    rw [List.nil_append, cut_at_last_slash, h0 n hn]
    simp
  | c :: x, n, hn => by
    rw [List.cons_append, cut_at_last_slash, cut_at_last_slash_child x n hn]

theorem remove_main_dot_path (k : Nat) (hlo : MAXPATHLEN ≤ 2 * k + 11)
    (hhi : 2 * k + 8 ≤ MAXPATHLEN) :
    normalize_path (dot_path "a".toList k ++ "/t".toList)
      = some (dot_path "a".toList k ++ "/t".toList) ∧
    remove_main (cgFileSys openEnv controlFiles) (MAXPATHLEN + 1) atuTree "memory".toList
        (dot_path "a".toList k ++ "/t".toList) alice 1
      = some ⟨-1, 1, atuTree,
          [Event.may_access 100 1000 1000 (dot_path "/user/a".toList k) .O_WRONLY true,
            Event.rmdir (dot_path "/user/a".toList k ++ "/t".toList) false]⟩ := by
  obtain ⟨h1, h2, h3⟩ := dot_path_plain "a".toList (by decide) (by decide) (by decide) k
  have hdd : strstr_dotdot (dot_path "a".toList k ++ "/t".toList) = false :=
    strstr_dotdot_append _ _ h1 (by decide) (by decide)
  have hss : strstr_slashslash (dot_path "a".toList k ++ "/t".toList) = false :=
    strstr_slashslash_append _ _ h2 (by decide) h3
  have hnorm : normalize_path (dot_path "a".toList k ++ "/t".toList)
      = some (dot_path "a".toList k ++ "/t".toList) := by
    unfold normalize_path
    rw [hdd, normalize_scan_id _ hss]
    rfl
  have hbase : "/user".toList ++ ['/'] ++ "a".toList = "/user/a".toList := by decide
  have hwork : "/user".toList ++ ['/'] ++ (dot_path "a".toList k ++ "/t".toList)
      = dot_path "/user/a".toList k ++ "/t".toList := by
    rw [← List.append_assoc, dot_path_append, hbase]
  have hres : CgFs.resolve atuTree (dot_path "/user/a".toList k ++ "/t".toList)
      = some ["t".toList, "a".toList, "user".toList] :=
    resolve_child atuTree _ "t".toList _
      (resolve_dot_path atuTree "/user/a".toList ["a".toList, "user".toList]
        (by decide) (by decide) k)
      (by decide) (by decide)
  have hproj : (cgFileSys openEnv controlFiles).dir_exists = CgFs.dir_exists := rfl
  have hde : (cgFileSys openEnv controlFiles).dir_exists atuTree
      (dot_path "/user/a".toList k ++ "/t".toList) = true := by
    rw [hproj]
    unfold CgFs.dir_exists
    rw [hres]
    decide
  have hcut : cut_at_last_slash (dot_path "/user/a".toList k ++ "/t".toList)
      = some (dot_path "/user/a".toList k) :=
    cut_at_last_slash_child _ "t".toList (by decide)
  have hlenT : (dot_path "/user/a".toList k ++ "/t".toList).length = 2 * k + 9 := by
    rw [List.length_append, dot_path_length]
    simp only [String.toList, List.length_cons, List.length_nil]
    omega
  have hrec : recursive_rmdir (cgFileSys openEnv controlFiles) (MAXPATHLEN + 1) atuTree
      (dot_path "/user/a".toList k ++ "/t".toList)
      = some ⟨-1, atuTree,
          [Event.rmdir (dot_path "/user/a".toList k ++ "/t".toList) false]⟩ :=
    recursive_rmdir_too_long openEnv controlFiles MAXPATHLEN atuTree _ _
      (by decide) (by decide) (by decide) hres (by decide) (by decide)
      (by rw [hlenT]; omega)
  have h4 := dot_path_append ['a'] [] k
  have hcg : dot_path "a".toList k ++ "/t".toList
      = 'a' :: (dot_path [] k ++ "/t".toList) := by
    have ha : "a".toList = ['a'] ++ [] := rfl
    rw [ha, ← h4]
    rfl
  have hlenC : (dot_path "a".toList k ++ "/t".toList).length = 2 * k + 3 := by
    rw [List.length_append, dot_path_length]
    simp only [String.toList, List.length_cons, List.length_nil]
    omega
  refine ⟨hnorm, ?_⟩
  have hcomp : (cgFileSys openEnv controlFiles).compute_pid_cgroup atuTree alice.pid
      "memory".toList [] = some "/user".toList := rfl
  have hl : ¬ ("/user".toList.length + ('a' :: (dot_path [] k ++ "/t".toList)).length
      > MAXPATHLEN) := by
    rw [← hcg, hlenC]
    simp only [String.toList, List.length_cons, List.length_nil]
    omega
  rw [hcg] at hnorm hwork
  rw [hcg]
  have hc0 : ¬ ('a' = '/' ∨ 'a' = '.') := by decide
  simp only [remove_main, hc0, if_false, hcomp, hl, hnorm, hwork, hde, Bool.not_true,
    Bool.false_eq_true, hcut, hrec]
  rfl

/-- The counterexample of C12 through the executor: the requestor in `/user`
asks for the recursive removal of the client path `longClientPath`, which
names `/user/a/t`.  `remove_main` accepts it, builds the path `longT`, finds
the directory, is granted the write access on its parent, and
`recursive_rmdir` then removes nothing: the result is -1 and the reply `'0'`. -/
theorem remove_main_skips_long_paths :
    normalize_path longClientPath = some longClientPath ∧
    remove_main (cgFileSys openEnv controlFiles) (MAXPATHLEN + 1) atuTree "memory".toList
        longClientPath alice 1
      = some ⟨-1, 1, atuTree,
          [Event.may_access 100 1000 1000 (dot_path "/user/a".toList 2043) .O_WRONLY true,
            Event.rmdir longT false]⟩ :=
  remove_main_dot_path 2043 (by decide) (by decide)

end Cgmanager
